import Mathlib

/-!
# Elastic Agent: control socket address, listener and runtime manager

A shallow embedding of `pkg/control/addr.go` (`Address`),
`pkg/control/v2/server/listener.go` (`createListener`, `cleanupListener`) and of the
parts of the component runtime the seed tests in `pkg/component/runtime/manager_test.go`
exercise.

Go strings are byte sequences, so a string is a `List Nat` of byte values and `len` is the
length of that list.  The standard-library functions `Address` calls
(`path/filepath.Join`, `crypto/sha256.Sum256`, `fmt.Sprintf` with `%s` and `%x`) are
embedded byte for byte.
-/

namespace ElasticAgent

/-! ## Go strings -/

/-- A Go string: its bytes, in order. -/
abbrev GoString := List Nat

/-- The bytes of an ASCII literal. -/
def ascii (s : String) : GoString := s.toList.map Char.toNat

/-- Go `len(s)`: the number of bytes. -/
def len (s : GoString) : Nat := s.length

/-! ## `path/filepath` on unix -/

/-- Go `os.IsPathSeparator` on unix: the byte is `'/'`. -/
def isPathSeparator (c : Nat) : Bool := c == 47

/-- The rest of the path ends the current element: `r == n || IsPathSeparator(path[r])`. -/
def atElemEnd : GoString → Bool
  | [] => true
  | c :: _ => isPathSeparator c

/-- The inner loop of the `..` case of `filepath.Clean`:
`for out.w > dotdot && !IsPathSeparator(out.index(out.w)) { out.w-- }`, started at `w`. -/
def backtrack (out : GoString) (dotdot : Nat) : Nat → Nat
  | 0 => 0
  | w + 1 =>
    if dotdot < w + 1 ∧ isPathSeparator (out.getD (w + 1) 0) = false then backtrack out dotdot w
    else w + 1

/-- The `..` case of `filepath.Clean`: the buffer and `dotdot` after the element. -/
def dotdotStep (rooted : Bool) (out : GoString) (dotdot : Nat) : GoString × Nat :=
  if dotdot < out.length then
    (out.take (backtrack out dotdot (out.length - 1)), dotdot)
  else if rooted = false then
    let out1 := (if 0 < out.length then out ++ [47] else out) ++ [46, 46]
    (out1, out1.length)
  else (out, dotdot)

/-- The separator `filepath.Clean` writes before a real path element:
`if rooted && out.w != 1 || !rooted && out.w != 0 { out.append(Separator) }`. -/
def addSeparator (rooted : Bool) (out : GoString) : GoString :=
  if (rooted && out.length != 1) || (!rooted && out.length != 0) then out ++ [47] else out

/-- The main loop of `filepath.Clean` over the unread bytes `path[r:]`.  `copying` is true
inside the inner loop that copies a real path element. -/
def cleanLoop (rooted : Bool) : GoString → Bool → GoString → Nat → GoString
  | [], _, out, _ => out
  | c :: t, true, out, dotdot =>
    if isPathSeparator c then cleanLoop rooted t false out dotdot
    else cleanLoop rooted t true (out ++ [c]) dotdot
  | c :: t, false, out, dotdot =>
    if isPathSeparator c then cleanLoop rooted t false out dotdot
    else if c = 46 ∧ atElemEnd t = true then cleanLoop rooted t false out dotdot
    else
      match t with
      | [] => cleanLoop rooted [] true (addSeparator rooted out ++ [c]) dotdot
      | d :: t2 =>
        if c = 46 ∧ d = 46 ∧ atElemEnd t2 = true then
          cleanLoop rooted t2 false (dotdotStep rooted out dotdot).1 (dotdotStep rooted out dotdot).2
        else cleanLoop rooted (d :: t2) true (addSeparator rooted out ++ [c]) dotdot

/-- Go `filepath.Clean` on unix (no volume name, `FromSlash` is the identity). -/
def Clean (path : GoString) : GoString :=
  match path with
  | [] => [46]
  | c :: t =>
    let out :=
      if isPathSeparator c then cleanLoop true t false [47] 1
      else cleanLoop false (c :: t) false [] 0
    if out.length = 0 then [46] else out

/-- Go `strings.Join(elems, sep)`. -/
def stringsJoin (elems : List GoString) (sep : GoString) : GoString :=
  sep.intercalate elems

/-- Go `filepath.Join` on unix: the elements from the first non-empty one on, joined by
the separator and cleaned; the empty string when every element is empty. -/
def Join : List GoString → GoString
  | [] => []
  | e :: es => if e = [] then Join es else Clean (stringsJoin (e :: es) [47])

/-- Go `filepath.Dir` on unix: the path up to and including its last separator, cleaned. -/
def Dir (path : GoString) : GoString :=
  Clean ((path.reverse.dropWhile (fun c => !isPathSeparator c)).reverse)

/-- Go `strings.HasPrefix`. -/
def HasPrefix (s pre : GoString) : Bool := s.take pre.length == pre

/-- Go `strings.TrimPrefix`. -/
def TrimPrefix (s pre : GoString) : GoString :=
  if HasPrefix s pre then s.drop pre.length else s

/-! ## `crypto/sha256` -/

/-- The round constants `_K` of `crypto/sha256`. -/
def sha256K : List Nat :=
  [
   0x428a2f98, 0x71374491, 0xb5c0fbcf, 0xe9b5dba5, 0x3956c25b, 0x59f111f1, 0x923f82a4, 0xab1c5ed5,
   0xd807aa98, 0x12835b01, 0x243185be, 0x550c7dc3, 0x72be5d74, 0x80deb1fe, 0x9bdc06a7, 0xc19bf174,
   0xe49b69c1, 0xefbe4786, 0x0fc19dc6, 0x240ca1cc, 0x2de92c6f, 0x4a7484aa, 0x5cb0a9dc, 0x76f988da,
   0x983e5152, 0xa831c66d, 0xb00327c8, 0xbf597fc7, 0xc6e00bf3, 0xd5a79147, 0x06ca6351, 0x14292967,
   0x27b70a85, 0x2e1b2138, 0x4d2c6dfc, 0x53380d13, 0x650a7354, 0x766a0abb, 0x81c2c92e, 0x92722c85,
   0xa2bfe8a1, 0xa81a664b, 0xc24b8b70, 0xc76c51a3, 0xd192e819, 0xd6990624, 0xf40e3585, 0x106aa070,
   0x19a4c116, 0x1e376c08, 0x2748774c, 0x34b0bcb5, 0x391c0cb3, 0x4ed8aa4a, 0x5b9cca4f, 0x682e6ff3,
   0x748f82ee, 0x78a5636f, 0x84c87814, 0x8cc70208, 0x90befffa, 0xa4506ceb, 0xbef9a3f7, 0xc67178f2]

/-- A `uint32` addition. -/
def add32 (a b : Nat) : Nat := (a + b) % 4294967296

/-- Go `bits.RotateLeft32(x, -n)`: rotate a `uint32` right by `n` bits. -/
def rotr32 (x n : Nat) : Nat := ((x >>> n) ||| (x <<< (32 - n))) % 4294967296

/-- The chaining value `h[0..7]` of a SHA-256 digest. -/
structure Digest where
  h0 : Nat
  h1 : Nat
  h2 : Nat
  h3 : Nat
  h4 : Nat
  h5 : Nat
  h6 : Nat
  h7 : Nat
  deriving DecidableEq, Repr

/-- The initial chaining value set by `digest.Reset`. -/
def sha256Init : Digest :=
  ⟨0x6a09e667, 0xbb67ae85, 0x3c6ef372, 0xa54ff53a, 0x510e527f, 0x9b05688c, 0x1f83d9ab, 0x5be0cd19⟩

/-- The big-endian `uint32` at offset `j` of a block:
`uint32(p[j])<<24 | uint32(p[j+1])<<16 | uint32(p[j+2])<<8 | uint32(p[j+3])`. -/
def be32 (p : GoString) (j : Nat) : Nat :=
  (p.getD j 0 % 256) <<< 24 ||| (p.getD (j + 1) 0 % 256) <<< 16 |||
    (p.getD (j + 2) 0 % 256) <<< 8 ||| (p.getD (j + 3) 0 % 256)

/-- The message schedule word `w[i]` for `16 ≤ i`, from the words before it. -/
def scheduleWord (w : List Nat) (i : Nat) : Nat :=
  let v1 := w.getD (i - 2) 0
  let t1 := rotr32 v1 17 ^^^ rotr32 v1 19 ^^^ (v1 >>> 10)
  let v2 := w.getD (i - 15) 0
  let t2 := rotr32 v2 7 ^^^ rotr32 v2 18 ^^^ (v2 >>> 3)
  add32 (add32 (add32 t1 (w.getD (i - 7) 0)) t2) (w.getD (i - 16) 0)

/-- The 64 message schedule words of one 64-byte block. -/
def schedule (p : GoString) : List Nat :=
  (List.range 48).foldl (fun w k => w ++ [scheduleWord w (k + 16)])
    ((List.range 16).map (fun i => be32 p (i * 4)))

/-- One round of the compression function on the working variables `a..h`. -/
def sha256Round (s : Digest) (k w : Nat) : Digest :=
  let t1 := add32 (add32 (add32 (add32 s.h7
      (rotr32 s.h4 6 ^^^ rotr32 s.h4 11 ^^^ rotr32 s.h4 25))
      ((s.h4 &&& s.h5) ^^^ ((s.h4 ^^^ 4294967295) &&& s.h6))) k) w
  let t2 := add32 (rotr32 s.h0 2 ^^^ rotr32 s.h0 13 ^^^ rotr32 s.h0 22)
      ((s.h0 &&& s.h1) ^^^ (s.h0 &&& s.h2) ^^^ (s.h1 &&& s.h2))
  ⟨add32 t1 t2, s.h0, s.h1, s.h2, add32 s.h3 t1, s.h4, s.h5, s.h6⟩

/-- The body of `blockGeneric` for one 64-byte block `p`. -/
def sha256Block (dig : Digest) (p : GoString) : Digest :=
  let w := schedule p
  let s := (List.range 64).foldl (fun s i => sha256Round s (sha256K.getD i 0) (w.getD i 0)) dig
  ⟨add32 dig.h0 s.h0, add32 dig.h1 s.h1, add32 dig.h2 s.h2, add32 dig.h3 s.h3,
   add32 dig.h4 s.h4, add32 dig.h5 s.h5, add32 dig.h6 s.h6, add32 dig.h7 s.h7⟩

/-- Go `blockGeneric`: every whole 64-byte block of `p`, in order. -/
def blockGeneric (dig : Digest) (p : GoString) : Digest :=
  (List.range (p.length / 64)).foldl (fun d i => sha256Block d (p.drop (i * 64))) dig

/-- The padding `digest.checkSum` writes after a message of `n` bytes: a `0x80` byte, zero
bytes up to 56 modulo 64, and the length in bits as a big-endian `uint64`. -/
def sha256Padding (n : Nat) : GoString :=
  let t := if n % 64 < 56 then 56 - n % 64 else 64 + 56 - n % 64
  (128 :: List.replicate (t - 1) 0) ++
    (List.range 8).map (fun i => ((n * 8) % 18446744073709551616) >>> (8 * (7 - i)) % 256)

/-- The big-endian bytes of a `uint32`. -/
def putUint32 (x : Nat) : GoString :=
  [x >>> 24 % 256, x >>> 16 % 256, x >>> 8 % 256, x % 256]

/-- Go `sha256.Sum256`: the 32 digest bytes of `data`. -/
def Sum256 (data : GoString) : GoString :=
  let d := blockGeneric sha256Init (data ++ sha256Padding data.length)
  putUint32 d.h0 ++ putUint32 d.h1 ++ putUint32 d.h2 ++ putUint32 d.h3 ++
    putUint32 d.h4 ++ putUint32 d.h5 ++ putUint32 d.h6 ++ putUint32 d.h7

/-! ## `fmt.Sprintf` -/

/-- The digit table `ldigits` of package `fmt`. -/
def ldigits : GoString := ascii "0123456789abcdefx"

/-- The verb `%x` on a byte array: two lowercase hexadecimal digits per byte. -/
def fmtHex (b : GoString) : GoString :=
  b.flatMap (fun c => [ldigits.getD (c % 256 / 16) 0, ldigits.getD (c % 16) 0])

/-! ## `control.Address` -/

/-- The two constants of package `paths` that `Address` returns when installed. -/
structure Paths where
  ControlSocketPath : GoString
  ControlSocketUnprivilegedPath : GoString

/-- What `Address` reads from the process it runs in. -/
structure Host where
  /-- The result of `info.RunningInstalled()`. -/
  runningInstalled : Bool
  /-- The first result of `utils.HasRoot()`. -/
  hasRoot : Bool
  /-- The second result of `utils.HasRoot()`: its error, if any. -/
  hasRootErr : Option GoString
  /-- The result of `paths.TempDir()`. -/
  tempDir : GoString

/-- The constant second element `Address` joins to the temp directory. -/
def controlName : GoString := ascii "elastic-agent-control"

/-- The composed path `fmt.Sprintf("unix://%s.sock", filepath.Join(tmp, "elastic-agent-control"))`. -/
def composedPath (tmp : GoString) : GoString :=
  ascii "unix://" ++ Join [tmp, controlName] ++ ascii ".sock"

/-- The fallback `fmt.Sprintf("unix:///tmp/elastic-agent/%x.sock", sha256.Sum256([]byte(path)))`. -/
def hashedPath (path : GoString) : GoString :=
  ascii "unix:///tmp/elastic-agent/" ++ fmtHex (Sum256 path) ++ ascii ".sock"

/-- Go `control.Address` (unix build). -/
def Address (P : Paths) (host : Host) : GoString :=
  if host.runningInstalled then
    if host.hasRoot then P.ControlSocketPath
    else P.ControlSocketUnprivilegedPath
  else
    let path := composedPath host.tempDir
    if len path < 104 then path
    else hashedPath path


/-- The lowercase hexadecimal digits. -/
def hexDigits : GoString := ascii "0123456789abcdef"

/-- Sample values of the two `paths` constants. -/
def samplePaths : Paths :=
  ⟨ascii "unix:///run/elastic-agent.sock", ascii "unix:///run/elastic-agent-unprivileged.sock"⟩

/-- A temp directory of 70 bytes, `/aaa…a`: its composed path is exactly 104 bytes long. -/
def tmp70 : GoString := 47 :: List.replicate 69 97

/-- A temp directory of 81 bytes, `/bbb…b`: its composed path is 115 bytes long. -/
def tmp81 : GoString := 47 :: List.replicate 80 98

/-! ## The operating system seen by `createListener`

`createListener` works through `os.Stat`, `os.MkdirAll`, `net.Listen`, `os.Chmod`,
`os.Remove` and `Listener.Close`.  The file system and the table of open listeners are an
explicit state; every call may fail with an injected error and is recorded in a trace. -/

/-- The errors a system call reports. -/
inductive OSError where
  | notExist
  | exist
  | permission
  | notDir
  | addrInUse
  | other (msg : GoString)
  deriving DecidableEq, Repr

/-- Go `os.IsNotExist(err)`; false for a nil error. -/
def IsNotExist : Option OSError → Bool
  | some OSError.notExist => true
  | _ => false

/-- The kinds of file the model tells apart. -/
inductive FileKind where
  | dir
  | socket
  | regular
  deriving DecidableEq, Repr

/-- What `os.Stat` reports of a file: its kind and its permission bits. -/
structure FileInfo where
  kind : FileKind
  mode : Nat
  deriving DecidableEq, Repr

/-- The system calls `createListener`, `cleanupListener` and the file-system downloader
make. -/
inductive Op where
  | stat
  | mkdirAll
  | listen
  | chmod
  | close
  | remove
  | open
  | openFile
  | copy
  deriving DecidableEq, Repr

/-- One system call as recorded in the trace: the call, its path and its error. -/
structure Call where
  op : Op
  path : GoString
  err : Option OSError
  deriving DecidableEq, Repr

/-- A `net.Listener` on a unix socket: its descriptor and the path it is bound to. -/
structure Listener where
  fd : Nat
  path : GoString
  deriving DecidableEq, Repr

/-- The state of the operating system. -/
structure OS where
  /-- What `control.Address` reads. -/
  host : Host
  /-- The files that exist, by path. -/
  files : List (GoString × FileInfo)
  /-- The listeners that are open. -/
  listening : List Listener
  /-- The descriptor the next listener gets. -/
  nextFd : Nat
  /-- The file mode creation mask of the process. -/
  umask : Nat
  /-- The failure, if any, injected into a call on a path. -/
  fault : Op → GoString → Option OSError
  /-- The calls made so far, oldest first. -/
  trace : List Call
  /-- The bytes of the regular files, by path; a file without an entry is empty. -/
  contents : List (GoString × GoString) := []

/-- Append a call to the trace. -/
def OS.record (os : OS) (op : Op) (path : GoString) (err : Option OSError) : OS :=
  { os with trace := os.trace ++ [⟨op, path, err⟩] }

/-- The calls made between the state `os` and the later state `os2`. -/
def callsOf (os os2 : OS) : List Call := os2.trace.drop os.trace.length

/-- The file table with `path` bound to `fi`. -/
def setFile (files : List (GoString × FileInfo)) (path : GoString) (fi : FileInfo) :
    List (GoString × FileInfo) :=
  (path, fi) :: files.filter (fun p => p.1 != path)

/-- The file table without `path`. -/
def removeFile (files : List (GoString × FileInfo)) (path : GoString) :
    List (GoString × FileInfo) :=
  files.filter (fun p => p.1 != path)

/-- The permission bits a new file gets: `perm` without the bits of the umask. -/
def applyUmask (perm umask : Nat) : Nat := perm &&& (511 ^^^ (umask &&& 511))

/-- Go `os.Stat`. -/
def Stat (os : OS) (path : GoString) : (Option FileInfo × Option OSError) × OS :=
  match os.fault Op.stat path with
  | some e => ((none, some e), os.record Op.stat path (some e))
  | none =>
    match os.files.lookup path with
    | none => ((none, some OSError.notExist), os.record Op.stat path (some OSError.notExist))
    | some fi => ((some fi, none), os.record Op.stat path none)

/-- The path and its ancestors, shortest first: the prefixes of `path` that end an
element. -/
def ancestors (path : GoString) : List GoString :=
  (List.range (path.length + 1)).filterMap (fun i =>
    if 0 < i ∧ atElemEnd (path.drop i) = true ∧ isPathSeparator (path.getD (i - 1) 0) = false
    then some (path.take i) else none)

/-- Create the directories of `dirs` that are missing; fail on one that is not a
directory. -/
def mkdirs (perm umask : Nat) :
    List GoString → List (GoString × FileInfo) → Except OSError (List (GoString × FileInfo))
  | [], files => Except.ok files
  | d :: ds, files =>
    match files.lookup d with
    | none => mkdirs perm umask ds (setFile files d ⟨FileKind.dir, applyUmask perm umask⟩)
    | some fi => if fi.kind = FileKind.dir then mkdirs perm umask ds files
      else Except.error OSError.notDir

/-- Go `os.MkdirAll`. -/
def MkdirAll (os : OS) (path : GoString) (perm : Nat) : Option OSError × OS :=
  match os.fault Op.mkdirAll path with
  | some e => (some e, os.record Op.mkdirAll path (some e))
  | none =>
    match mkdirs perm os.umask (ancestors path) os.files with
    | Except.error e => (some e, os.record Op.mkdirAll path (some e))
    | Except.ok files => (none, { os.record Op.mkdirAll path none with files := files })

/-- Go `net.Listen("unix", path)`: either an error or a listener; bind creates the socket
file and the listener is open. -/
def Listen (os : OS) (path : GoString) : Except OSError Listener × OS :=
  match os.fault Op.listen path with
  | some e => (Except.error e, os.record Op.listen path (some e))
  | none =>
    match os.files.lookup path with
    | some _ => (Except.error OSError.addrInUse, os.record Op.listen path (some OSError.addrInUse))
    | none =>
      match os.files.lookup (Dir path) with
      | none => (Except.error OSError.notExist, os.record Op.listen path (some OSError.notExist))
      | some _ =>
        (Except.ok ⟨os.nextFd, path⟩,
          { os.record Op.listen path none with
            files := setFile os.files path ⟨FileKind.socket, applyUmask 511 os.umask⟩
            listening := ⟨os.nextFd, path⟩ :: os.listening
            nextFd := os.nextFd + 1 })

/-- Go `os.Chmod`. -/
def Chmod (os : OS) (path : GoString) (mode : Nat) : Option OSError × OS :=
  match os.fault Op.chmod path with
  | some e => (some e, os.record Op.chmod path (some e))
  | none =>
    match os.files.lookup path with
    | none => (some OSError.notExist, os.record Op.chmod path (some OSError.notExist))
    | some fi =>
      (none, { os.record Op.chmod path none with files := setFile os.files path ⟨fi.kind, mode⟩ })

/-- Go `os.Remove`. -/
def Remove (os : OS) (path : GoString) : Option OSError × OS :=
  match os.fault Op.remove path with
  | some e => (some e, os.record Op.remove path (some e))
  | none =>
    match os.files.lookup path with
    | none => (some OSError.notExist, os.record Op.remove path (some OSError.notExist))
    | some _ => (none, { os.record Op.remove path none with files := removeFile os.files path })

/-- Go `Listener.Close` on a unix listener made by `Listen`: the listener stops listening
and its socket file is unlinked. -/
def Listener.Close (lis : Listener) (os : OS) : OS :=
  { os.record Op.close lis.path none with
    files := removeFile os.files lis.path
    listening := os.listening.filter (fun l => l != lis) }

/-! ## `server.createListener` -/

/-- Go `server.cleanupListener`: remove the socket file; a failure is only logged. -/
def cleanupListener (P : Paths) (os : OS) : OS :=
  let path := TrimPrefix (Address P os.host) (ascii "unix://")
  (Remove os path).2

/-- Go `server.createListener`: the listener and the error it returns, and the state it
leaves. -/
def createListener (P : Paths) (os : OS) : (Option Listener × Option OSError) × OS :=
  let path := TrimPrefix (Address P os.host) (ascii "unix://")
  let st := Stat os path
  let os1 := if !IsNotExist st.1.2 then cleanupListener P st.2 else st.2
  let dir := Dir path
  let sd := Stat os1 dir
  let md := if IsNotExist sd.1.2 then MkdirAll sd.2 dir 0o775 else (none, sd.2)
  match md.1 with
  | some err => ((none, some err), md.2)
  | none =>
    let ls := Listen md.2 path
    match ls.1 with
    | Except.error err => ((none, some err), ls.2)
    | Except.ok lis =>
      let mode := if !os.host.hasRoot then 0o770 else 0o700
      let ch := Chmod ls.2 path mode
      match ch.1 with
      | some err => ((none, some err), lis.Close ch.2)
      | none => ((some lis, none), ch.2)

/-- The path of the control socket file: the address without its `unix://` scheme. -/
def socketPath (P : Paths) (os : OS) : GoString :=
  TrimPrefix (Address P os.host) (ascii "unix://")

/-- The permission bits of the file at `path`, if it exists. -/
def modeOf (os : OS) (path : GoString) : Option Nat :=
  (os.files.lookup path).map FileInfo.mode

/-- A sample system: an installed agent, `/run` exists, nothing listens, umask 022 and the
given injected failures. -/
def sampleOS (root : Bool) (fault : Op → GoString → Option OSError) : OS :=
  { host := ⟨true, root, none, ascii "/tmp"⟩
    files := [(ascii "/run", ⟨FileKind.dir, 0o755⟩)]
    listening := []
    nextFd := 3
    umask := 0o022
    fault := fault
    trace := [] }

/-- No injected failure. -/
def noFault : Op → GoString → Option OSError := fun _ _ => none

/-- Every `os.Chmod` fails with a permission error. -/
def chmodFault : Op → GoString → Option OSError :=
  fun op _ => if op = Op.chmod then some OSError.permission else none

/-- The first part of `createListener`, up to the call of `net.Listen`: the stale socket is
removed and the directory is made; the error is that of `os.MkdirAll`. -/
def beforeListen (P : Paths) (os : OS) : Option OSError × OS :=
  let path := TrimPrefix (Address P os.host) (ascii "unix://")
  let st := Stat os path
  let os1 := if !IsNotExist st.1.2 then cleanupListener P st.2 else st.2
  let dir := Dir path
  let sd := Stat os1 dir
  if IsNotExist sd.1.2 then MkdirAll sd.2 dir 0o775 else (none, sd.2)

/-! ## The file-system downloader (`artifact/download/fs`)

`Downloader.Download` copies a package and its `.sha512` file from the drop path to the
target directory through `os.Open`, `os.MkdirAll`, `os.OpenFile`, `io.Copy` and `os.Remove`.
The functions of package `artifact` it calls are parameters. -/

/-- The content of the file at `path`, if the file exists. -/
def contentOf (os : OS) (path : GoString) : Option GoString :=
  (os.files.lookup path).map (fun _ => (os.contents.lookup path).getD [])

/-- The file at `path` exists. -/
def fileExists (os : OS) (path : GoString) : Bool := (os.files.lookup path).isSome

/-- The table of contents with `path` bound to `bytes`. -/
def setContent (contents : List (GoString × GoString)) (path bytes : GoString) :
    List (GoString × GoString) :=
  (path, bytes) :: contents.filter (fun p => p.1 != path)

/-- The directory `dir` exists; the root and the working directory always do. -/
def isDirectory (os : OS) (dir : GoString) : Bool :=
  dir == ascii "/" || dir == ascii "." ||
    match os.files.lookup dir with
    | some fi => fi.kind == FileKind.dir
    | none => false

/-- Go `os.Open`: the file is opened for reading; it must exist. -/
def Open (os : OS) (path : GoString) : Option OSError × OS :=
  match os.fault Op.open path with
  | some e => (some e, os.record Op.open path (some e))
  | none =>
    match os.files.lookup path with
    | none => (some OSError.notExist, os.record Op.open path (some OSError.notExist))
    | some _ => (none, os.record Op.open path none)

/-- Go `os.OpenFile(path, O_CREATE|O_TRUNC|O_WRONLY, perm)`: an existing file is truncated,
a missing one is created empty in its directory, which must exist. -/
def OpenFile (os : OS) (path : GoString) (perm : Nat) : Option OSError × OS :=
  match os.fault Op.openFile path with
  | some e => (some e, os.record Op.openFile path (some e))
  | none =>
    match os.files.lookup path with
    | some fi =>
      if fi.kind = FileKind.dir then
        (some (OSError.other (ascii "is a directory")),
          os.record Op.openFile path (some (OSError.other (ascii "is a directory"))))
      else
        (none, { os.record Op.openFile path none with
          contents := setContent os.contents path [] })
    | none =>
      if isDirectory os (Dir path) then
        (none, { os.record Op.openFile path none with
          files := setFile os.files path ⟨FileKind.regular, applyUmask perm os.umask⟩
          contents := setContent os.contents path [] })
      else (some OSError.notExist, os.record Op.openFile path (some OSError.notExist))

/-- Go `io.Copy(dst, src)` on two open files: the bytes the source holds when they are read
become the content of the destination; a failed copy writes nothing. -/
def Copy (os : OS) (dst src : GoString) : Option OSError × OS :=
  match os.fault Op.copy dst with
  | some e => (some e, os.record Op.copy dst (some e))
  | none =>
    match os.files.lookup src with
    | some ⟨FileKind.dir, _⟩ =>
      (some (OSError.other (ascii "is a directory")),
        os.record Op.copy dst (some (OSError.other (ascii "is a directory"))))
    | _ =>
      (none, { os.record Op.copy dst none with
        contents := setContent os.contents dst ((os.contents.lookup src).getD []) })

/-- A Go `error` of the downloader: an error of the operating system, an error of package
`artifact`, or `errors.New(cause, message, …, errors.M(errors.MetaKeyPath, path))`. -/
inductive GoError where
  | os (e : OSError)
  | text (msg : GoString)
  | wrapped (cause : GoError) (message : GoString) (path : Option GoString)
  deriving DecidableEq, Repr

/-- Go `artifact.Artifact`. -/
structure Artifact where
  Name : GoString
  Cmd : GoString
  Artifact : GoString
  deriving DecidableEq, Repr

/-- Go `artifact.Config`, with the fields the downloader reads. -/
structure Config where
  OperatingSystem : GoString
  Architecture : GoString
  TargetDirectory : GoString
  DropPath : GoString
  deriving DecidableEq, Repr

/-- The functions of packages `artifact` and `paths` the downloader calls; they are not
among the sources. -/
structure ArtifactPkg where
  /-- Go `(*Config).OS`. -/
  OS : Config → GoString
  /-- Go `(*Config).Arch`. -/
  Arch : Config → GoString
  /-- Go `artifact.GetArtifactName(a, version, operatingSystem, arch)`. -/
  GetArtifactName : Artifact → GoString → GoString → GoString → Except GoError GoString
  /-- Go `artifact.GetArtifactPath(a, version, operatingSystem, arch, targetDir)`. -/
  GetArtifactPath :
    Artifact → GoString → GoString → GoString → GoString → Except GoError GoString
  /-- Go `paths.Downloads()`. -/
  Downloads : GoString

/-- Go `fs.Downloader`; `config` is a pointer and may be nil. -/
structure Downloader where
  dropPath : GoString
  config : Option Config
  deriving DecidableEq, Repr

/-- Go `fs.getDropPath`: the configured drop path when it names an existing directory,
else `paths.Downloads()`. -/
def getDropPath (A : ArtifactPkg) (cfg : Option Config) (os : OS) : GoString × OS :=
  match cfg with
  | none => (A.Downloads, os)
  | some c =>
    if c.DropPath = [] then (A.Downloads, os)
    else
      let st := Stat os c.DropPath
      match st.1 with
      | (some stat, none) =>
        if stat.kind = FileKind.dir then (c.DropPath, st.2) else (A.Downloads, st.2)
      | _ => (A.Downloads, st.2)

/-- Go `fs.NewDownloader`. -/
def NewDownloader (A : ArtifactPkg) (config : Option Config) (os : OS) : Downloader × OS :=
  (⟨(getDropPath A config os).1, config⟩, (getDropPath A config os).2)

/-- Go `(*Downloader).downloadFile`: the path and error it returns and the state it leaves.
The two deferred `Close` calls have no effect on the files. -/
def Downloader.downloadFile (e : Downloader) (filename fullPath : GoString) (os : OS) :
    (GoString × Option GoError) × OS :=
  let sourcePath := Join [e.dropPath, filename]
  let src := Open os sourcePath
  match src.1 with
  | some err =>
    (([], some (GoError.wrapped (GoError.os err)
      (ascii "package '" ++ sourcePath ++ ascii "' not found") (some fullPath))), src.2)
  | none =>
    let destinationDir := Dir fullPath
    let mk :=
      if destinationDir != [] && destinationDir != ascii "." then
        MkdirAll src.2 destinationDir 0o755
      else (none, src.2)
    match mk.1 with
    | some err => (([], some (GoError.os err)), mk.2)
    | none =>
      let dst := OpenFile mk.2 fullPath 0o660
      match dst.1 with
      | some err =>
        (([], some (GoError.wrapped (GoError.os err) (ascii "creating package file failed")
          (some fullPath))), dst.2)
      | none =>
        let cp := Copy dst.2 fullPath sourcePath
        match cp.1 with
        | some err => (([], some (GoError.os err)), cp.2)
        | none => ((fullPath, none), cp.2)

/-- Go `(*Downloader).download`, with the non-nil `config` of the downloader. -/
def Downloader.download (A : ArtifactPkg) (e : Downloader) (cfg : Config)
    (operatingSystem : GoString) (a : Artifact) (version extension : GoString) (os : OS) :
    (GoString × Option GoError) × OS :=
  match A.GetArtifactName a version operatingSystem (A.Arch cfg) with
  | Except.error err =>
    (([], some (GoError.wrapped err (ascii "generating package name failed") none)), os)
  | Except.ok filename =>
    match A.GetArtifactPath a version operatingSystem (A.Arch cfg) cfg.TargetDirectory with
    | Except.error err =>
      (([], some (GoError.wrapped err (ascii "generating package path failed") none)), os)
    | Except.ok fullPath =>
      if extension != [] then e.downloadFile (filename ++ extension) (fullPath ++ extension) os
      else e.downloadFile filename fullPath os

/-- The deferred clean-up of `Download`: `os.Remove` on every recorded path, its errors
ignored. -/
def removeAll (paths : List GoString) (os : OS) : OS :=
  paths.foldl (fun s path => (Remove s path).2) os

/-- Go `(*Downloader).Download`: the path and error it returns and the state it leaves;
`none` when the nil `config` is dereferenced. -/
def Downloader.Download (A : ArtifactPkg) (e : Downloader) (a : Artifact) (version : GoString)
    (os : OS) : Option ((GoString × Option GoError) × OS) :=
  match e.config with
  | none => none
  | some cfg =>
    let d1 := e.download A cfg (A.OS cfg) a version [] os
    let downloadedFiles := [d1.1.1]
    match d1.1.2 with
    | some err => some (([], some err), removeAll downloadedFiles d1.2)
    | none =>
      let d2 := e.download A cfg (A.OS cfg) a version (ascii ".sha512") d1.2
      let downloadedFiles := downloadedFiles ++ [d2.1.1]
      match d2.1.2 with
      | some err => some ((d1.1.1, some err), removeAll downloadedFiles d2.2)
      | none => some ((d1.1.1, none), d2.2)

/-- Go `(*Downloader).DownloadAsc`: `none` when the nil `config` is dereferenced. -/
def Downloader.DownloadAsc (A : ArtifactPkg) (e : Downloader) (a : Artifact)
    (version : GoString) (os : OS) : Option ((GoString × Option GoError) × OS) :=
  match e.config with
  | none => none
  | some cfg =>
    let d := e.download A cfg (A.OS cfg) a version (ascii ".asc") os
    match d.1.2 with
    | some err => some (([], some err), (Remove d.2 d.1.1).2)
    | none => some ((d.1.1, none), d.2)

/-- A sample of package `artifact`: the name is `<cmd>-<version>-<os>-<arch>.tar.gz`, the
path is the name joined to the target directory. -/
def sampleArtifactPkg : ArtifactPkg :=
  { OS := fun c => c.OperatingSystem
    Arch := fun c => c.Architecture
    GetArtifactName := fun a version operatingSystem arch =>
      if operatingSystem = [] then Except.error (GoError.text (ascii "not a valid combination"))
      else Except.ok (a.Cmd ++ ascii "-" ++ version ++ ascii "-" ++ operatingSystem ++
        ascii "-" ++ arch ++ ascii ".tar.gz")
    GetArtifactPath := fun a version operatingSystem arch targetDir =>
      if operatingSystem = [] then Except.error (GoError.text (ascii "not a valid combination"))
      else Except.ok (Join [targetDir, a.Cmd ++ ascii "-" ++ version ++ ascii "-" ++
        operatingSystem ++ ascii "-" ++ arch ++ ascii ".tar.gz"])
    Downloads := ascii "/opt/agent/downloads" }

/-- A sample configuration: linux, x86_64, target `/opt/agent/target`, drop path `/drop`. -/
def sampleConfig : Config :=
  ⟨ascii "linux", ascii "x86_64", ascii "/opt/agent/target", ascii "/drop"⟩

/-- The sample artifact `filebeat`. -/
def sampleArtifact : Artifact := ⟨ascii "filebeat", ascii "filebeat", ascii "beats/filebeat"⟩

/-- A sample system: the drop path `/drop` holds the package `filebeat-8.6.0` and its
`.sha512` file; the target directory does not exist yet. -/
def dropOS (fault : Op → GoString → Option OSError) : OS :=
  { host := ⟨false, false, none, ascii "/tmp"⟩
    files := [(ascii "/drop", ⟨FileKind.dir, 0o755⟩),
      (ascii "/drop/filebeat-8.6.0-linux-x86_64.tar.gz", ⟨FileKind.regular, 0o644⟩),
      (ascii "/drop/filebeat-8.6.0-linux-x86_64.tar.gz.sha512", ⟨FileKind.regular, 0o644⟩)]
    listening := []
    nextFd := 3
    umask := 0o022
    fault := fault
    trace := []
    contents := [(ascii "/drop/filebeat-8.6.0-linux-x86_64.tar.gz", ascii "package bytes"),
      (ascii "/drop/filebeat-8.6.0-linux-x86_64.tar.gz.sha512", ascii "0123abcd")] }

/-- The sample system with the signature file of the package in the drop path as well. -/
def ascOS : OS :=
  { dropOS noFault with
    files := (ascii "/drop/filebeat-8.6.0-linux-x86_64.tar.gz.asc", ⟨FileKind.regular, 0o644⟩) ::
      (dropOS noFault).files
    contents := (ascii "/drop/filebeat-8.6.0-linux-x86_64.tar.gz.asc", ascii "signature") ::
      (dropOS noFault).contents }

/-- A system whose drop path `/drop` holds the package `filebeat-8.6.0` but no `.sha512`
file; the target directory does not exist yet. -/
def noHashOS : OS :=
  { dropOS noFault with
    files := [(ascii "/drop", ⟨FileKind.dir, 0o755⟩),
      (ascii "/drop/filebeat-8.6.0-linux-x86_64.tar.gz", ⟨FileKind.regular, 0o644⟩)]
    contents := [(ascii "/drop/filebeat-8.6.0-linux-x86_64.tar.gz", ascii "package bytes")] }

/-- A system whose drop path `/drop` holds the package `filebeat-8.6.0` and, under the name
of its `.sha512` file, a directory; the target directory does not exist yet. -/
def hashDirOS : OS :=
  { dropOS noFault with
    files := [(ascii "/drop", ⟨FileKind.dir, 0o755⟩),
      (ascii "/drop/filebeat-8.6.0-linux-x86_64.tar.gz", ⟨FileKind.regular, 0o644⟩),
      (ascii "/drop/filebeat-8.6.0-linux-x86_64.tar.gz.sha512", ⟨FileKind.dir, 0o755⟩)]
    contents := [(ascii "/drop/filebeat-8.6.0-linux-x86_64.tar.gz", ascii "package bytes")] }

/-- The sample system on a full disk: every `io.Copy` into the package file fails. -/
def diskFullOS : OS :=
  dropOS (fun op path =>
    if op = Op.copy ∧ path = ascii "/opt/agent/target/filebeat-8.6.0-linux-x86_64.tar.gz" then
      some (OSError.other (ascii "no space left on device"))
    else none)

/-- The sample downloader: drop path `/drop`, the sample configuration. -/
def sampleDownloader : Downloader := ⟨ascii "/drop", some sampleConfig⟩

/-! ## The component runtime manager

`manager_test.go` drives a `Manager` through `Update` and `Subscribe`; the manager itself
is not among the sources.  The types below are the ones the tests build and inspect
(`component.Model`, `component.Component`, `component.Unit`, `ComponentState`,
`ComponentUnitKey`, `client.UnitState`); the reconciler is modelled from the specification
as a deterministic step function over an explicit manager state that records every state
it publishes and every child process it launches. -/

/-- The states of `client.UnitState`, in the order of their wire values 0 to 6. -/
inductive UnitState where
  | Starting
  | Configuring
  | Healthy
  | Degraded
  | Failed
  | Stopping
  | Stopped
  deriving DecidableEq, Repr

/-- The unit types of `client.UnitType`. -/
inductive UnitType where
  | Input
  | Output
  deriving DecidableEq, Repr

/-- Go `runtime.ComponentUnitKey`: the composite key of a unit within a component. -/
structure ComponentUnitKey where
  UnitType : ElasticAgent.UnitType
  UnitID : String
  deriving DecidableEq, Repr

/-- Go `component.Unit`, with the fields the tests set: a unit carries a config or an
error. -/
structure Unit where
  ID : String
  UnitType : ElasticAgent.UnitType
  Config : Option String
  Err : Option String
  deriving DecidableEq, Repr

/-- Go `component.Component`, with the fields the tests set; `Err` is the terminal
configuration error. -/
structure Component where
  ID : String
  Err : Option String
  Units : List Unit
  deriving DecidableEq, Repr

/-- Go `component.Model`: the ordered components of the intended topology. -/
structure Model where
  Components : List Component
  deriving DecidableEq, Repr

/-- Go `runtime.ComponentUnitState`: the state and message published for one unit. -/
structure ComponentUnitState where
  State : UnitState
  Message : String
  deriving DecidableEq, Repr

/-- Go `runtime.ComponentState`: the state, message and units published for a
component. -/
structure ComponentState where
  State : UnitState
  Message : String
  Units : List (ComponentUnitKey × ComponentUnitState)
  deriving DecidableEq, Repr

/-- Modelled from the spec: the component runtime (4.2), absent from the sources.  It owns
the current definition of its component and the state it last published; `stopping`
holds from the moment the reconciler signals it to stop. -/
structure Runtime where
  comp : Component
  state : ComponentState
  stopping : Bool
  deriving DecidableEq, Repr

/-- Modelled from the spec: the state of the reconciler (4.1), absent from the sources:
its runtimes, the added components that wait for the removed ones to stop, two logs,
oldest first: the states published to subscribers, by component id, and the components
a child process was launched for; and the components whose working directory
`<run-root>/<component_id>` exists. -/
structure Manager where
  current : List Runtime
  pending : List Component
  published : List (String × ComponentState)
  launched : List Component
  workDirs : List String
  deriving DecidableEq, Repr

/-- Modelled from the spec: the manager before the first `Update`. -/
def Manager.init : Manager := ⟨[], [], [], [], []⟩

/-- The key `(type, id)` of a unit within its component. -/
def unitKey (u : Unit) : ComponentUnitKey := ⟨u.UnitType, u.ID⟩

/-- The unit of the component with the key `k`, if it has one. -/
def Component.unit? (c : Component) (k : ComponentUnitKey) : Option Unit :=
  c.Units.find? (fun u => unitKey u == k)

/-- Modelled from the spec: the state of a runtime placed in Starting (4.1 step 3).  A unit
whose `err` is set is published Failed with its message (4.2); the others start. -/
def startingState (c : Component) : ComponentState :=
  ⟨UnitState.Starting, "Starting", c.Units.map (fun u =>
    (⟨u.UnitType, u.ID⟩,
      match u.Err with
      | some e => ⟨UnitState.Failed, e⟩
      | none => ⟨UnitState.Starting, "Starting"⟩))⟩

/-- Modelled from the spec: the state published for a component whose `err` is set (4.2,
section 9): Failed with that message, still listing the units, each Failed with the
component's error message. -/
def failedState (c : Component) (e : String) : ComponentState :=
  ⟨UnitState.Failed, e, c.Units.map (fun u => (⟨u.UnitType, u.ID⟩, ⟨UnitState.Failed, e⟩))⟩

/-- Modelled from the spec: the state of a runtime signalled to stop: the component and
its units are Stopping. -/
def stoppingState (st : ComponentState) : ComponentState :=
  ⟨UnitState.Stopping, "Stopping",
    st.Units.map (fun u => (u.1, ⟨UnitState.Stopping, "Stopping"⟩))⟩

/-- Modelled from the spec: the state a runtime reports once its unit set has reached
Stopped. -/
def stoppedState (st : ComponentState) : ComponentState :=
  ⟨UnitState.Stopped, "Stopped",
    st.Units.map (fun u => (u.1, ⟨UnitState.Stopped, "Stopped"⟩))⟩

/-- Modelled from the spec: the published entry of a unit of the new definition of a running
component (4.2): a unit whose `err` is set is Failed with its message; a unit that was
published before and had no `err` keeps its state; a new unit, and a unit whose `err` was
replaced by a config, starts. -/
def syncUnit (old : Component) (units : List (ComponentUnitKey × ComponentUnitState))
    (u : Unit) : ComponentUnitKey × ComponentUnitState :=
  (unitKey u,
    match u.Err with
    | some e => ⟨UnitState.Failed, e⟩
    | none =>
      match (old.unit? (unitKey u)).bind (fun x => x.Err) with
      | some _ => ⟨UnitState.Starting, "Starting"⟩
      | none =>
        match units.lookup (unitKey u) with
        | some us => us
        | none => ⟨UnitState.Starting, "Starting"⟩)

/-- Modelled from the spec: the units published when a running component gets the new
definition `c` (4.1 step 4): the units of `c`, and the units removed from the model, which
are Stopping until they were published Stopped; only then do they disappear (section 3). -/
def syncExpected (c old : Component) (units : List (ComponentUnitKey × ComponentUnitState)) :
    List (ComponentUnitKey × ComponentUnitState) :=
  c.Units.map (syncUnit old units) ++
    (units.filter (fun p => (c.unit? p.1).isNone && p.2.State != UnitState.Stopped)).map
      (fun p => (p.1, ⟨UnitState.Stopping, "Stopping"⟩))

/-- Modelled from the spec: the published entry of a unit after an observed frame (4.2,
4.4).  A unit of the model whose `err` is set stays Failed with its message, another unit
of the model takes the observed state when the worker reports one.  A unit removed from
the model disappears once it was published Stopped; until then it is Stopped when the
worker reports it Stopped or no longer reports it, and Stopping otherwise. -/
def mergeUnit (c : Component) (observed : List (ComponentUnitKey × ComponentUnitState))
    (p : ComponentUnitKey × ComponentUnitState) :
    Option (ComponentUnitKey × ComponentUnitState) :=
  match c.unit? p.1 with
  | some u =>
    match u.Err with
    | some e => some (p.1, ⟨UnitState.Failed, e⟩)
    | none =>
      match observed.lookup p.1 with
      | some o => some (p.1, o)
      | none => some p
  | none =>
    if p.2.State = UnitState.Stopped then none
    else
      match observed.lookup p.1 with
      | some o => if o.State = UnitState.Stopped then some (p.1, o) else some p
      | none => some (p.1, ⟨UnitState.Stopped, "Stopped"⟩)

/-- Modelled from the spec: the state a runtime publishes after an observed frame: the
component state and message the worker reports, and the merged units. -/
def mergeObserved (r : Runtime) (observed : ComponentState) : ComponentState :=
  ⟨observed.State, observed.Message, r.state.Units.filterMap (mergeUnit r.comp observed.Units)⟩

/-- Modelled from the spec: 4.1 step 3 for one added component: create its runtime, place
it in Starting and enqueue a launch, for which the command supervisor creates the working
directory (4.3); a component whose `err` is set enters Failed immediately and no child is
launched for it (4.1, 4.2). -/
def Manager.start (m : Manager) (c : Component) : Manager :=
  match c.Err with
  | some e =>
    { m with
      current := m.current ++ [⟨c, failedState c e, false⟩]
      published := m.published ++ [(c.ID, startingState c), (c.ID, failedState c e)] }
  | none =>
    { m with
      current := m.current ++ [⟨c, startingState c, false⟩]
      published := m.published ++ [(c.ID, startingState c)]
      launched := m.launched ++ [c]
      workDirs := c.ID :: m.workDirs.filter (fun d => d != c.ID) }

/-- Modelled from the spec: the cross-component ordering of section 3: the added components
are started only when no runtime is still stopping, so a removed component reaches Stopped
before an added one enters Starting. -/
def Manager.startPending (m : Manager) : Manager :=
  if m.current.any (fun r => r.stopping) then m
  else m.pending.foldl Manager.start { m with pending := [] }

/-- Modelled from the spec: a runtime signalled to stop (4.1 step 2): its entry is kept and
it publishes Stopping. -/
def stopRuntime (r : Runtime) : Runtime × List (String × ComponentState) :=
  (⟨r.comp, stoppingState r.state, true⟩, [(r.comp.ID, stoppingState r.state)])

/-- Modelled from the spec: 4.1 steps 2 and 4 for one runtime: the new runtime and the
states it publishes.  A runtime whose component is absent from the model is signalled to
stop.  A runtime whose component is in the model is handed the new definition: when the old
or the new definition has `err` set and they differ, the change requires a restart, so the
runtime is stopped (the new definition is then an added component); otherwise the change is
in place: the units are synchronised and the state is published if it changed. -/
def reconcile (model : Model) (r : Runtime) : Runtime × List (String × ComponentState) :=
  if r.stopping then (r, [])
  else
    match model.Components.find? (fun c => c.ID == r.comp.ID) with
    | none => stopRuntime r
    | some c =>
      if r.comp.Err.isSome || c.Err.isSome then
        if c = r.comp then (r, []) else stopRuntime r
      else
        if syncExpected c r.comp r.state.Units = r.state.Units then (⟨c, r.state, false⟩, [])
        else
          (⟨c, ⟨r.state.State, r.state.Message, syncExpected c r.comp r.state.Units⟩, false⟩,
            [(c.ID, ⟨r.state.State, r.state.Message, syncExpected c r.comp r.state.Units⟩)])

/-- Modelled from the spec: `Update(Model)` (4.1): the synchronous validation error for
duplicate ids, else the diff by id: removed runtimes are signalled to stop, changed ones
get their new definition, and the added components (those without a runtime that is not
stopping) are started once every stopping runtime has reported Stopped. -/
def Manager.update (m : Manager) (model : Model) : Option String × Manager :=
  if (model.Components.map (fun c => c.ID)).Nodup then
    let rs := m.current.map (reconcile model)
    let added := model.Components.filter (fun c =>
      !(rs.any (fun x => !x.1.stopping && x.1.comp.ID == c.ID)))
    (none, Manager.startPending
      { m with
        current := rs.map (fun x => x.1)
        pending := added
        published := m.published ++ rs.flatMap (fun x => x.2) })
  else (some "duplicate component id", m)

/-- Modelled from the spec: a stopping runtime reports Stopped (4.2: after the graceful
acknowledgement, or after the kill that follows the Stop timeout): the state is published,
the working directory is removed (4.3), the runtime entry is deleted (4.1 step 2) and the
waiting components are started. -/
def Manager.stopped (m : Manager) (id : String) : Manager :=
  match m.current.find? (fun r => r.stopping && r.comp.ID == id) with
  | none => m
  | some r =>
    Manager.startPending
      { m with
        current := m.current.filter (fun x => !(x.stopping && x.comp.ID == id))
        published := m.published ++ [(id, stoppedState r.state)]
        workDirs := m.workDirs.filter (fun d => d != id) }

/-- Modelled from the spec: an observed frame of the worker of component `id` (4.4): a
runtime that is not stopping and has a worker (its component has no `err`) merges the
observed state into its own and publishes it. -/
def Manager.checkin (m : Manager) (id : String) (observed : ComponentState) : Manager :=
  match m.current.find? (fun r => !r.stopping && r.comp.Err.isNone && r.comp.ID == id) with
  | none => m
  | some r0 =>
    { m with
      current := m.current.map (fun r =>
        if !r.stopping && r.comp.Err.isNone && r.comp.ID == id then
          { r with state := mergeObserved r observed }
        else r)
      published := m.published ++ [(id, mergeObserved r0 observed)] }

/-- Modelled from the spec: what reaches the reconciler's mailbox (4.1). -/
inductive Event where
  | update (model : Model)
  | checkin (id : String) (observed : ComponentState)
  | stopAck (id : String)
  | stopTimeout (id : String)
  deriving DecidableEq, Repr

/-- Modelled from the spec: the reconciler applies one event of its mailbox. -/
def Manager.step (m : Manager) : Event → Manager
  | Event.update model => (m.update model).2
  | Event.checkin id observed => m.checkin id observed
  | Event.stopAck id => m.stopped id
  | Event.stopTimeout id => m.stopped id

/-- Modelled from the spec: the reconciler applies the events in arrival order. -/
def Manager.run (m : Manager) (evs : List Event) : Manager := evs.foldl Manager.step m

/-- The event is a model update. -/
def Event.isUpdate : Event → Bool
  | Event.update _ => true
  | _ => false

/-- The component of the first seed scenario, `TestManager_SimpleComponentErr`. -/
def errorDefault : Component :=
  ⟨"error-default", some "hard-coded error", [⟨"error-input", UnitType.Input, none, none⟩]⟩

/-- A component `fake-0` with one healthy fake input unit. -/
def fake0 : Component :=
  ⟨"fake-0", none, [⟨"fake-input-0-0", UnitType.Input, some "Fake Healthy 0-0", none⟩]⟩

/-- A component `fake-1` with one healthy fake input unit. -/
def fake1 : Component :=
  ⟨"fake-1", none, [⟨"fake-input-1-0", UnitType.Input, some "Fake Healthy 0-0", none⟩]⟩

/-- The observed state of a healthy `fake-0`. -/
def fake0Healthy : ComponentState :=
  ⟨UnitState.Healthy, "Healthy",
    [(⟨UnitType.Input, "fake-input-0-0"⟩, ⟨UnitState.Healthy, "Fake Healthy 0-0"⟩)]⟩

/-- The invariant of the terminal configuration error: every launched component has no
`err`, and every runtime whose component has `err` set has had the Failed state with that
error published and, unless it is stopping, is in that state. -/
def Manager.errInvariant (m : Manager) : Prop :=
  (∀ c ∈ m.launched, c.Err = none) ∧
    ∀ r ∈ m.current, ∀ e, r.comp.Err = some e →
      (r.comp.ID, failedState r.comp e) ∈ m.published ∧
        (r.stopping = false → r.state = failedState r.comp e)

/-- In the log of published states, every entry that reports `b` Starting comes strictly
after an entry that reports `a` Stopped. -/
def stoppedBeforeStarting (log : List (String × ComponentState)) (a b : String) : Prop :=
  ∀ (j : Nat) (st : ComponentState), log[j]? = some (b, st) → st.State = UnitState.Starting →
    ∃ (i : Nat) (st2 : ComponentState),
      i < j ∧ log[i]? = some (a, st2) ∧ st2.State = UnitState.Stopped

/-- Only `A` runs: its runtime is the only one, nothing waits, and every published state
is one of `A`. -/
def Manager.onlyRuns (A : Component) (m : Manager) : Prop :=
  (∃ st, m.current = [⟨A, st, false⟩]) ∧ m.pending = [] ∧ ∀ p ∈ m.published, p.1 = A.ID

/-- The runtime of `A` is stopping and `B` waits for it: every published state is still
one of `A`. -/
def Manager.waitsFor (A B : Component) (m : Manager) : Prop :=
  (∃ st, m.current = [⟨A, st, true⟩]) ∧ m.pending = [B] ∧ ∀ p ∈ m.published, p.1 = A.ID

/-- A Stopped state of `A` has been published, no state of `B` was published before it and
the Starting state of `B` was published after it. -/
def Manager.stoppedFirst (A B : Component) (m : Manager) : Prop :=
  ∃ pre st post, m.published = pre ++ (A.ID, st) :: post ∧ st.State = UnitState.Stopped ∧
    (∀ p ∈ pre, p.1 ≠ B.ID) ∧ (B.ID, startingState B) ∈ post

/-- The event reports that the runtime of component `id` has stopped. -/
def Event.isStopOf (id : String) : Event → Bool
  | Event.stopAck x => x == id
  | Event.stopTimeout x => x == id
  | _ => false

/-- The invariant of the unit configuration errors: the state of every runtime has been
published, and in a running component without `err` every unit of the model whose `err` is
set is Failed with its message. -/
def Manager.unitErrInvariant (m : Manager) : Prop :=
  ∀ r ∈ m.current, (r.comp.ID, r.state) ∈ m.published ∧
    (r.stopping = false → r.comp.Err = none → ∀ k u e, r.comp.unit? k = some u →
      u.Err = some e → (k, ⟨UnitState.Failed, e⟩) ∈ r.state.Units)

/-- Where a Failed component state comes from, given the events seen so far: a published
Failed state is the one of a component whose `err` is set or follows an observed frame in
which the worker reports the component Failed; a runtime of a component without `err` is
Failed only after such a frame. -/
def Manager.failedProvenance (m : Manager) (seen : List Event) : Prop :=
  (∀ p ∈ m.published, p.2.State = UnitState.Failed →
    (∃ c e, c.Err = some e ∧ c.ID = p.1 ∧ p.2 = failedState c e) ∨
      ∃ obs, Event.checkin p.1 obs ∈ seen ∧ obs.State = UnitState.Failed) ∧
    ∀ r ∈ m.current, r.comp.Err = none → r.state.State = UnitState.Failed →
      ∃ obs, Event.checkin r.comp.ID obs ∈ seen ∧ obs.State = UnitState.Failed

/-- The component of `TestManager_FakeInput_BadUnitToGood`: a healthy unit `fake-input` and
a unit `bad-input` with a configuration error. -/
def fakeDefaultBad : Component :=
  ⟨"fake-default", none,
    [⟨"fake-input", UnitType.Input, some "Fake Healthy", none⟩,
      ⟨"bad-input", UnitType.Input, none, some "hard-error for config"⟩]⟩

/-- The same component with the error of `bad-input` replaced by a valid config. -/
def fakeDefaultGood : Component :=
  ⟨"fake-default", none,
    [⟨"fake-input", UnitType.Input, some "Fake Healthy", none⟩,
      ⟨"bad-input", UnitType.Input, some "Fake Healthy 2", none⟩]⟩

/-- The frame the worker of `fake-default` sends while it runs `fake-input` only. -/
def fakeDefaultObserved1 : ComponentState :=
  ⟨UnitState.Healthy, "Healthy",
    [(⟨UnitType.Input, "fake-input"⟩, ⟨UnitState.Healthy, "Fake Healthy"⟩)]⟩

/-- The frame the worker of `fake-default` sends once it runs both units. -/
def fakeDefaultObserved2 : ComponentState :=
  ⟨UnitState.Healthy, "Healthy",
    [(⟨UnitType.Input, "fake-input"⟩, ⟨UnitState.Healthy, "Fake Healthy"⟩),
      (⟨UnitType.Input, "bad-input"⟩, ⟨UnitState.Healthy, "Fake Healthy 2"⟩)]⟩

/-- The invariant of the component ids: no two runtimes and no two waiting components have
the same id, and a waiting component has no runtime except one that is stopping. -/
def Manager.idInvariant (m : Manager) : Prop :=
  (m.current.map (fun r => r.comp.ID)).Nodup ∧ (m.pending.map (fun c => c.ID)).Nodup ∧
    ∀ c ∈ m.pending, ∀ r ∈ m.current, r.comp.ID = c.ID → r.stopping = true

/-- The states published for component `id`, oldest first. -/
def statesOf (id : String) (log : List (String × ComponentState)) : List ComponentState :=
  (log.filter (fun p => p.1 == id)).map (fun p => p.2)

/-- The published state lists a unit with the key `k`. -/
def hasUnit (st : ComponentState) (k : ComponentUnitKey) : Prop := ∃ us, (k, us) ∈ st.Units

/-- The published state shows the unit with the key `k` Stopped. -/
def showsStopped (st : ComponentState) (k : ComponentUnitKey) : Prop :=
  ∃ us, (k, us) ∈ st.Units ∧ us.State = UnitState.Stopped

/-- Every unit that `s1` lists and the next state `s2` lacks is shown Stopped in `s1`. -/
def unitsLeaveStopped (s1 s2 : ComponentState) : Prop :=
  ∀ k, hasUnit s1 k → ¬ hasUnit s2 k → showsStopped s1 k

/-- The invariant of the unit removal: in the states published for a component, a unit
leaves only after a state that shows it Stopped; the state of every runtime is the last one
published for its component; and the last state published for a component without a
runtime shows every unit Stopped. -/
def Manager.unitsInvariant (m : Manager) : Prop :=
  (∀ id, List.Chain' unitsLeaveStopped (statesOf id m.published)) ∧
    (∀ r ∈ m.current, (statesOf r.comp.ID m.published).getLast? = some r.state) ∧
    ∀ id, (∀ r ∈ m.current, r.comp.ID ≠ id) →
      ∀ st, (statesOf id m.published).getLast? = some st → ∀ p ∈ st.Units,
        p.2.State = UnitState.Stopped

/-- The component of `TestManager_FakeInput_RemoveUnit` with its two units. -/
def fakeTwoUnits : Component :=
  ⟨"fake-default", none,
    [⟨"fake-input-0", UnitType.Input, some "Fake Healthy 0", none⟩,
      ⟨"fake-input-1", UnitType.Input, some "Fake Healthy 1", none⟩]⟩

/-- The same component after `fake-input-1` was removed. -/
def fakeOneUnit : Component :=
  ⟨"fake-default", none, [⟨"fake-input-0", UnitType.Input, some "Fake Healthy 0", none⟩]⟩

/-- The frame of the worker that runs both units. -/
def fakeTwoObserved : ComponentState :=
  ⟨UnitState.Healthy, "Healthy",
    [(⟨UnitType.Input, "fake-input-0"⟩, ⟨UnitState.Healthy, "Fake Healthy 0"⟩),
      (⟨UnitType.Input, "fake-input-1"⟩, ⟨UnitState.Healthy, "Fake Healthy 1"⟩)]⟩

/-- The frame of the worker that runs `fake-input-0` only. -/
def fakeOneObserved : ComponentState :=
  ⟨UnitState.Healthy, "Healthy",
    [(⟨UnitType.Input, "fake-input-0"⟩, ⟨UnitState.Healthy, "Fake Healthy 0"⟩)]⟩

/-- The state published once the worker no longer reports the removed `fake-input-1`. -/
def fakeOneStopped : ComponentState :=
  ⟨UnitState.Healthy, "Healthy",
    [(⟨UnitType.Input, "fake-input-0"⟩, ⟨UnitState.Healthy, "Fake Healthy 0"⟩),
      (⟨UnitType.Input, "fake-input-1"⟩, ⟨UnitState.Stopped, "Stopped"⟩)]⟩

/-- The events of `TestManager_FakeInput_RemoveUnit`: the component starts with two units
and becomes healthy, `fake-input-1` is removed from the model, the worker still reports it
in one frame and then no longer. -/
def removeUnitEvents : List Event :=
  [Event.update ⟨[fakeTwoUnits]⟩, Event.checkin "fake-default" fakeTwoObserved,
    Event.update ⟨[fakeOneUnit]⟩, Event.checkin "fake-default" fakeTwoObserved,
    Event.checkin "fake-default" fakeOneObserved,
    Event.checkin "fake-default" fakeOneObserved]

/-- The invariant of the working directories: every working directory that exists is the
one of a runtime whose component has no `err`. -/
def Manager.workDirInvariant (m : Manager) : Prop :=
  ∀ d ∈ m.workDirs, ∃ r ∈ m.current, r.comp.ID = d ∧ r.comp.Err = none

/-- The events of `TestManager_FakeInput_StartStop`: `fake-0` starts and becomes healthy,
the empty model removes it and its runtime acknowledges the stop. -/
def startStopEvents : List Event :=
  [Event.update ⟨[fake0]⟩, Event.checkin "fake-0" fake0Healthy, Event.update ⟨[]⟩,
    Event.stopAck "fake-0"]

/-- The ids of the runtimes that were signalled to stop and have not reported Stopped. -/
def Manager.stoppingIDs (m : Manager) : List String :=
  (m.current.filter (fun r => r.stopping)).map (fun r => r.comp.ID)

/-- Modelled from the spec: every stopping runtime reports Stopped (4.2: Stopping ends in
Stopped, by the graceful acknowledgement or by the kill after the Stop timeout). -/
def Manager.settle (m : Manager) : Manager :=
  m.run (m.stoppingIDs.map Event.stopAck)

/-- Every component of `cs` has a runtime that runs its definition, or waits to be
started. -/
def Manager.covers (m : Manager) (cs : List Component) : Prop :=
  ∀ c ∈ cs, (∃ r ∈ m.current, r.comp = c ∧ r.stopping = false) ∨ c ∈ m.pending

/-- A component waits only while a runtime is stopping. -/
def Manager.pendingInvariant (m : Manager) : Prop :=
  m.pending ≠ [] → ∃ r ∈ m.current, r.stopping = true

/-- The manager after the events `evs` and an `Update` of `model`, once every runtime the
update or an earlier one signalled to stop has reported Stopped. -/
def Manager.settledAfter (evs : List Event) (model : Model) : Manager :=
  ((Manager.init.run evs).step (Event.update model)).settle

/-! ## The missed-checkin machine and the restart policy

`manager_test.go` configures both through `component.CommandSpec`; the runtime that reads
the spec is not among the sources, so the two machines are modelled from the specification
(4.2) over discrete time, in the unit of the timeouts. -/

/-- Go `component.CommandTimeoutSpec`, with the fields the tests set. -/
structure CommandTimeoutSpec where
  Checkin : Nat
  Restart : Nat
  Stop : Nat
  deriving DecidableEq, Repr

/-- Go `component.CommandSpec`, with the fields the tests set. -/
structure CommandSpec where
  Timeouts : CommandTimeoutSpec
  RestartMonitoringPeriod : Nat
  MaxRestartsPerPeriod : Nat
  deriving DecidableEq, Repr

/-- Modelled from the spec: what the missed-checkin machine of a launched child sees (4.2):
the ticker fires, or an observed frame arrives; `now` is the time of the event. -/
inductive CheckinEvent where
  | tick (now : Nat)
  | checkin (now : Nat)
  deriving DecidableEq, Repr

/-- Modelled from the spec: the missed-checkin machine of a launched child (4.2), absent from
the sources: the time of the last check-in, the component state, whether the child was
killed, and the log of the states it published with their reason, oldest first. -/
structure CheckinMonitor where
  lastCheckin : Nat
  state : UnitState
  killed : Bool
  published : List (UnitState × String)
  deriving DecidableEq, Repr

/-- Modelled from the spec: the machine of a child launched at `start`: the component is
Starting and awaits the first check-in. -/
def CheckinMonitor.init (start : Nat) : CheckinMonitor :=
  ⟨start, UnitState.Starting, false, [(UnitState.Starting, "Starting")]⟩

/-- Modelled from the spec: the state of the machine downgraded to Degraded, published
unless the machine is Degraded already. -/
def CheckinMonitor.degrade (m : CheckinMonitor) : CheckinMonitor :=
  if m.state = UnitState.Degraded then m
  else
    { m with
      state := UnitState.Degraded
      published := m.published ++ [(UnitState.Degraded, "missed check-in")] }

/-- Modelled from the spec: one event of the missed-checkin machine (4.2).  On a tick, if
`now - last_checkin > Checkin` the state is downgraded to Degraded; if it exceeds
`2×Checkin` the child is killed and the component, Degraded by then, is published Failed
(the transition into Failed for missed check-ins leaves Degraded); the reason is carried in
the message.  A check-in records its time and the component is Healthy. -/
def CheckinMonitor.step (t : CommandTimeoutSpec) (m : CheckinMonitor) :
    CheckinEvent → CheckinMonitor
  | CheckinEvent.tick now =>
    if m.killed then m
    else if 2 * t.Checkin < now - m.lastCheckin then
      { m.degrade with
        state := UnitState.Failed
        killed := true
        published := m.degrade.published ++ [(UnitState.Failed, "missed check-ins: child killed")] }
    else if t.Checkin < now - m.lastCheckin then m.degrade
    else m
  | CheckinEvent.checkin now =>
    if m.killed then m
    else if m.state = UnitState.Healthy then { m with lastCheckin := now }
    else
      { m with
        lastCheckin := now
        state := UnitState.Healthy
        published := m.published ++ [(UnitState.Healthy, "Healthy")] }

/-- Modelled from the spec: the machine applies its events in arrival order. -/
def CheckinMonitor.run (t : CommandTimeoutSpec) (m : CheckinMonitor)
    (evs : List CheckinEvent) : CheckinMonitor :=
  evs.foldl (CheckinMonitor.step t) m

/-- In the log, the entry just before `b` is `a`: a Failed entry follows a Degraded one. -/
def degradedThenFailed (a b : UnitState × String) : Prop :=
  b.1 = UnitState.Failed → a.1 = UnitState.Degraded

/-- The invariant of the missed-checkin machine: the last published state is the state of
the machine, the first published state is not Failed, and every Failed entry directly
follows a Degraded entry. -/
def CheckinMonitor.invariant (m : CheckinMonitor) : Prop :=
  (∃ p, m.published.getLast? = some p ∧ p.1 = m.state) ∧
    (∀ p ∈ m.published.head?, p.1 ≠ UnitState.Failed) ∧
    List.Chain' degradedThenFailed m.published

/-- The timeouts of `TestManager_FakeInput_RestartsOnMissedCheckins`, in milliseconds. -/
def missedCheckinTimeouts : CommandTimeoutSpec := ⟨100, 10000, 30000⟩

/-- A run of the scenario of `TestManager_FakeInput_RestartsOnMissedCheckins`: the child is
launched at 0 and checks in at 10 and 60, then no more; the ticker fires every 50 ms. -/
def missedCheckinEvents : List CheckinEvent :=
  [CheckinEvent.checkin 10, CheckinEvent.tick 50, CheckinEvent.checkin 60,
    CheckinEvent.tick 100, CheckinEvent.tick 150, CheckinEvent.tick 200,
    CheckinEvent.tick 250, CheckinEvent.tick 300]

/-- A run with a late ticker: the child is launched at 0 and checks in at 10, and the first
tick comes at 250, after more than twice the check-in timeout. -/
def lateTickEvents : List CheckinEvent :=
  [CheckinEvent.checkin 10, CheckinEvent.tick 250]

/-- Modelled from the spec: the starts counted in the restart window that ends at `now`
(4.2): the start timestamps younger than `RestartMonitoringPeriod`. -/
def countInWindow (spec : CommandSpec) (now : Nat) (starts : List Nat) : Nat :=
  (starts.filter (fun s => now < s + spec.RestartMonitoringPeriod)).length

/-- Modelled from the spec: a restart is allowed iff `count_in_window < max` (4.2). -/
def restartAllowed (spec : CommandSpec) (now : Nat) (starts : List Nat) : Bool :=
  decide (countInWindow spec now starts < spec.MaxRestartsPerPeriod)

/-- Modelled from the spec: what the restart policy of a component sees: the child exited,
the component became Healthy, or a Failed component is retried; `now` is the time of the
event. -/
inductive ChildEvent where
  | exited (now : Nat)
  | healthy (now : Nat)
  | retry (now : Nat)
  deriving DecidableEq, Repr

/-- Modelled from the spec: the restart policy of a component (4.2), absent from the
sources: the start timestamps, newest first, whether the child was Healthy since its
start, whether a child runs, the component states published, oldest first, and the number
of launches. -/
structure Supervisor where
  starts : List Nat
  wasHealthy : Bool
  running : Bool
  published : List UnitState
  launches : Nat
  deriving DecidableEq, Repr

/-- Modelled from the spec: the policy of a child launched at `start`. -/
def Supervisor.init (start : Nat) : Supervisor :=
  ⟨[start], false, true, [UnitState.Starting], 1⟩

/-- Modelled from the spec: the start timestamps the next restart is counted against: the
very first restart after a Healthy interval clears the window (4.2). -/
def Supervisor.window (s : Supervisor) : List Nat :=
  if s.wasHealthy then [] else s.starts

/-- Modelled from the spec: one event of the restart policy (4.2).  When the child exits the
component is published Stopped; it is launched again and published Starting iff the restart
is allowed, else it is published Failed and remains so until a retry finds the window
drained. -/
def Supervisor.step (spec : CommandSpec) (s : Supervisor) : ChildEvent → Supervisor
  | ChildEvent.exited now =>
    if s.running then
      if restartAllowed spec now s.window then
        { starts := now :: s.window
          wasHealthy := false
          running := true
          published := s.published ++ [UnitState.Stopped, UnitState.Starting]
          launches := s.launches + 1 }
      else
        { s with
          starts := s.window
          wasHealthy := false
          running := false
          published := s.published ++ [UnitState.Stopped, UnitState.Failed] }
    else s
  | ChildEvent.healthy _ =>
    if s.running then
      { s with wasHealthy := true, published := s.published ++ [UnitState.Healthy] }
    else s
  | ChildEvent.retry now =>
    if s.running then s
    else if restartAllowed spec now s.starts then
      { starts := now :: s.starts
        wasHealthy := false
        running := true
        published := s.published ++ [UnitState.Starting]
        launches := s.launches + 1 }
    else s

/-- Modelled from the spec: the policy applies its events in arrival order. -/
def Supervisor.run (spec : CommandSpec) (s : Supervisor) (evs : List ChildEvent) :
    Supervisor :=
  evs.foldl (Supervisor.step spec) s

/-- The event is an exit of the child. -/
def ChildEvent.isExit : ChildEvent → Bool
  | ChildEvent.exited _ => true
  | _ => false

/-- The component stays under the cap: at every exit of its child along the events, the
starts counted in the window are fewer than `MaxRestartsPerPeriod`. -/
def underCap (spec : CommandSpec) : Supervisor → List ChildEvent → Bool
  | _, [] => true
  | s, ChildEvent.exited now :: evs =>
    decide (countInWindow spec now s.window < spec.MaxRestartsPerPeriod) &&
      underCap spec (s.step spec (ChildEvent.exited now)) evs
  | s, ev :: evs => underCap spec (s.step spec ev) evs

/-- The exits of the child are at least `gap` apart: each one comes no sooner than `gap`
after the start at `last` that preceded it. -/
def spacedExits (gap : Nat) : Nat → List ChildEvent → Bool
  | _, [] => true
  | last, ChildEvent.exited now :: evs => decide (last + gap ≤ now) && spacedExits gap now evs
  | last, _ :: evs => spacedExits gap last evs

/-- The invariant of the restart policy of a running child whose latest start was at
`last`: the recorded starts are pairwise at least `gap` apart, newest first, and none is
later than `last`. -/
def Supervisor.spaced (gap last : Nat) (s : Supervisor) : Prop :=
  s.running = true ∧ List.Pairwise (fun a b => b + gap ≤ a) s.starts ∧ ∀ a ∈ s.starts, a ≤ last

/-- The command spec of `TestManager_FakeInput_KeepsRestarting`, in milliseconds. -/
def keepsRestartingSpec : CommandSpec := ⟨⟨30000, 10, 30000⟩, 1000, 10⟩

/-- A run of the scenario of `TestManager_FakeInput_KeepsRestarting`: the child is launched
at 0, becomes Healthy and kills itself every 300 ms, three times over. -/
def keepsRestartingEvents : List ChildEvent :=
  [ChildEvent.healthy 100, ChildEvent.exited 300, ChildEvent.healthy 400,
    ChildEvent.exited 600, ChildEvent.healthy 700, ChildEvent.exited 900,
    ChildEvent.healthy 1000]

/-! ## The action router

`manager_test.go` calls `PerformAction` with a deadline and compares the error with
`context.DeadlineExceeded` and with `errActionUndefined`; the router and the worker are not
among the sources and are modelled from the specification (4.6). -/

/-- The constant `errActionUndefined` of `manager_test.go`. -/
def errActionUndefined : String := "action undefined"

/-- Modelled from the spec: the errors of `PerformAction` (4.6, section 7): the deadline of
the call expired (Go `context.DeadlineExceeded`), or the worker answered with an error,
which is passed through. -/
inductive ActionError where
  | deadlineExceeded
  | worker (message : String)
  deriving DecidableEq, Repr

/-- Modelled from the spec: the message of an error of `PerformAction`, Go `err.Error()`. -/
def ActionError.Error : ActionError → String
  | ActionError.deadlineExceeded => "context deadline exceeded"
  | ActionError.worker message => message

/-- Modelled from the spec: a worker, by the actions it defines: what each one answers, a
result or an error, if it answers at all. -/
structure Worker where
  actions : List (String × Option (Except String String))
  deriving Repr

/-- Modelled from the spec: the answer of the worker to an action request (4.6): the one of
the action if it defines the name, else the error `action undefined`. -/
def Worker.handle (w : Worker) (name : String) : Option (Except String String) :=
  match w.actions.lookup name with
  | some answer => answer
  | none => some (Except.error errActionUndefined)

/-- Modelled from the spec: the router (4.6), absent from the sources: the next correlation
id and the correlation ids that have a waiter. -/
structure Router where
  nextID : Nat
  waiters : List Nat
  deriving DecidableEq, Repr

/-- Modelled from the spec: what reaches the router while a call waits (4.6): the response
frame of the worker for a correlation id, the death of the worker, or the expiry of the
deadline of another call. -/
inductive RouterEvent where
  | response (id : Nat) (answer : Except String String)
  | closed
  | expired (id : Nat)
  deriving Repr

/-- Modelled from the spec: an outbound action gets a freshly generated correlation id and
a waiter under it (4.6). -/
def Router.register (r : Router) : Nat × Router :=
  (r.nextID, ⟨r.nextID + 1, r.nextID :: r.waiters⟩)

/-- Modelled from the spec: the waiter of the correlation id is removed. -/
def Router.remove (r : Router) (id : Nat) : Router :=
  { r with waiters := r.waiters.filter (fun w => w != id) }

/-- Modelled from the spec: the outcome of a response frame for the waiter: the result, or
the error of the worker passed through (4.6). -/
def passThrough : Except String String → Except ActionError String
  | Except.ok result => Except.ok result
  | Except.error message => Except.error (ActionError.worker message)

/-- Modelled from the spec: the call with the correlation id `id` waits (4.6); `frames` is
what reaches the router before the deadline of the call, in arrival order.  The response
frame for `id` completes the waiter with the result or the error; a frame for another id
completes or expires that waiter; when nothing completed the waiter before the deadline,
the expiry removes the waiter and returns `deadline exceeded`.  The death of the worker
completes no waiter: `TestManager_FakeInput_Restarts` requires of the call that is in
flight when `kill` ends the worker that it returns `context.DeadlineExceeded` (the reaper
observes the exit, section 7), so the waiter stays until its deadline. -/
def Router.await (r : Router) (id : Nat) :
    List RouterEvent → Except ActionError String × Router
  | [] => (Except.error ActionError.deadlineExceeded, r.remove id)
  | RouterEvent.response j answer :: frames =>
    if j = id then (passThrough answer, r.remove id) else (r.remove j).await id frames
  | RouterEvent.closed :: frames => r.await id frames
  | RouterEvent.expired j :: frames =>
    if j = id then (Except.error ActionError.deadlineExceeded, r.remove id)
    else (r.remove j).await id frames

/-- Modelled from the spec: `PerformAction` (4.1, 4.6): the action is registered under a
fresh correlation id and the call waits for its outcome; `frames` is what reaches the
router before the deadline of the call. -/
def PerformAction (r : Router) (frames : List RouterEvent) :
    Except ActionError String × Router :=
  (r.register.2).await r.register.1 frames

/-- The frame ends the exchange of the call `id` with its worker: it is the response for
`id`, its expiry, or the death of the worker, after which no response comes. -/
def RouterEvent.completes (id : Nat) : RouterEvent → Bool
  | RouterEvent.response j _ => j == id
  | RouterEvent.closed => true
  | RouterEvent.expired j => j == id

/-- The frame is the response of the worker for the correlation id `id`. -/
def RouterEvent.answers (id : Nat) : RouterEvent → Bool
  | RouterEvent.response j _ => j == id
  | _ => false

/-- Modelled from the spec: what reaches the router once the worker got the action `name`
for the correlation id `id`: its response frame if it answers, and its death if the action
ends it without an answer. -/
def Worker.frames (w : Worker) (name : String) (id : Nat) : List RouterEvent :=
  match w.handle name with
  | some answer => [RouterEvent.response id answer]
  | none => [RouterEvent.closed]

/-- Modelled from the spec: the fake worker of the seed scenarios (section 8): `set_state`
answers with a result, `kill` ends the worker without an answer, and no other action is
defined. -/
def fakeWorker : Worker :=
  ⟨[("set_state", some (Except.ok "")), ("kill", none)]⟩

/-- A router with two calls in flight, under the correlation ids 3 and 5. -/
def busyRouter : Router := ⟨7, [5, 3]⟩

/-! ## `signalState` (helper of the manager tests)

`signalState` reports on a channel what a published state means for a test.  The channel
is the list of the values sent on it, oldest first: `none` is Go `nil`, `some msg` an error
with the message `msg`.  The `%v` form of a `client.UnitState` is a parameter. -/

/-- Go `isValidState` of `manager_test.go`. -/
def isValidState (state : UnitState) : List UnitState → Bool
  | [] => false
  | s :: acceptableStates => if s = state then true else isValidState state acceptableStates

/-- Go `strings.Join` on the issues of `signalState`. -/
def joinText : List String → String → String
  | [], _ => ""
  | [a], _ => a
  | a :: b :: rest, sep => a ++ sep ++ joinText (b :: rest) sep

/-- The loop of `signalState` over the units, in the order of the iteration, from the
`issues` and the `healthy` count so far: a Starting unit counts for neither, a unit in an
acceptable state is healthy, any other unit is an issue. -/
def signalLoop (fmtState : UnitState → String) (acceptableStates : List UnitState) :
    List (ComponentUnitKey × ComponentUnitState) → List String × Nat → List String × Nat
  | [], acc => acc
  | (key, unit) :: rest, (issues, healthy) =>
    if unit.State = UnitState.Starting then
      signalLoop fmtState acceptableStates rest (issues, healthy)
    else if isValidState unit.State acceptableStates then
      signalLoop fmtState acceptableStates rest (issues, healthy + 1)
    else
      signalLoop fmtState acceptableStates rest
        (issues ++ ["unit " ++ key.UnitID ++ " in invalid state " ++ fmtState unit.State],
          healthy)

/-- Go `signalState` of `manager_test.go`: the values it sends on `subErrCh`, in order. -/
def signalState (fmtState : UnitState → String) (state : ComponentState)
    (acceptableStates : List UnitState) : List (Option String) :=
  if state.State = UnitState.Failed then [some ("component failed: " ++ state.Message)]
  else
    let r := signalLoop fmtState acceptableStates state.Units ([], 0)
    (if r.1.length ≠ 0 then [some (joinText r.1 "| ")] else []) ++
      (if r.2 = state.Units.length then [none] else [])

/-- The unit is an issue for `signalState`: its state is neither Starting nor acceptable. -/
def invalidUnit (acceptableStates : List UnitState)
    (p : ComponentUnitKey × ComponentUnitState) : Bool :=
  decide (p.2.State ≠ UnitState.Starting) && !isValidState p.2.State acceptableStates

/-- The unit is healthy for `signalState`: its state is acceptable and not Starting. -/
def healthyUnit (acceptableStates : List UnitState)
    (p : ComponentUnitKey × ComponentUnitState) : Bool :=
  decide (p.2.State ≠ UnitState.Starting) && isValidState p.2.State acceptableStates

/-- A sample of the `%v` form of a unit state. -/
def sampleFmtState : UnitState → String
  | UnitState.Starting => "STARTING"
  | UnitState.Configuring => "CONFIGURING"
  | UnitState.Healthy => "HEALTHY"
  | UnitState.Degraded => "DEGRADED"
  | UnitState.Failed => "FAILED"
  | UnitState.Stopping => "STOPPING"
  | UnitState.Stopped => "STOPPED"

/-! ## `cleanString` (integration tests)

`cleanString` lower-cases a string with `strings.ToLower` and deletes what
`nonAlphanumericRegex` matches.  Both work on the runes of the UTF-8 string, so
`utf8.DecodeRuneInString`, `utf8.EncodeRune`, `strings.Map` and `strings.ToLower` are
embedded; the shifts and masks of package `utf8` are written with `*`, `/` and `%`.  The
case table of package `unicode` is a parameter. -/

/-- Go `utf8.RuneError`, the replacement character U+FFFD. -/
def RuneError : Nat := 0xFFFD

/-- Go `utf8.RuneSelf`: the bytes below it are runes of their own. -/
def RuneSelf : Nat := 0x80

/-- Go `unicode.MaxASCII`. -/
def MaxASCII : Nat := 0x7F

/-- The second byte `s1` lies in the accept range of the first byte `s0`, Go
`acceptRanges[first[s0] >> 4]`: it is a continuation byte, and it excludes the overlong
forms after `E0` and `F0`, the surrogates after `ED` and the runes above U+10FFFF after
`F4`. -/
def accepts (s0 s1 : Nat) : Bool :=
  if s0 = 0xE0 then decide (0xA0 ≤ s1 ∧ s1 ≤ 0xBF)
  else if s0 = 0xED then decide (0x80 ≤ s1 ∧ s1 ≤ 0x9F)
  else if s0 = 0xF0 then decide (0x90 ≤ s1 ∧ s1 ≤ 0xBF)
  else if s0 = 0xF4 then decide (0x80 ≤ s1 ∧ s1 ≤ 0x8F)
  else decide (0x80 ≤ s1 ∧ s1 ≤ 0xBF)

/-- The byte is a continuation byte, between Go `locb` and `hicb`. -/
def isContinuation (b : Nat) : Bool := decide (0x80 ≤ b ∧ b ≤ 0xBF)

/-- Go `utf8.DecodeRuneInString` after a first byte of a two-byte form. -/
def decode2 (s0 : Nat) : GoString → Nat × Nat
  | s1 :: _ => if accepts s0 s1 then (s0 % 32 * 64 + s1 % 64, 2) else (RuneError, 1)
  | [] => (RuneError, 1)

/-- Go `utf8.DecodeRuneInString` after a first byte of a three-byte form. -/
def decode3 (s0 : Nat) : GoString → Nat × Nat
  | s1 :: s2 :: _ =>
    if !accepts s0 s1 then (RuneError, 1)
    else if !isContinuation s2 then (RuneError, 1)
    else (s0 % 16 * 4096 + s1 % 64 * 64 + s2 % 64, 3)
  | _ => (RuneError, 1)

/-- Go `utf8.DecodeRuneInString` after a first byte of a four-byte form. -/
def decode4 (s0 : Nat) : GoString → Nat × Nat
  | s1 :: s2 :: s3 :: _ =>
    if !accepts s0 s1 then (RuneError, 1)
    else if !isContinuation s2 then (RuneError, 1)
    else if !isContinuation s3 then (RuneError, 1)
    else (s0 % 8 * 262144 + s1 % 64 * 4096 + s2 % 64 * 64 + s3 % 64, 4)
  | _ => (RuneError, 1)

/-- Go `utf8.DecodeRuneInString`: the first rune of `s` and its width in bytes;
`(RuneError, 0)` for the empty string and `(RuneError, 1)` for an invalid encoding.  The
ranges of the first byte are those of the table `first`. -/
def DecodeRuneInString : GoString → Nat × Nat
  | [] => (RuneError, 0)
  | s0 :: rest =>
    if s0 < RuneSelf then (s0, 1)
    else if s0 < 0xC2 then (RuneError, 1)
    else if s0 < 0xE0 then decode2 s0 rest
    else if s0 < 0xF0 then decode3 s0 rest
    else if s0 < 0xF5 then decode4 s0 rest
    else (RuneError, 1)

/-- Go `utf8.EncodeRune` (`utf8.AppendRune`): the UTF-8 bytes of the rune; a surrogate and
a rune above U+10FFFF are encoded as `RuneError`. -/
def EncodeRune (r : Nat) : GoString :=
  if r < RuneSelf then [r]
  else if r ≤ 0x7FF then [0xC0 + r / 64, 0x80 + r % 64]
  else if 0x10FFFF < r ∨ (0xD800 ≤ r ∧ r ≤ 0xDFFF) then [0xEF, 0xBF, 0xBD]
  else if r ≤ 0xFFFF then [0xE0 + r / 4096, 0x80 + r / 64 % 64, 0x80 + r % 64]
  else [0xF0 + r / 262144, 0x80 + r / 4096 % 64, 0x80 + r / 64 % 64, 0x80 + r % 64]

/-- The loop of Go `strings.Map` over the runes of the string: every rune is decoded,
mapped and encoded; `skip` is the number of bytes left of the rune decoded last.  The
prefix of unchanged runes that Go copies as it is consists of the encodings of its runes. -/
def mapRunes (mapping : Nat → Nat) : Nat → GoString → GoString
  | _, [] => []
  | skip + 1, _ :: rest => mapRunes mapping skip rest
  | 0, s0 :: rest =>
    EncodeRune (mapping (DecodeRuneInString (s0 :: rest)).1) ++
      mapRunes mapping ((DecodeRuneInString (s0 :: rest)).2 - 1) rest

/-- Go `strings.Map`. -/
def stringsMap (mapping : Nat → Nat) (s : GoString) : GoString := mapRunes mapping 0 s

/-- The case table of package `unicode`, which is not among the sources. -/
structure UnicodePkg where
  /-- Go `unicode.To(_case, r)`. -/
  To : Nat → Nat → Nat

/-- Go `unicode.LowerCase`. -/
def LowerCase : Nat := 1

/-- The byte is an upper-case ASCII letter. -/
def isUpperASCII (c : Nat) : Bool := decide (65 ≤ c ∧ c ≤ 90)

/-- Go `unicode.ToLower`. -/
def UnicodePkg.ToLower (U : UnicodePkg) (r : Nat) : Nat :=
  if r ≤ MaxASCII then (if isUpperASCII r then r + 32 else r) else U.To LowerCase r

/-- Go `strings.ToLower`: a string of ASCII bytes is returned as it is when it has no
upper-case letter and with its upper-case letters moved by `'a' - 'A'` otherwise; any other
string is mapped with `unicode.ToLower`. -/
def stringsToLower (U : UnicodePkg) (s : GoString) : GoString :=
  if s.all (fun c => decide (c < RuneSelf)) then
    if !s.any isUpperASCII then s
    else s.map (fun c => if isUpperASCII c then c + 32 else c)
  else stringsMap U.ToLower s

/-- A regular expression of the form `[…]+`, by the runes its character class holds. -/
structure Regexp where
  charClass : Nat → Bool

/-- The rune is a letter of `a-z`, `A-Z`, a digit or the space. -/
def isAlphanumericOrSpace (r : Nat) : Bool :=
  decide ((97 ≤ r ∧ r ≤ 122) ∨ (65 ≤ r ∧ r ≤ 90) ∨ (48 ≤ r ∧ r ≤ 57) ∨ r = 32)

/-- Go `nonAlphanumericRegex`, the expression `[^a-zA-Z0-9 ]+`. -/
def nonAlphanumericRegex : Regexp := ⟨fun r => !isAlphanumericOrSpace r⟩

/-- The loop of Go `ReplaceAllString` for an expression `[…]+` over the runes of `src`:
every maximal run of runes of the class is replaced by one `repl`, the bytes of the other
runes are copied; `skip` is the number of bytes left of the rune decoded last and
`inMatch` tells that it was of the class. -/
def replaceRuns (re : Regexp) (repl : GoString) : Nat → Bool → GoString → GoString
  | _, _, [] => []
  | skip + 1, inMatch, _ :: rest => replaceRuns re repl skip inMatch rest
  | 0, inMatch, s0 :: rest =>
    if re.charClass (DecodeRuneInString (s0 :: rest)).1 then
      (if inMatch then [] else repl) ++
        replaceRuns re repl ((DecodeRuneInString (s0 :: rest)).2 - 1) true rest
    else
      (s0 :: rest).take (DecodeRuneInString (s0 :: rest)).2 ++
        replaceRuns re repl ((DecodeRuneInString (s0 :: rest)).2 - 1) false rest

/-- Go `(*Regexp).ReplaceAllString(src, repl)` for an expression `[…]+`. -/
def Regexp.ReplaceAllString (re : Regexp) (src repl : GoString) : GoString :=
  replaceRuns re repl 0 false src

/-- Go `cleanString` of `logs_ingestion_test.go`. -/
def cleanString (U : UnicodePkg) (s : GoString) : GoString :=
  nonAlphanumericRegex.ReplaceAllString (stringsToLower U s) []

/-- The byte is a lower-case ASCII letter, a digit or the space. -/
def isCleanByte (c : Nat) : Bool :=
  decide ((97 ≤ c ∧ c ≤ 122) ∨ (48 ≤ c ∧ c ≤ 57) ∨ c = 32)

/-- A sample of the case table: the Latin-1 capitals `À` to `Þ` are 32 below their small
letters, the Kelvin sign U+212A has the small letter `k`, every other rune is its own. -/
def sampleUnicode : UnicodePkg :=
  ⟨fun _ r => if r = 0x212A then 0x6B else if 0xC0 ≤ r ∧ r ≤ 0xDE then r + 32 else r⟩
/-! ## Lemmas on `filepath.Clean` and `filepath.Join` -/

theorem controlName_eq : controlName =
    [101, 108, 97, 115, 116, 105, 99, 45, 97, 103, 101, 110, 116, 45, 99, 111, 110, 116,
      114, 111, 108] := by
  decide

theorem cleanLoop_sep (rooted copying : Bool) (rest out : GoString) (dotdot : Nat) :
    cleanLoop rooted (47 :: rest) copying out dotdot = cleanLoop rooted rest false out dotdot := by
  cases copying <;> cases rest <;> simp [cleanLoop, isPathSeparator]

theorem cleanLoop_copy (rooted : Bool) (c : Nat) (t out : GoString) (dotdot : Nat) :
    cleanLoop rooted (c :: t) true out dotdot =
      if isPathSeparator c then cleanLoop rooted t false out dotdot
      else cleanLoop rooted t true (out ++ [c]) dotdot := by
  rw [cleanLoop]

theorem cleanLoop_scan (rooted : Bool) (c d : Nat) (t2 out : GoString) (dotdot : Nat) :
    cleanLoop rooted (c :: d :: t2) false out dotdot =
      if isPathSeparator c then cleanLoop rooted (d :: t2) false out dotdot
      else if c = 46 ∧ atElemEnd (d :: t2) = true then cleanLoop rooted (d :: t2) false out dotdot
      else if c = 46 ∧ d = 46 ∧ atElemEnd t2 = true then
        cleanLoop rooted t2 false (dotdotStep rooted out dotdot).1 (dotdotStep rooted out dotdot).2
      else cleanLoop rooted (d :: t2) true (addSeparator rooted out ++ [c]) dotdot := by
  conv_lhs => rw [cleanLoop]

/-- Reading the name as a fresh element appends it after the separator. -/
theorem cleanLoop_controlName (rooted : Bool) (out : GoString) (dotdot : Nat) :
    cleanLoop rooted controlName false out dotdot = addSeparator rooted out ++ controlName := by
  rw [controlName_eq]
  simp [cleanLoop, isPathSeparator, atElemEnd]

/-- Whatever precedes it, a final element `/elastic-agent-control` ends the cleaned
buffer. -/
theorem cleanLoop_suffix (rooted : Bool) :
    ∀ (n : Nat) (s : GoString), s.length ≤ n → ∀ (copying : Bool) (out : GoString) (dotdot : Nat),
      ∃ pre, cleanLoop rooted (s ++ 47 :: controlName) copying out dotdot = pre ++ controlName := by
  have base : ∀ (copying : Bool) (out : GoString) (dotdot : Nat),
      ∃ pre, cleanLoop rooted ([] ++ 47 :: controlName) copying out dotdot
        = pre ++ controlName := by
    intro copying out dotdot
    rw [List.nil_append, cleanLoop_sep, cleanLoop_controlName]
    exact ⟨_, rfl⟩
  intro n
  induction n with
  | zero =>
    intro s hs copying out dotdot
    have hnil : s = [] := List.length_eq_zero.mp (Nat.le_zero.mp hs)
    subst hnil
    exact base copying out dotdot
  | succ n ih =>
    intro s hs copying out dotdot
    cases s with
    | nil => exact base copying out dotdot
    | cons c t =>
      have ht : t.length ≤ n := by simpa using hs
      cases copying with
      | true =>
        rw [List.cons_append, cleanLoop_copy]
        split
        · exact ih t ht false out dotdot
        · exact ih t ht true _ dotdot
      | false =>
        cases t with
        | nil =>
          rw [List.cons_append, List.nil_append, cleanLoop_scan]
          split
          · exact ih [] (Nat.zero_le _) false out dotdot
          · split
            · exact ih [] (Nat.zero_le _) false out dotdot
            · split
              · rename_i h
                exact absurd h.2.1 (by decide)
              · exact ih [] (Nat.zero_le _) true _ dotdot
        | cons d t2 =>
          have ht2 : t2.length ≤ n := by
            simp at ht
            omega
          rw [List.cons_append, List.cons_append, cleanLoop_scan]
          split
          · exact ih (d :: t2) ht false out dotdot
          · split
            · exact ih (d :: t2) ht false out dotdot
            · split
              · exact ih t2 ht2 false _ _
              · exact ih (d :: t2) ht true _ dotdot

theorem controlName_ne_nil : controlName ≠ [] := by
  rw [controlName_eq]
  exact List.cons_ne_nil _ _

/-- The result of `Join(tmp, "elastic-agent-control")` ends with the joined name. -/
theorem Join_suffix (tmp : GoString) : ∃ pre, Join [tmp, controlName] = pre ++ controlName := by
  cases tmp with
  | nil => exact ⟨[], by decide⟩
  | cons c t =>
    have hjoin : stringsJoin [c :: t, controlName] [47] = c :: (t ++ 47 :: controlName) := by
      simp [stringsJoin, List.intercalate]
    have hlen : ∀ pre : GoString, ¬ (pre ++ controlName).length = 0 := by
      intro pre h
      exact controlName_ne_nil (List.append_eq_nil.mp (List.length_eq_zero.mp h)).2
    simp only [Join, hjoin, Clean]
    by_cases hc : isPathSeparator c = true
    · obtain ⟨pre, hpre⟩ := cleanLoop_suffix true t.length t (Nat.le_refl _) false [47] 1
      refine ⟨pre, ?_⟩
      rw [if_pos hc, hpre, if_neg (hlen pre), if_neg (List.cons_ne_nil c t)]
    · obtain ⟨pre, hpre⟩ :=
        cleanLoop_suffix false (c :: t).length (c :: t) (Nat.le_refl _) false [] 0
      refine ⟨pre, ?_⟩
      rw [List.cons_append] at hpre
      rw [if_neg hc, hpre, if_neg (hlen pre), if_neg (List.cons_ne_nil c t)]

/-! ## Lemmas on the hashed fallback -/

theorem ldigits_mem_hexDigits : ∀ k, k < 16 → ldigits.getD k 0 ∈ hexDigits := by
  decide

theorem ldigits_injective :
    ∀ i, i < 16 → ∀ j, j < 16 → ldigits.getD i 0 = ldigits.getD j 0 → i = j := by
  decide

theorem fmtHex_cons (c : Nat) (b : GoString) :
    fmtHex (c :: b) = ldigits.getD (c % 256 / 16) 0 :: ldigits.getD (c % 16) 0 :: fmtHex b := by
  simp [fmtHex]

theorem length_fmtHex (b : GoString) : (fmtHex b).length = 2 * b.length := by
  induction b with
  | nil => rfl
  | cons c b ih =>
    rw [fmtHex_cons]
    simp only [List.length_cons, ih]
    omega

theorem mem_fmtHex {c : Nat} {b : GoString} (h : c ∈ fmtHex b) : c ∈ hexDigits := by
  induction b with
  | nil => simp [fmtHex] at h
  | cons x b ih =>
    rw [fmtHex_cons] at h
    rcases List.mem_cons.mp h with h1 | h
    · rw [h1]
      exact ldigits_mem_hexDigits _ (by omega)
    · rcases List.mem_cons.mp h with h2 | h
      · rw [h2]
        exact ldigits_mem_hexDigits _ (by omega)
      · exact ih h

theorem fmtHex_injective :
    ∀ (a b : GoString), (∀ x ∈ a, x < 256) → (∀ x ∈ b, x < 256) → fmtHex a = fmtHex b → a = b := by
  intro a
  induction a with
  | nil =>
    intro b _ _ h
    cases b with
    | nil => rfl
    | cons y b => simp [fmtHex] at h
  | cons x a ih =>
    intro b ha hb h
    cases b with
    | nil => simp [fmtHex] at h
    | cons y b =>
      rw [fmtHex_cons, fmtHex_cons] at h
      have hx : x < 256 := ha x (List.mem_cons_self _ _)
      have hy : y < 256 := hb y (List.mem_cons_self _ _)
      injection h with h1 h
      injection h with h2 h
      have e1 := ldigits_injective _ (by omega) _ (by omega) h1
      have e2 := ldigits_injective _ (by omega) _ (by omega) h2
      have hxy : x = y := by omega
      have hab : a = b :=
        ih b (fun z hz => ha z (List.mem_cons_of_mem _ hz))
          (fun z hz => hb z (List.mem_cons_of_mem _ hz)) h
      rw [hxy, hab]

theorem length_Sum256 (data : GoString) : (Sum256 data).length = 32 := by
  simp [Sum256, putUint32]

theorem Sum256_lt (data : GoString) : ∀ x ∈ Sum256 data, x < 256 := by
  intro x hx
  simp only [Sum256, putUint32, List.mem_append, List.mem_cons, List.mem_singleton,
    List.not_mem_nil, or_false] at hx
  rcases hx with ((((((h | h) | h) | h) | h) | h) | h) | h <;>
    rcases h with h | h | h | h <;> rw [h] <;> exact Nat.mod_lt _ (by decide)

theorem length_hashedPath (path : GoString) : len (hashedPath path) = 95 := by
  have h1 : (ascii "unix:///tmp/elastic-agent/").length = 26 := by decide
  have h2 : (ascii ".sock").length = 5 := by decide
  simp only [len, hashedPath, List.length_append, length_fmtHex, length_Sum256, h1, h2]

theorem hashedPath_injective {p q : GoString} (h : hashedPath p = hashedPath q) :
    Sum256 p = Sum256 q := by
  simp only [hashedPath] at h
  have h1 := List.append_cancel_left (List.append_cancel_right h)
  exact fmtHex_injective _ _ (Sum256_lt p) (Sum256_lt q) h1

/-- A composed path ends in `l.sock`, a hashed fallback in a hexadecimal digit and `.sock`. -/
theorem composedPath_ne_hashedPath (tmp path : GoString) : composedPath tmp ≠ hashedPath path := by
  intro h
  obtain ⟨pre, hpre⟩ := Join_suffix tmp
  simp only [composedPath, hashedPath, hpre] at h
  have h1 := congrArg List.getLast? (List.append_cancel_right h)
  have hne : fmtHex (Sum256 path) ≠ [] := by
    intro h0
    have := congrArg List.length h0
    rw [length_fmtHex, length_Sum256] at this
    exact absurd this (by decide)
  have hl : (ascii "unix://" ++ (pre ++ controlName)).getLast? = some 108 := by
    have : controlName = List.take 20 controlName ++ [108] := by decide
    rw [this, ← List.append_assoc, ← List.append_assoc, List.getLast?_concat]
  have hr : (ascii "unix:///tmp/elastic-agent/" ++ fmtHex (Sum256 path)).getLast?
      = some ((fmtHex (Sum256 path)).getLast hne) := by
    rw [List.getLast?_append, List.getLast?_eq_getLast _ hne]
    rfl
  rw [hl, hr] at h1
  have hmem : (108 : Nat) ∈ hexDigits := by
    have := mem_fmtHex (List.getLast_mem hne)
    rwa [← Option.some.inj h1] at this
  exact absurd hmem (by decide)

theorem Address_short (P : Paths) (root : Bool) (e : Option GoString) (tmp : GoString)
    (h : len (composedPath tmp) < 104) :
    Address P ⟨false, root, e, tmp⟩ = composedPath tmp := by
  simp [Address, h]

theorem Address_long (P : Paths) (root : Bool) (e : Option GoString) (tmp : GoString)
    (h : 104 ≤ len (composedPath tmp)) :
    Address P ⟨false, root, e, tmp⟩ = hashedPath (composedPath tmp) := by
  simp [Address, Nat.not_lt.mpr h]

theorem len_composedPath_tmp70 : len (composedPath tmp70) = 104 := by
  decide!

/-- Known answer: the SHA-256 digest of `"abc"` (FIPS 180-4, B.1). -/
theorem Sum256_abc : fmtHex (Sum256 (ascii "abc")) =
    ascii "ba7816bf8f01cfea414140de5dae2223b00361a396177a9cb410ff61f20015ad" := by
  decide!

/-! ## The control socket address (`Address`) -/

/-- C1: when the agent runs installed, `Address` returns the fixed root control-socket
path `paths.ControlSocketPath` if the process has root and the fixed unprivileged path
`paths.ControlSocketUnprivilegedPath` otherwise, for every temp directory (and whatever
error `utils.HasRoot` reports). -/
theorem Address_installed (P : Paths) (e : Option GoString) (tmp : GoString) :
    Address P ⟨true, true, e, tmp⟩ = P.ControlSocketPath ∧
      Address P ⟨true, false, e, tmp⟩ = P.ControlSocketUnprivilegedPath :=
  ⟨rfl, rfl⟩

/-- C2, as stated, fails: for the temp directory `/aaa…a` of 70 bytes the composed string is
exactly 104 bytes long, so "at most 104", yet `Address` does not return it: it returns the
hashed `/tmp/elastic-agent` fallback. -/
theorem Address_composed_104_falls_back :
    len (composedPath tmp70) = 104 ∧
      Address samplePaths ⟨false, false, none, tmp70⟩ ≠ composedPath tmp70 ∧
      Address samplePaths ⟨false, false, none, tmp70⟩ = ascii
        "unix:///tmp/elastic-agent/eb4df86c9dd4d48c352361bb2d89069207b5f19737c1cc38a2c1ff938b18fbd5.sock" := by
  decide!

/-- C2, amended: when the agent is not installed, `Address` returns the composed string
`"unix://" + Join(tmp, "elastic-agent-control") + ".sock"` exactly when that string is
shorter than 104 bytes, and the `/tmp/elastic-agent` fallback exactly when its length is
at least 104 bytes. -/
theorem Address_composed_iff (P : Paths) (root : Bool) (e : Option GoString) (tmp : GoString) :
    (Address P ⟨false, root, e, tmp⟩ = composedPath tmp ↔ len (composedPath tmp) < 104) ∧
      (Address P ⟨false, root, e, tmp⟩ = hashedPath (composedPath tmp) ↔
        104 ≤ len (composedPath tmp)) := by
  by_cases h : len (composedPath tmp) < 104
  · rw [Address_short P root e tmp h]
    exact ⟨⟨fun _ => h, fun _ => rfl⟩,
      ⟨fun heq => absurd heq (composedPath_ne_hashedPath _ _), fun h2 => absurd h (Nat.not_lt.mpr h2)⟩⟩
  · rw [Address_long P root e tmp (Nat.not_lt.mp h)]
    exact ⟨⟨fun heq => absurd heq.symm (composedPath_ne_hashedPath _ _), fun h2 => absurd h2 h⟩,
      ⟨fun _ => Nat.not_lt.mp h, fun _ => rfl⟩⟩

/-- C3: when the agent is not installed, for every temp directory the string `Address`
returns is shorter than 104 bytes: the composed path is returned only when it is shorter
than 104, and the fallback `unix:///tmp/elastic-agent/<64 hex digits>.sock` always has
length 95. -/
theorem Address_length_lt_104 (P : Paths) (root : Bool) (e : Option GoString) (tmp : GoString) :
    len (Address P ⟨false, root, e, tmp⟩) < 104 ∧
      (Address P ⟨false, root, e, tmp⟩ = composedPath tmp ↔ len (composedPath tmp) < 104) ∧
      (∀ path : GoString, len (hashedPath path) = 95 ∧ (fmtHex (Sum256 path)).length = 64) := by
  have hhex : ∀ path : GoString, (fmtHex (Sum256 path)).length = 64 := by
    intro path
    rw [length_fmtHex, length_Sum256]
  by_cases h : len (composedPath tmp) < 104
  · rw [Address_short P root e tmp h]
    exact ⟨h, ⟨fun _ => h, fun _ => rfl⟩, fun path => ⟨length_hashedPath path, hhex path⟩⟩
  · rw [Address_long P root e tmp (Nat.not_lt.mp h)]
    refine ⟨?_, ⟨fun heq => absurd heq.symm (composedPath_ne_hashedPath _ _),
      fun h2 => absurd h2 h⟩, fun path => ⟨length_hashedPath path, hhex path⟩⟩
    rw [length_hashedPath]
    decide

/-- C4: when the agent is not installed and the composed path is too long (104 bytes or
more), `Address` returns `"unix:///tmp/elastic-agent/" + h + ".sock"` where `h` is the
SHA-256 digest of the original composed path string written as 64 lowercase hexadecimal
digits. -/
theorem Address_hashed (P : Paths) (root : Bool) (e : Option GoString) (tmp : GoString)
    (h : 104 ≤ len (composedPath tmp)) :
    Address P ⟨false, root, e, tmp⟩ =
        ascii "unix:///tmp/elastic-agent/" ++ fmtHex (Sum256 (composedPath tmp)) ++ ascii ".sock" ∧
      len (fmtHex (Sum256 (composedPath tmp))) = 64 ∧
      ∀ c ∈ fmtHex (Sum256 (composedPath tmp)), c ∈ hexDigits := by
  refine ⟨Address_long P root e tmp h, ?_, fun c hc => mem_fmtHex hc⟩
  rw [len, length_fmtHex, length_Sum256]

/-- C4 at the 81-byte temp directory `/bbb…b`: the composed path has 115 bytes and the
address carries its SHA-256 digest. -/
theorem Address_hashed_tmp81 :
    104 ≤ len (composedPath tmp81) ∧
      Address samplePaths ⟨false, true, none, tmp81⟩ = ascii
        "unix:///tmp/elastic-agent/42935d8689a4b6e0c060bd312aad61ff8681a06912d45dac956681d74cb76b17.sock" :=
  ⟨by decide!, (Address_hashed samplePaths true none tmp81 (by decide!)).1.trans (by decide!)⟩

/-- C6: the non-installed address is unique per agent: for two temp directories whose
composed paths differ, `Address` returns different strings, provided that, when both
composed paths are over-long, their SHA-256 digests do not collide; in particular a
composed path never equals the hashed fallback of any path. -/
theorem Address_unique (P : Paths) (r1 r2 : Bool) (e1 e2 : Option GoString) (tmp1 tmp2 : GoString)
    (hne : composedPath tmp1 ≠ composedPath tmp2)
    (hcoll : 104 ≤ len (composedPath tmp1) → 104 ≤ len (composedPath tmp2) →
      Sum256 (composedPath tmp1) ≠ Sum256 (composedPath tmp2)) :
    Address P ⟨false, r1, e1, tmp1⟩ ≠ Address P ⟨false, r2, e2, tmp2⟩ ∧
      ∀ path : GoString, composedPath tmp1 ≠ hashedPath path := by
  refine ⟨?_, fun path => composedPath_ne_hashedPath tmp1 path⟩
  by_cases h1 : len (composedPath tmp1) < 104 <;> by_cases h2 : len (composedPath tmp2) < 104
  · rw [Address_short P r1 e1 tmp1 h1, Address_short P r2 e2 tmp2 h2]
    exact hne
  · rw [Address_short P r1 e1 tmp1 h1, Address_long P r2 e2 tmp2 (Nat.not_lt.mp h2)]
    exact composedPath_ne_hashedPath _ _
  · rw [Address_long P r1 e1 tmp1 (Nat.not_lt.mp h1), Address_short P r2 e2 tmp2 h2]
    exact fun heq => composedPath_ne_hashedPath _ _ heq.symm
  · rw [Address_long P r1 e1 tmp1 (Nat.not_lt.mp h1), Address_long P r2 e2 tmp2 (Nat.not_lt.mp h2)]
    exact fun heq => hcoll (Nat.not_lt.mp h1) (Nat.not_lt.mp h2) (hashedPath_injective heq)

/-- C6 at two over-long temp directories, `/aaa…a` (70 bytes) and `/bbb…b` (81 bytes): the
digests of their composed paths differ and so do the addresses. -/
theorem Address_unique_long_samples :
    composedPath tmp70 ≠ composedPath tmp81 ∧
      Sum256 (composedPath tmp70) ≠ Sum256 (composedPath tmp81) ∧
      Address samplePaths ⟨false, false, none, tmp70⟩ ≠
        Address samplePaths ⟨false, false, none, tmp81⟩ :=
  ⟨by decide!, by decide!,
    (Address_unique samplePaths false false none none tmp70 tmp81 (by decide!)
      (fun _ _ => by decide!)).1⟩

/-! ## The listener (`createListener`) -/

theorem lookup_setFile (files : List (GoString × FileInfo)) (path : GoString) (fi : FileInfo) :
    (setFile files path fi).lookup path = some fi := by
  simp [setFile, List.lookup]

/-- `createListener` is its first part followed by `net.Listen`, `os.Chmod` and, when the
latter fails, `Listener.Close`. -/
theorem createListener_eq (P : Paths) (os : OS) :
    createListener P os =
      match (beforeListen P os).1 with
      | some err => ((none, some err), (beforeListen P os).2)
      | none =>
        match (Listen (beforeListen P os).2 (socketPath P os)).1 with
        | Except.error err => ((none, some err), (Listen (beforeListen P os).2 (socketPath P os)).2)
        | Except.ok lis =>
          match (Chmod (Listen (beforeListen P os).2 (socketPath P os)).2 (socketPath P os)
              (if !os.host.hasRoot then 0o770 else 0o700)).1 with
          | some err => ((none, some err), lis.Close
              (Chmod (Listen (beforeListen P os).2 (socketPath P os)).2 (socketPath P os)
                (if !os.host.hasRoot then 0o770 else 0o700)).2)
          | none => ((some lis, none),
              (Chmod (Listen (beforeListen P os).2 (socketPath P os)).2 (socketPath P os)
                (if !os.host.hasRoot then 0o770 else 0o700)).2) :=
  rfl

/-- What a successful `net.Listen` returns and leaves. -/
theorem Listen_ok {os : OS} {path : GoString} {lis : Listener}
    (h : (Listen os path).1 = Except.ok lis) :
    lis = ⟨os.nextFd, path⟩ ∧ (Listen os path).2.listening = lis :: os.listening ∧
      (Listen os path).2.trace = os.trace ++ [⟨Op.listen, path, none⟩] := by
  unfold Listen at h ⊢
  split at h
  · simp at h
  · split at h
    · simp at h
    · split at h
      · simp at h
      · simp only [Except.ok.injEq] at h
        simp [h, OS.record]

/-- What a failed `net.Listen` leaves. -/
theorem Listen_error {os : OS} {path : GoString} {e : OSError}
    (h : (Listen os path).1 = Except.error e) :
    (Listen os path).2.listening = os.listening ∧
      (Listen os path).2.trace = os.trace ++ [⟨Op.listen, path, some e⟩] := by
  unfold Listen at h ⊢
  split at h
  · simp only [Except.error.injEq] at h
    simp [h, OS.record]
  · split at h
    · simp only [Except.error.injEq] at h
      simp [← h, OS.record]
    · split at h
      · simp only [Except.error.injEq] at h
        simp [← h, OS.record]
      · simp at h

/-- What `os.Chmod` leaves: the mode is set when it succeeds. -/
theorem Chmod_spec (os : OS) (path : GoString) (mode : Nat) :
    (Chmod os path mode).2.listening = os.listening ∧
      (Chmod os path mode).2.trace = os.trace ++ [⟨Op.chmod, path, (Chmod os path mode).1⟩] ∧
      ((Chmod os path mode).1 = none → modeOf (Chmod os path mode).2 path = some mode) := by
  unfold Chmod
  split
  · simp [OS.record]
  · split
    · simp [OS.record]
    · simp [OS.record, modeOf, lookup_setFile]

theorem Stat_spec (os : OS) (path : GoString) :
    (Stat os path).2.listening = os.listening ∧
      (Stat os path).2.trace = os.trace ++ [⟨Op.stat, path, (Stat os path).1.2⟩] := by
  unfold Stat
  split
  · simp [OS.record]
  · split <;> simp [OS.record]

theorem Remove_spec (os : OS) (path : GoString) :
    (Remove os path).2.listening = os.listening ∧
      (Remove os path).2.trace = os.trace ++ [⟨Op.remove, path, (Remove os path).1⟩] := by
  unfold Remove
  split
  · simp [OS.record]
  · split <;> simp [OS.record]

theorem MkdirAll_spec (os : OS) (path : GoString) (perm : Nat) :
    (MkdirAll os path perm).2.listening = os.listening ∧
      (MkdirAll os path perm).2.trace =
        os.trace ++ [⟨Op.mkdirAll, path, (MkdirAll os path perm).1⟩] := by
  unfold MkdirAll
  split
  · simp [OS.record]
  · split <;> simp [OS.record]

/-- The first part of `createListener` opens and closes no listener and makes only
`stat`, `remove` and `mkdirAll` calls. -/
theorem beforeListen_spec (P : Paths) (os : OS) :
    (beforeListen P os).2.listening = os.listening ∧
      ∃ pre, (beforeListen P os).2.trace = os.trace ++ pre ∧
        ∀ c ∈ pre, c.op = Op.stat ∨ c.op = Op.remove ∨ c.op = Op.mkdirAll := by
  unfold beforeListen cleanupListener
  simp only
  split <;> split <;>
    simp only [MkdirAll_spec, Stat_spec, Remove_spec, List.append_assoc, true_and] <;>
    refine ⟨_, rfl, ?_⟩ <;> simp

/-- C7: after `createListener` succeeds, the socket file at the control address has
permission mode 0700 when the process runs as root and 0770 when it does not; the listener
returned is bound to that path and open. -/
theorem createListener_mode (P : Paths) (os : OS) (lis : Listener)
    (h : (createListener P os).1 = (some lis, none)) :
    modeOf (createListener P os).2 (socketPath P os) =
        some (if os.host.hasRoot then 0o700 else 0o770) ∧
      lis.path = socketPath P os ∧ lis ∈ (createListener P os).2.listening := by
  rw [createListener_eq] at h ⊢
  generalize beforeListen P os = md at h ⊢
  rcases md with ⟨err, os2⟩
  cases err with
  | some e => simp at h
  | none =>
    cases hl : (Listen os2 (socketPath P os)).1 with
    | error e =>
      simp only [hl] at h
      simp at h
    | ok l =>
      obtain ⟨hlis, hlst, -⟩ := Listen_ok hl
      have hch := Chmod_spec (Listen os2 (socketPath P os)).2 (socketPath P os)
        (if !os.host.hasRoot then 0o770 else 0o700)
      cases hc : (Chmod (Listen os2 (socketPath P os)).2 (socketPath P os)
          (if !os.host.hasRoot then 0o770 else 0o700)).1 with
      | some e =>
        simp only [hl, hc] at h
        simp at h
      | none =>
        simp only [hl, hc] at h ⊢
        have hl2 : l = lis := by simpa using h
        subst hl2
        refine ⟨?_, ?_, ?_⟩
        · rw [hch.2.2 hc]
          cases os.host.hasRoot <;> rfl
        · rw [hlis]
        · rw [hch.1, hlst]
          exact List.mem_cons_self _ _

/-- C7 on the sample system: the socket of a root agent gets mode 0700, that of an
unprivileged agent mode 0770. -/
theorem createListener_mode_samples :
    modeOf (createListener samplePaths (sampleOS true noFault)).2
        (ascii "/run/elastic-agent.sock") = some 0o700 ∧
      modeOf (createListener samplePaths (sampleOS false noFault)).2
        (ascii "/run/elastic-agent-unprivileged.sock") = some 0o770 :=
  ⟨(createListener_mode samplePaths (sampleOS true noFault)
      ⟨3, ascii "/run/elastic-agent.sock"⟩ (by decide!)).1,
    (createListener_mode samplePaths (sampleOS false noFault)
      ⟨3, ascii "/run/elastic-agent-unprivileged.sock"⟩ (by decide!)).1⟩

/-- C8: if setting the socket file's permissions fails, `createListener` closes the
listener it just opened (a `close` call follows and no listener is open that was not open
before) and returns a nil listener together with the chmod error; and `createListener`
never returns a non-nil listener together with a non-nil error. -/
theorem createListener_chmod_failure (P : Paths) (os : OS) :
    (∀ (p : GoString) (e : OSError),
        (⟨Op.chmod, p, some e⟩ : Call) ∈ callsOf os (createListener P os).2 →
          (createListener P os).1 = (none, some e) ∧
          (⟨Op.close, socketPath P os, none⟩ : Call) ∈ callsOf os (createListener P os).2 ∧
          ∀ l ∈ (createListener P os).2.listening, l ∈ os.listening) ∧
      ¬ ((createListener P os).1.1.isSome = true ∧ (createListener P os).1.2.isSome = true) := by
  rw [createListener_eq]
  obtain ⟨hbl, pre, hpre, hops⟩ := beforeListen_spec P os
  generalize beforeListen P os = md at hbl hpre ⊢
  rcases md with ⟨err, os2⟩
  simp only at hbl hpre
  have hnot : ∀ (p : GoString) (e : OSError), (⟨Op.chmod, p, some e⟩ : Call) ∉ pre := by
    intro p e hmem
    have := hops _ hmem
    simp at this
  cases err with
  | some e0 =>
    refine ⟨?_, by simp⟩
    intro p e hmem
    simp only [callsOf, hpre, List.drop_left] at hmem
    exact absurd hmem (hnot p e)
  | none =>
    cases hl : (Listen os2 (socketPath P os)).1 with
    | error e0 =>
      obtain ⟨-, htr⟩ := Listen_error hl
      refine ⟨?_, by simp⟩
      intro p e hmem
      simp only [callsOf, htr, hpre, List.append_assoc, List.drop_left] at hmem
      rcases List.mem_append.mp hmem with hmem | hmem
      · exact absurd hmem (hnot p e)
      · simp at hmem
    | ok l =>
      obtain ⟨hlis, hlst, htr⟩ := Listen_ok hl
      have hch := Chmod_spec (Listen os2 (socketPath P os)).2 (socketPath P os)
        (if !os.host.hasRoot then 0o770 else 0o700)
      cases hc : (Chmod (Listen os2 (socketPath P os)).2 (socketPath P os)
          (if !os.host.hasRoot then 0o770 else 0o700)).1 with
      | some e0 =>
        refine ⟨?_, by simp⟩
        intro p e hmem
        rw [hc] at hch
        simp only [callsOf, Listener.Close, OS.record, hch.2.1, htr, hpre, List.append_assoc,
          List.drop_left] at hmem ⊢
        have he : e0 = e := by
          rcases List.mem_append.mp hmem with hmem | hmem
          · exact absurd hmem (hnot p e)
          · have := hmem
            simp at this
            exact this.2.symm
        subst he
        refine ⟨rfl, ?_, ?_⟩
        · simp [hlis]
        · intro x hx
          rw [hch.1, hlst] at hx
          simp only [List.filter_cons, bne_self_eq_false, Bool.false_eq_true, if_false] at hx
          exact hbl ▸ (List.mem_filter.mp hx).1
      | none =>
        refine ⟨?_, by simp⟩
        intro p e hmem
        rw [hc] at hch
        simp only [callsOf, hch.2.1, htr, hpre, List.append_assoc, List.drop_left] at hmem
        rcases List.mem_append.mp hmem with hmem | hmem
        · exact absurd hmem (hnot p e)
        · simp at hmem

/-- C8 on the sample system with a failing `os.Chmod`: the permission error comes back,
with no listener, the listener is closed and its socket file is gone. -/
theorem createListener_chmodFault_sample :
    (createListener samplePaths (sampleOS false chmodFault)).1 = (none, some OSError.permission) ∧
      (createListener samplePaths (sampleOS false chmodFault)).2.listening = [] ∧
      modeOf (createListener samplePaths (sampleOS false chmodFault)).2
        (ascii "/run/elastic-agent-unprivileged.sock") = none ∧
      (createListener samplePaths (sampleOS false chmodFault)).2.trace.map Call.op =
        [Op.stat, Op.stat, Op.listen, Op.chmod, Op.close] :=
  ⟨((createListener_chmod_failure samplePaths (sampleOS false chmodFault)).1
      (ascii "/run/elastic-agent-unprivileged.sock") OSError.permission (by decide!)).1,
    by decide!, by decide!, by decide!⟩

/-! ## The runtime manager: terminal configuration errors -/

theorem errInvariant_start (m : Manager) (c : Component) (h : m.errInvariant) :
    (m.start c).errInvariant := by
  obtain ⟨h1, h2⟩ := h
  unfold Manager.start
  cases hc : c.Err with
  | some e =>
    refine ⟨h1, ?_⟩
    intro r hr e2 he2
    simp only [List.mem_append, List.mem_singleton] at hr
    rcases hr with hr | hr
    · exact ⟨List.mem_append_left _ (h2 r hr e2 he2).1, (h2 r hr e2 he2).2⟩
    · subst hr
      simp only at he2 ⊢
      rw [hc] at he2
      cases he2
      exact ⟨by simp, fun _ => rfl⟩
  | none =>
    refine ⟨?_, ?_⟩
    · intro x hx
      simp only [List.mem_append, List.mem_singleton] at hx
      rcases hx with hx | hx
      · exact h1 x hx
      · rw [hx]
        exact hc
    · intro r hr e2 he2
      simp only [List.mem_append, List.mem_singleton] at hr
      rcases hr with hr | hr
      · exact ⟨List.mem_append_left _ (h2 r hr e2 he2).1, (h2 r hr e2 he2).2⟩
      · subst hr
        simp only at he2
        rw [hc] at he2
        cases he2

theorem errInvariant_foldl_start (cs : List Component) :
    ∀ m : Manager, m.errInvariant → (cs.foldl Manager.start m).errInvariant := by
  induction cs with
  | nil => exact fun m h => h
  | cons c cs ih => exact fun m h => ih _ (errInvariant_start m c h)

theorem errInvariant_startPending (m : Manager) (h : m.errInvariant) :
    m.startPending.errInvariant := by
  unfold Manager.startPending
  split
  · exact h
  · exact errInvariant_foldl_start _ _ h

/-- The six cases of `reconcile`. -/
theorem reconcile_cases (model : Model) (r : Runtime) :
    (r.stopping = true ∧ reconcile model r = (r, [])) ∨
    (r.stopping = false ∧ model.Components.find? (fun c => c.ID == r.comp.ID) = none ∧
      reconcile model r = stopRuntime r) ∨
    (r.stopping = false ∧ ∃ c, model.Components.find? (fun c => c.ID == r.comp.ID) = some c ∧
      c = r.comp ∧ reconcile model r = (r, [])) ∨
    (r.stopping = false ∧ ∃ c, model.Components.find? (fun c => c.ID == r.comp.ID) = some c ∧
      c ≠ r.comp ∧ reconcile model r = stopRuntime r) ∨
    (r.stopping = false ∧ ∃ c, model.Components.find? (fun c => c.ID == r.comp.ID) = some c ∧
      r.comp.Err = none ∧ c.Err = none ∧ syncExpected c r.comp r.state.Units = r.state.Units ∧
      reconcile model r = (⟨c, r.state, false⟩, [])) ∨
    (r.stopping = false ∧ ∃ c, model.Components.find? (fun c => c.ID == r.comp.ID) = some c ∧
      r.comp.Err = none ∧ c.Err = none ∧ syncExpected c r.comp r.state.Units ≠ r.state.Units ∧
      reconcile model r =
        (⟨c, ⟨r.state.State, r.state.Message, syncExpected c r.comp r.state.Units⟩, false⟩,
          [(c.ID, ⟨r.state.State, r.state.Message, syncExpected c r.comp r.state.Units⟩)])) := by
  unfold reconcile
  by_cases hs : r.stopping = true
  · exact Or.inl ⟨hs, by rw [if_pos hs]⟩
  · have hs2 : r.stopping = false := by simpa using hs
    rw [if_neg hs]
    cases hf : model.Components.find? (fun c => c.ID == r.comp.ID) with
    | none => exact Or.inr (Or.inl ⟨hs2, rfl, rfl⟩)
    | some c =>
      by_cases herr : (r.comp.Err.isSome || c.Err.isSome) = true
      · by_cases heq : c = r.comp
        · refine Or.inr (Or.inr (Or.inl ⟨hs2, c, rfl, heq, ?_⟩))
          simp only [if_pos herr, if_pos heq]
        · refine Or.inr (Or.inr (Or.inr (Or.inl ⟨hs2, c, rfl, heq, ?_⟩)))
          simp only [if_pos herr, if_neg heq]
      · have hc : c.Err = none := by
          cases hce : c.Err with
          | none => rfl
          | some x => simp [hce] at herr
        have hrc : r.comp.Err = none := by
          cases hce : r.comp.Err with
          | none => rfl
          | some x => simp [hce] at herr
        by_cases hsync : syncExpected c r.comp r.state.Units = r.state.Units
        · refine Or.inr (Or.inr (Or.inr (Or.inr (Or.inl ⟨hs2, c, rfl, hrc, hc, hsync, ?_⟩))))
          simp only [if_neg herr, if_pos hsync]
        · refine Or.inr (Or.inr (Or.inr (Or.inr (Or.inr ⟨hs2, c, rfl, hrc, hc, hsync, ?_⟩))))
          simp only [if_neg herr, if_neg hsync]

/-- A runtime that `reconcile` leaves with a component whose `err` is set is the runtime it
got, or that runtime signalled to stop. -/
theorem reconcile_spec (model : Model) (r : Runtime) (e : String)
    (he : (reconcile model r).1.comp.Err = some e) :
    ((reconcile model r).1 = r ∧ (reconcile model r).2 = []) ∨
      ((reconcile model r).1.comp = r.comp ∧ (reconcile model r).1.stopping = true) := by
  rcases reconcile_cases model r with ⟨-, h⟩ | ⟨-, -, h⟩ | ⟨-, c, -, -, h⟩ | ⟨-, c, -, -, h⟩ |
    ⟨-, c, -, -, hc, -, h⟩ | ⟨-, c, -, -, hc, -, h⟩
  · exact Or.inl ⟨by rw [h], by rw [h]⟩
  · exact Or.inr ⟨by rw [h]; rfl, by rw [h]; rfl⟩
  · exact Or.inl ⟨by rw [h], by rw [h]⟩
  · exact Or.inr ⟨by rw [h]; rfl, by rw [h]; rfl⟩
  · rw [h] at he
    simp only at he
    rw [hc] at he
    cases he
  · rw [h] at he
    simp only at he
    rw [hc] at he
    cases he

/-- A runtime that `reconcile` leaves running has its component in the model: either it is
untouched, with a definition equal to the one of the model, or neither definition has `err`
set and it runs the one of the model. -/
theorem reconcile_live (model : Model) (r : Runtime)
    (h : (reconcile model r).1.stopping = false) :
    r.stopping = false ∧
    ∃ c, model.Components.find? (fun c => c.ID == r.comp.ID) = some c ∧
      ((c = r.comp ∧ reconcile model r = (r, [])) ∨
        (r.comp.Err = none ∧ c.Err = none ∧ (reconcile model r).1.comp = c ∧
          (reconcile model r).1.state =
            ⟨r.state.State, r.state.Message, syncExpected c r.comp r.state.Units⟩ ∧
          ((reconcile model r).2 = [] ∧ (reconcile model r).1.state = r.state ∨
            (reconcile model r).2 = [(c.ID, (reconcile model r).1.state)]))) := by
  rcases reconcile_cases model r with ⟨hs, hr⟩ | ⟨-, -, hr⟩ | ⟨hs, c, hf, heq, hr⟩ |
    ⟨-, c, -, -, hr⟩ | ⟨hs, c, hf, hrc, hc, hsync, hr⟩ | ⟨hs, c, hf, hrc, hc, hsync, hr⟩
  · rw [hr, hs] at h
    cases h
  · rw [hr] at h
    cases h
  · exact ⟨hs, c, hf, Or.inl ⟨heq, hr⟩⟩
  · rw [hr] at h
    cases h
  · refine ⟨hs, c, hf, Or.inr ⟨hrc, hc, by rw [hr], ?_, Or.inl ⟨by rw [hr], by rw [hr]⟩⟩⟩
    rw [hr, hsync]
  · exact ⟨hs, c, hf, Or.inr ⟨hrc, hc, by rw [hr], by rw [hr], Or.inr (by rw [hr])⟩⟩

theorem errInvariant_update (m : Manager) (model : Model) (h : m.errInvariant) :
    (m.update model).2.errInvariant := by
  obtain ⟨h1, h2⟩ := h
  unfold Manager.update
  split
  · apply errInvariant_startPending
    refine ⟨h1, ?_⟩
    intro r2 hr2 e he
    simp only [List.mem_map] at hr2
    obtain ⟨x, ⟨r, hr, hx⟩, hx2⟩ := hr2
    subst hx
    subst hx2
    rcases reconcile_spec model r e he with ⟨hsame, -⟩ | ⟨hcomp, hstop⟩
    · rw [hsame] at he ⊢
      exact ⟨List.mem_append_left _ (h2 r hr e he).1, (h2 r hr e he).2⟩
    · rw [hcomp] at he ⊢
      refine ⟨List.mem_append_left _ (h2 r hr e he).1, ?_⟩
      intro hf
      rw [hstop] at hf
      cases hf
  · exact ⟨h1, h2⟩

theorem errInvariant_stopped (m : Manager) (id : String) (h : m.errInvariant) :
    (m.stopped id).errInvariant := by
  obtain ⟨h1, h2⟩ := h
  unfold Manager.stopped
  split
  · exact ⟨h1, h2⟩
  · apply errInvariant_startPending
    refine ⟨h1, ?_⟩
    intro r hr e he
    have hr2 : r ∈ m.current := (List.mem_filter.mp hr).1
    exact ⟨List.mem_append_left _ (h2 r hr2 e he).1, (h2 r hr2 e he).2⟩

theorem errInvariant_checkin (m : Manager) (id : String) (observed : ComponentState)
    (h : m.errInvariant) : (m.checkin id observed).errInvariant := by
  obtain ⟨h1, h2⟩ := h
  unfold Manager.checkin
  split
  · exact ⟨h1, h2⟩
  · refine ⟨h1, ?_⟩
    intro r2 hr2 e he
    simp only [List.mem_map] at hr2
    obtain ⟨r, hr, hx⟩ := hr2
    split at hx
    · rename_i hcond
      subst hx
      simp only at he
      simp [he] at hcond
    · subst hx
      exact ⟨List.mem_append_left _ (h2 r hr e he).1, (h2 r hr e he).2⟩

theorem errInvariant_step (m : Manager) (ev : Event) (h : m.errInvariant) :
    (m.step ev).errInvariant := by
  cases ev with
  | update model => exact errInvariant_update m model h
  | checkin id observed => exact errInvariant_checkin m id observed h
  | stopAck id => exact errInvariant_stopped m id h
  | stopTimeout id => exact errInvariant_stopped m id h

theorem errInvariant_run (evs : List Event) :
    ∀ m : Manager, m.errInvariant → (m.run evs).errInvariant := by
  induction evs with
  | nil => exact fun m h => h
  | cons ev evs ih => exact fun m h => ih _ (errInvariant_step m ev h)

theorem errInvariant_init : Manager.init.errInvariant := by
  refine ⟨?_, ?_⟩ <;> simp [Manager.init]

theorem published_start (m : Manager) (c : Component) :
    ∃ new, (m.start c).published = m.published ++ new ∧ ∀ p ∈ new, p.1 = c.ID := by
  unfold Manager.start
  cases c.Err with
  | some e => exact ⟨_, rfl, by simp⟩
  | none => exact ⟨_, rfl, by simp⟩

theorem published_foldl_start (cs : List Component) :
    ∀ m : Manager, ∃ new, (cs.foldl Manager.start m).published = m.published ++ new ∧
      ∀ p ∈ new, ∃ c ∈ cs, p.1 = c.ID := by
  induction cs with
  | nil => exact fun m => ⟨[], by simp⟩
  | cons c cs ih =>
    intro m
    obtain ⟨new1, h1, hid1⟩ := published_start m c
    obtain ⟨new2, h2, hid2⟩ := ih (m.start c)
    refine ⟨new1 ++ new2, ?_, ?_⟩
    · rw [List.foldl_cons, h2, h1, List.append_assoc]
    · intro p hp
      rcases List.mem_append.mp hp with hp | hp
      · exact ⟨c, List.mem_cons_self _ _, hid1 p hp⟩
      · obtain ⟨c2, hc2, hp2⟩ := hid2 p hp
        exact ⟨c2, List.mem_cons_of_mem _ hc2, hp2⟩

/-- Starting the waiting components only appends to the log, and only states of waiting
components. -/
theorem published_startPending (m : Manager) :
    ∃ new, m.startPending.published = m.published ++ new ∧
      ∀ p ∈ new, ∃ c ∈ m.pending, p.1 = c.ID := by
  unfold Manager.startPending
  split
  · exact ⟨[], by simp⟩
  · exact published_foldl_start m.pending _

/-- The log of published states is append-only. -/
theorem published_step (m : Manager) (ev : Event) :
    ∃ new, (m.step ev).published = m.published ++ new := by
  have hstopped : ∀ id, ∃ new, (m.stopped id).published = m.published ++ new := by
    intro id
    unfold Manager.stopped
    split
    · exact ⟨[], by simp⟩
    · obtain ⟨new, h, -⟩ := published_startPending
        { m with
          current := m.current.filter (fun x => !(x.stopping && x.comp.ID == id))
          published := m.published ++ [(id, stoppedState (by assumption : Runtime).state)]
          workDirs := m.workDirs.filter (fun d => d != id) }
      exact ⟨_, by rw [h, List.append_assoc]⟩
  cases ev with
  | update model =>
    simp only [Manager.step, Manager.update]
    split
    · obtain ⟨new, h, -⟩ := published_startPending
        { m with
          current := (m.current.map (reconcile model)).map (fun x => x.1)
          pending := model.Components.filter (fun c =>
            !((m.current.map (reconcile model)).any
              (fun x => !x.1.stopping && x.1.comp.ID == c.ID)))
          published := m.published ++ (m.current.map (reconcile model)).flatMap (fun x => x.2) }
      exact ⟨_, by rw [h, List.append_assoc]⟩
    · exact ⟨[], by simp⟩
  | checkin id observed =>
    simp only [Manager.step, Manager.checkin]
    split
    · exact ⟨[], by simp⟩
    · exact ⟨_, rfl⟩
  | stopAck id => exact hstopped id
  | stopTimeout id => exact hstopped id

/-- A waiting component whose `err` is set is published Failed when it is started. -/
theorem failed_published_foldl_start (cs : List Component) :
    ∀ (m : Manager) (c : Component) (e : String), c ∈ cs → c.Err = some e →
      (c.ID, failedState c e) ∈ (cs.foldl Manager.start m).published := by
  induction cs with
  | nil => intro m c e hc; cases hc
  | cons c0 cs ih =>
    intro m c e hc he
    rcases List.mem_cons.mp hc with hc | hc
    · subst hc
      obtain ⟨new, h, -⟩ := published_foldl_start cs (m.start c)
      rw [List.foldl_cons, h]
      apply List.mem_append_left
      simp [Manager.start, he]
    · exact ih _ c e hc he

theorem eq_of_find_ID {cs : List Component} {c c2 : Component} {id : String}
    (hnd : (cs.map (fun c => c.ID)).Nodup) (hc : c ∈ cs) (hid : c.ID = id)
    (hfind : cs.find? (fun x => x.ID == id) = some c2) : c2 = c := by
  have h2 : c2 ∈ cs := List.mem_of_find?_eq_some hfind
  have hid2 : c2.ID = id := by
    have := List.find?_some hfind
    simpa using this
  exact List.inj_on_of_nodup_map hnd h2 hc (hid2.trans hid.symm)

/-- After an accepted `Update`, a component of the model whose `err` is set either waits
for a stopping runtime or has been published Failed with its error. -/
theorem update_publishes_failed (m : Manager) (model : Model) (c : Component) (e : String)
    (hinv : m.errInvariant)
    (hnd : (model.Components.map (fun c => c.ID)).Nodup) (hc : c ∈ model.Components)
    (he : c.Err = some e) :
    c ∈ (m.update model).2.pending ∨ (c.ID, failedState c e) ∈ (m.update model).2.published := by
  simp only [Manager.update, if_pos hnd]
  by_cases hlive : (m.current.map (reconcile model)).any
      (fun x => !x.1.stopping && x.1.comp.ID == c.ID) = true
  · right
    obtain ⟨x, hx, hcond⟩ := List.any_eq_true.mp hlive
    obtain ⟨r, hr, hxr⟩ := List.mem_map.mp hx
    subst hxr
    simp only [Bool.and_eq_true, Bool.not_eq_true', beq_iff_eq] at hcond
    obtain ⟨new, h, -⟩ := published_startPending
      { m with
        current := (m.current.map (reconcile model)).map (fun x => x.1)
        pending := model.Components.filter (fun c =>
          !((m.current.map (reconcile model)).any
            (fun x => !x.1.stopping && x.1.comp.ID == c.ID)))
        published := m.published ++ (m.current.map (reconcile model)).flatMap (fun x => x.2) }
    rw [h]
    apply List.mem_append_left
    apply List.mem_append_left
    obtain ⟨-, c2, hf, hcase⟩ := reconcile_live model r hcond.1
    rcases hcase with ⟨hceq, hsame⟩ | ⟨-, hnone, hcomp, -, -⟩
    · rw [hsame] at hcond
      have hc2 : c2 = c := eq_of_find_ID hnd hc hcond.2.symm hf
      rw [hc2] at hceq
      have := (hinv.2 r hr e (hceq ▸ he)).1
      rwa [← hceq] at this
    · rw [hcomp] at hcond
      have hc2 : c2 = c := by
        have h2 : c2 ∈ model.Components := List.mem_of_find?_eq_some hf
        exact List.inj_on_of_nodup_map hnd h2 hc hcond.2
      rw [hc2, he] at hnone
      cases hnone
  · have hadded : c ∈ model.Components.filter (fun c =>
        !((m.current.map (reconcile model)).any
          (fun x => !x.1.stopping && x.1.comp.ID == c.ID))) := by
      refine List.mem_filter.mpr ⟨hc, ?_⟩
      simpa using hlive
    unfold Manager.startPending
    split
    · exact Or.inl hadded
    · exact Or.inr (failed_published_foldl_start _ _ c e hadded he)

/-! ## The runtime manager: stop before start on an output change -/

theorem onlyRuns_first_update (A : Component) :
    (Manager.init.step (Event.update ⟨[A]⟩)).onlyRuns A := by
  cases hA : A.Err <;>
    simp [Manager.step, Manager.update, Manager.init, Manager.startPending, Manager.start,
      Manager.onlyRuns, hA]

theorem onlyRuns_step (A : Component) (m : Manager) (ev : Event) (h : m.onlyRuns A)
    (hev : ev.isUpdate = false) : (m.step ev).onlyRuns A := by
  obtain ⟨⟨st, hcur⟩, hpend, hpub⟩ := h
  cases ev with
  | update model => simp [Event.isUpdate] at hev
  | checkin id observed =>
    simp only [Manager.step, Manager.checkin, hcur]
    by_cases hcond : (!false && A.Err.isNone && A.ID == id) = true
    · simp only [List.find?, hcond, List.map_cons, List.map_nil, if_true]
      simp only [Bool.and_eq_true, beq_iff_eq] at hcond
      refine ⟨⟨_, rfl⟩, hpend, ?_⟩
      intro p hp
      rcases List.mem_append.mp hp with hp | hp
      · exact hpub p hp
      · simp only [List.mem_singleton] at hp
        rw [hp]
        exact hcond.2.symm
    · have hc2 : (!false && A.Err.isNone && A.ID == id) = false := by simpa using hcond
      simp only [List.find?, hc2]
      exact ⟨⟨st, hcur⟩, hpend, hpub⟩
  | stopAck id =>
    simp only [Manager.step, Manager.stopped, hcur]
    simp only [List.find?, Bool.false_and]
    exact ⟨⟨st, hcur⟩, hpend, hpub⟩
  | stopTimeout id =>
    simp only [Manager.step, Manager.stopped, hcur]
    simp only [List.find?, Bool.false_and]
    exact ⟨⟨st, hcur⟩, hpend, hpub⟩

theorem onlyRuns_run (A : Component) (evs : List Event) :
    ∀ m : Manager, m.onlyRuns A → evs.all (fun e => !e.isUpdate) = true →
      (m.run evs).onlyRuns A := by
  induction evs with
  | nil => exact fun m h _ => h
  | cons ev evs ih =>
    intro m h hall
    simp only [List.all_cons, Bool.and_eq_true, Bool.not_eq_true'] at hall
    exact ih _ (onlyRuns_step A m ev h hall.1) hall.2

theorem waitsFor_update (A B : Component) (m : Manager) (h : m.onlyRuns A)
    (hne : A.ID ≠ B.ID) : (m.step (Event.update ⟨[B]⟩)).waitsFor A B := by
  obtain ⟨⟨st, hcur⟩, hpend, hpub⟩ := h
  have hne2 : ¬ B.ID = A.ID := fun h => hne h.symm
  simp only [Manager.step, Manager.update, hcur]
  simp only [List.map_cons, List.map_nil, List.nodup_cons, List.not_mem_nil, not_false_eq_true,
    List.nodup_nil, and_self, if_true]
  have hrec : reconcile ⟨[B]⟩ ⟨A, st, false⟩ =
      (⟨A, stoppingState st, true⟩, [(A.ID, stoppingState st)]) := by
    simp [reconcile, hne2, stopRuntime]
  simp only [hrec, Manager.startPending]
  simp only [List.any_cons, List.any_nil, Bool.or_false, if_true]
  refine ⟨⟨stoppingState st, rfl⟩, by simp, ?_⟩
  intro p hp
  simp only [List.flatMap_cons, List.flatMap_nil, List.append_nil, List.mem_append,
    List.mem_singleton] at hp
  rcases hp with hp | hp
  · exact hpub p hp
  · rw [hp]

theorem waitsFor_step_other (A B : Component) (m : Manager) (ev : Event) (h : m.waitsFor A B)
    (hev : ev.isUpdate = false) (hstop : ev.isStopOf A.ID = false) : m.step ev = m := by
  obtain ⟨⟨st, hcur⟩, -, -⟩ := h
  cases ev with
  | update model => simp [Event.isUpdate] at hev
  | checkin id observed => simp [Manager.step, Manager.checkin, hcur]
  | stopAck id =>
    have hid : ¬ A.ID = id := by
      intro h
      simp [Event.isStopOf, h] at hstop
    simp [Manager.step, Manager.stopped, hcur, List.find?, hid]
  | stopTimeout id =>
    have hid : ¬ A.ID = id := by
      intro h
      simp [Event.isStopOf, h] at hstop
    simp [Manager.step, Manager.stopped, hcur, List.find?, hid]

theorem stopped_of_waitsFor (A B : Component) (m : Manager) (h : m.waitsFor A B)
    (hne : A.ID ≠ B.ID) : (m.stopped A.ID).stoppedFirst A B := by
  obtain ⟨⟨st, hcur⟩, hpend, hpub⟩ := h
  have hpre : ∀ p ∈ m.published, p.1 ≠ B.ID := by
    intro p hp hb
    exact hne ((hpub p hp).symm.trans hb)
  refine ⟨m.published, stoppedState st, ?_, ?_, rfl, hpre, ?_⟩
  · exact (if B.Err.isSome then [(B.ID, startingState B), (B.ID, failedState B (B.Err.getD ""))]
      else [(B.ID, startingState B)])
  · cases hB : B.Err <;>
      simp [Manager.stopped, hcur, List.find?, Manager.startPending, hpend, Manager.start, hB]
  · cases hB : B.Err <;> simp

theorem waitsFor_step_stop (A B : Component) (m : Manager) (ev : Event) (h : m.waitsFor A B)
    (hne : A.ID ≠ B.ID) (hstop : ev.isStopOf A.ID = true) : (m.step ev).stoppedFirst A B := by
  cases ev with
  | update model => simp [Event.isStopOf] at hstop
  | checkin id observed => simp [Event.isStopOf] at hstop
  | stopAck id =>
    have hid : id = A.ID := by simpa [Event.isStopOf] using hstop
    subst hid
    exact stopped_of_waitsFor A B m h hne
  | stopTimeout id =>
    have hid : id = A.ID := by simpa [Event.isStopOf] using hstop
    subst hid
    exact stopped_of_waitsFor A B m h hne

theorem stoppedFirst_step (A B : Component) (m : Manager) (ev : Event)
    (h : m.stoppedFirst A B) : (m.step ev).stoppedFirst A B := by
  obtain ⟨pre, st, post, hlog, hst, hpre, hpost⟩ := h
  obtain ⟨new, hnew⟩ := published_step m ev
  refine ⟨pre, st, post ++ new, ?_, hst, hpre, List.mem_append_left _ hpost⟩
  rw [hnew, hlog, List.append_assoc, List.cons_append]

theorem stoppedFirst_run (A B : Component) (evs : List Event) :
    ∀ m : Manager, m.stoppedFirst A B → (m.run evs).stoppedFirst A B := by
  induction evs with
  | nil => exact fun m h => h
  | cons ev evs ih => exact fun m h => ih _ (stoppedFirst_step A B m ev h)

/-- While `B` waits for `A`, events other than updates either change nothing or, at the
first report that `A` has stopped, publish `A` Stopped and then `B` Starting. -/
theorem waitsFor_run (A B : Component) (hne : A.ID ≠ B.ID) (evs : List Event) :
    ∀ m : Manager, m.waitsFor A B → evs.all (fun e => !e.isUpdate) = true →
      (evs.any (fun e => e.isStopOf A.ID) = false ∧ (m.run evs).waitsFor A B) ∨
        (evs.any (fun e => e.isStopOf A.ID) = true ∧ (m.run evs).stoppedFirst A B) := by
  induction evs with
  | nil => exact fun m h _ => Or.inl ⟨rfl, h⟩
  | cons ev evs ih =>
    intro m h hall
    simp only [List.all_cons, Bool.and_eq_true, Bool.not_eq_true'] at hall
    cases hstop : ev.isStopOf A.ID with
    | true =>
      refine Or.inr ⟨by simp [hstop], ?_⟩
      exact stoppedFirst_run A B evs _ (waitsFor_step_stop A B m ev h hne hstop)
    | false =>
      have hsame : m.step ev = m := waitsFor_step_other A B m ev h hall.1 hstop
      have := ih m h hall.2
      simp only [Manager.run, List.foldl_cons, List.any_cons, hstop, Bool.false_or, hsame]
      exact this

theorem stoppedBeforeStarting_of_no_entry (log : List (String × ComponentState)) (a b : String)
    (hne : a ≠ b) (h : ∀ p ∈ log, p.1 = a) : stoppedBeforeStarting log a b := by
  intro j st hj _
  have hmem : (b, st) ∈ log := List.getElem?_mem hj
  exact absurd (h _ hmem) (fun h' => hne h'.symm)

theorem stoppedBeforeStarting_of_stoppedFirst (A B : Component) (m : Manager)
    (hne : A.ID ≠ B.ID) (h : m.stoppedFirst A B) :
    stoppedBeforeStarting m.published A.ID B.ID := by
  obtain ⟨pre, st, post, hlog, hst, hpre, -⟩ := h
  intro j st2 hj _
  refine ⟨pre.length, st, ?_, ?_, hst⟩
  · rw [hlog] at hj
    rcases Nat.lt_trichotomy j pre.length with hlt | heq | hgt
    · rw [List.getElem?_append_left hlt] at hj
      exact absurd rfl (hpre _ (List.getElem?_mem hj))
    · subst heq
      rw [List.getElem?_append_right (Nat.le_refl _), Nat.sub_self] at hj
      simp only [List.getElem?_cons_zero, Option.some.injEq, Prod.mk.injEq] at hj
      exact absurd hj.1 hne
    · exact hgt
  · rw [hlog, List.getElem?_append_right (Nat.le_refl _), Nat.sub_self]
    exact List.getElem?_cons_zero

/-- C10: when a model containing only component `A` is replaced by a model containing only
component `B` (events other than updates arriving in between and afterwards), every entry
of the sequence of published states that reports `B` Starting comes strictly after an entry
that reports `A` Stopped; and once the runtime of `A` has reported that it stopped, both
entries are there: `A` Stopped, and `B` Starting after it. -/
theorem stopped_before_starting (A B : Component) (evs1 evs2 : List Event) (hne : A.ID ≠ B.ID)
    (h1 : evs1.all (fun e => !e.isUpdate) = true) (h2 : evs2.all (fun e => !e.isUpdate) = true) :
    stoppedBeforeStarting
        (Manager.init.run
          (Event.update ⟨[A]⟩ :: evs1 ++ Event.update ⟨[B]⟩ :: evs2)).published A.ID B.ID ∧
      (evs2.any (fun e => e.isStopOf A.ID) = true →
        (Manager.init.run
          (Event.update ⟨[A]⟩ :: evs1 ++ Event.update ⟨[B]⟩ :: evs2)).stoppedFirst A B) := by
  have hrun : Manager.init.run (Event.update ⟨[A]⟩ :: evs1 ++ Event.update ⟨[B]⟩ :: evs2) =
      ((((Manager.init.step (Event.update ⟨[A]⟩)).run evs1).step (Event.update ⟨[B]⟩)).run
        evs2) := by
    simp [Manager.run, List.foldl_append]
  rw [hrun]
  have hA := onlyRuns_run A evs1 _ (onlyRuns_first_update A) h1
  have hB := waitsFor_update A B _ hA hne
  rcases waitsFor_run A B hne evs2 _ hB h2 with ⟨hno, hw⟩ | ⟨-, hs⟩
  · refine ⟨stoppedBeforeStarting_of_no_entry _ _ _ hne hw.2.2, ?_⟩
    intro hany
    rw [hno] at hany
    cases hany
  · exact ⟨stoppedBeforeStarting_of_stoppedFirst A B _ hne hs, fun _ => hs⟩

/-- C10 on the seventh seed scenario: `fake-0` runs and is healthy, the model is replaced
by one with only `fake-1`, and `fake-0` acknowledges the stop: the published states are
Starting, Healthy, Stopping and Stopped of `fake-0`, and only then Starting of `fake-1`. -/
theorem output_change_scenario :
    stoppedBeforeStarting
        (Manager.init.run
          (Event.update ⟨[fake0]⟩ :: [Event.checkin "fake-0" fake0Healthy] ++
            Event.update ⟨[fake1]⟩ :: [Event.stopAck "fake-0"])).published "fake-0" "fake-1" ∧
      (Manager.init.run
          (Event.update ⟨[fake0]⟩ :: [Event.checkin "fake-0" fake0Healthy] ++
            Event.update ⟨[fake1]⟩ :: [Event.stopAck "fake-0"])).published.map
          (fun p => (p.1, p.2.State)) =
        [("fake-0", UnitState.Starting), ("fake-0", UnitState.Healthy),
          ("fake-0", UnitState.Stopping), ("fake-0", UnitState.Stopped),
          ("fake-1", UnitState.Starting)] :=
  ⟨(stopped_before_starting fake0 fake1 [Event.checkin "fake-0" fake0Healthy]
      [Event.stopAck "fake-0"] (by decide) (by decide) (by decide)).1, by decide⟩

/-! ## The file-system downloader (`Download`) -/

theorem lookup_filter_ne (files : List (GoString × FileInfo)) (p q : GoString) (h : p ≠ q) :
    (files.filter (fun x => x.1 != q)).lookup p = files.lookup p := by
  induction files with
  | nil => rfl
  | cons x files ih =>
    obtain ⟨k, v⟩ := x
    by_cases hk : k = q
    · subst hk
      have hpk : (p == k) = false := by simpa using h
      simp [List.filter, List.lookup, hpk, ih]
    · have hkq : (k != q) = true := by simpa using hk
      simp only [List.filter, hkq, List.lookup]
      split <;> simp_all

theorem lookup_setFile_ne (files : List (GoString × FileInfo)) (p q : GoString) (fi : FileInfo)
    (h : p ≠ q) : (setFile files q fi).lookup p = files.lookup p := by
  have hpq : (p == q) = false := by simpa using h
  simp only [setFile, List.lookup, hpq]
  exact lookup_filter_ne files p q h

theorem fileExists_setFile (files : List (GoString × FileInfo)) (p q : GoString) (fi : FileInfo)
    (h : (files.lookup p).isSome = true) : ((setFile files q fi).lookup p).isSome = true := by
  by_cases hpq : p = q
  · subst hpq
    rw [lookup_setFile]
    rfl
  · rw [lookup_setFile_ne files p q fi hpq]
    exact h

theorem fileExists_mkdirs (perm umask : Nat) (p : GoString) :
    ∀ (dirs : List GoString) (files files2 : List (GoString × FileInfo)),
      mkdirs perm umask dirs files = Except.ok files2 → (files.lookup p).isSome = true →
        (files2.lookup p).isSome = true := by
  intro dirs
  induction dirs with
  | nil =>
    intro files files2 h hp
    simp only [mkdirs, Except.ok.injEq] at h
    rw [← h]
    exact hp
  | cons d ds ih =>
    intro files files2 h hp
    simp only [mkdirs] at h
    split at h
    · exact ih _ _ h (fileExists_setFile files p d _ hp)
    · split at h
      · exact ih _ _ h hp
      · cases h

/-- `os.Open` changes no file. -/
theorem Open_files (os : OS) (path : GoString) : (Open os path).2.files = os.files := by
  unfold Open
  split
  · rfl
  · split <;> rfl

/-- `os.MkdirAll` removes no file. -/
theorem MkdirAll_fileExists (os : OS) (path : GoString) (perm : Nat) (p : GoString)
    (h : fileExists os p = true) : fileExists (MkdirAll os path perm).2 p = true := by
  unfold MkdirAll
  split
  · exact h
  · split
    · exact h
    · rename_i files hm
      exact fileExists_mkdirs perm os.umask p _ _ _ hm h

/-- `os.OpenFile` removes no file, and the file it opened exists. -/
theorem OpenFile_fileExists (os : OS) (path : GoString) (perm : Nat) :
    (∀ p, fileExists os p = true → fileExists (OpenFile os path perm).2 p = true) ∧
      ((OpenFile os path perm).1 = none → fileExists (OpenFile os path perm).2 path = true) := by
  unfold OpenFile
  split
  · exact ⟨fun p h => h, fun h => by cases h⟩
  · split
    · rename_i fi hfi
      split
      · exact ⟨fun p h => h, fun h => by cases h⟩
      · refine ⟨fun p h => h, fun _ => ?_⟩
        simp [fileExists, OS.record, hfi]
    · split
      · refine ⟨fun p h => fileExists_setFile os.files p path _ h, fun _ => ?_⟩
        simp [fileExists, OS.record, lookup_setFile]
      · exact ⟨fun p h => h, fun h => by cases h⟩

/-- `io.Copy` changes no entry of the file table. -/
theorem Copy_files (os : OS) (dst src : GoString) : (Copy os dst src).2.files = os.files := by
  unfold Copy
  split
  · rfl
  · split <;> rfl

/-- A `downloadFile` that returns no error returns `fullPath`, leaves a file there and
removes no file. -/
theorem downloadFile_ok (e : Downloader) (filename fullPath : GoString) (os : OS)
    (h : (e.downloadFile filename fullPath os).1.2 = none) :
    (e.downloadFile filename fullPath os).1.1 = fullPath ∧
      fileExists (e.downloadFile filename fullPath os).2 fullPath = true ∧
      ∀ p, fileExists os p = true → fileExists (e.downloadFile filename fullPath os).2 p = true := by
  unfold Downloader.downloadFile at h ⊢
  simp only at h ⊢
  split at h
  · simp at h
  · rename_i h1
    split at h
    · simp at h
    · rename_i h2
      split at h
      · simp at h
      · rename_i h3
        split at h
        · simp at h
        · rename_i h4
          simp only [h1, h2, h3, h4]
          refine ⟨trivial, ?_, ?_⟩
          · simp only [fileExists, Copy_files]
            exact (OpenFile_fileExists _ _ _).2 h3
          · intro p hp
            simp only [fileExists, Copy_files]
            apply (OpenFile_fileExists _ _ _).1
            have hp1 : fileExists (Open os (Join [e.dropPath, filename])).2 p = true := by
              simp only [fileExists, Open_files]
              exact hp
            split
            · exact MkdirAll_fileExists _ _ _ p hp1
            · exact hp1

/-- A `download` that returns no error got a name and a path from package `artifact` and is
the `downloadFile` of both with the extension appended. -/
theorem download_ok (A : ArtifactPkg) (e : Downloader) (cfg : Config)
    (operatingSystem : GoString) (a : Artifact) (version extension : GoString) (os : OS)
    (h : (e.download A cfg operatingSystem a version extension os).1.2 = none) :
    ∃ filename fullPath,
      A.GetArtifactName a version operatingSystem (A.Arch cfg) = Except.ok filename ∧
      A.GetArtifactPath a version operatingSystem (A.Arch cfg) cfg.TargetDirectory =
        Except.ok fullPath ∧
      e.download A cfg operatingSystem a version extension os =
        e.downloadFile (filename ++ extension) (fullPath ++ extension) os := by
  unfold Downloader.download at h ⊢
  split at h
  · simp at h
  · rename_i filename hname
    split at h
    · simp at h
    · rename_i fullPath hpath
      refine ⟨filename, fullPath, hname, hpath, ?_⟩
      by_cases hext : extension = []
      · subst hext
        simp
      · simp [hext]

/-- C20: when both copies succeed (the `download` of the package and then the `download` of
its `.sha512` file return no error, so both files were present in the drop path),
`Download` returns a nil error and the package's path, which is the artifact path that
`artifact.GetArtifactPath` gives under the target directory and not the hash file's path,
and afterwards both the package and the `.sha512` file exist there. -/
theorem Download_ok (A : ArtifactPkg) (e : Downloader) (cfg : Config) (a : Artifact)
    (version : GoString) (os : OS) (hcfg : e.config = some cfg)
    (h1 : (e.download A cfg (A.OS cfg) a version [] os).1.2 = none)
    (h2 : (e.download A cfg (A.OS cfg) a version (ascii ".sha512")
      (e.download A cfg (A.OS cfg) a version [] os).2).1.2 = none) :
    ∃ fullPath os2,
      A.GetArtifactPath a version (A.OS cfg) (A.Arch cfg) cfg.TargetDirectory =
        Except.ok fullPath ∧
      e.Download A a version os = some ((fullPath, none), os2) ∧
      fullPath ≠ fullPath ++ ascii ".sha512" ∧
      fileExists os2 fullPath = true ∧ fileExists os2 (fullPath ++ ascii ".sha512") = true := by
  obtain ⟨filename, fullPath, hname, hpath, hd1⟩ := download_ok A e cfg _ a version [] os h1
  obtain ⟨filename2, fullPath2, hname2, hpath2, hd2⟩ :=
    download_ok A e cfg _ a version (ascii ".sha512") _ h2
  have hp : fullPath2 = fullPath := by
    rw [hpath] at hpath2
    exact (Except.ok.inj hpath2).symm
  subst hp
  have hf1 := hd1 ▸ h1
  simp only [List.append_nil] at hd1 hf1
  obtain ⟨hr1, hex1, -⟩ := downloadFile_ok e filename fullPath2 os hf1
  have hf2 := hd2 ▸ h2
  obtain ⟨-, hex2, hmono2⟩ := downloadFile_ok e _ _ _ hf2
  refine ⟨fullPath2, (e.download A cfg (A.OS cfg) a version (ascii ".sha512")
    (e.download A cfg (A.OS cfg) a version [] os).2).2, hpath, ?_, ?_, ?_, ?_⟩
  · simp only [Downloader.Download, hcfg, h1, h2]
    rw [hd1, hr1]
  · intro hne
    have := congrArg List.length hne
    simp [ascii] at this
  · rw [hd2]
    apply hmono2
    rw [hd1]
    exact hex1
  · rw [hd2]
    exact hex2

/-- C20 on the sample system: the drop path `/drop` holds `filebeat-8.6.0-linux-x86_64.tar.gz`
and its `.sha512` file; `Download` returns the package path under `/opt/agent/target` with
no error and both files exist there afterwards. -/
theorem Download_ok_sample :
    (∃ fullPath os2,
      sampleArtifactPkg.GetArtifactPath sampleArtifact (ascii "8.6.0")
          (sampleArtifactPkg.OS sampleConfig) (sampleArtifactPkg.Arch sampleConfig)
          sampleConfig.TargetDirectory = Except.ok fullPath ∧
        Downloader.Download sampleArtifactPkg ⟨ascii "/drop", some sampleConfig⟩ sampleArtifact
          (ascii "8.6.0") (dropOS noFault) = some ((fullPath, none), os2) ∧
        fullPath ≠ fullPath ++ ascii ".sha512" ∧
        fileExists os2 fullPath = true ∧ fileExists os2 (fullPath ++ ascii ".sha512") = true) ∧
      (Downloader.Download sampleArtifactPkg ⟨ascii "/drop", some sampleConfig⟩ sampleArtifact
          (ascii "8.6.0") (dropOS noFault)).map (fun r => r.1) =
        some (ascii "/opt/agent/target/filebeat-8.6.0-linux-x86_64.tar.gz", none) :=
  ⟨Download_ok sampleArtifactPkg ⟨ascii "/drop", some sampleConfig⟩ sampleConfig sampleArtifact
      (ascii "8.6.0") (dropOS noFault) rfl (by decide!) (by decide!), by decide!⟩

/-! ## The runtime manager: unit configuration errors -/

theorem unitKey_of_unit? {c : Component} {k : ComponentUnitKey} {u : Unit}
    (h : c.unit? k = some u) : u ∈ c.Units ∧ unitKey u = k := by
  refine ⟨List.mem_of_find?_eq_some h, ?_⟩
  have := List.find?_some h
  simpa using this

theorem ID_of_find {cs : List Component} {c : Component} {id : String}
    (h : cs.find? (fun x => x.ID == id) = some c) : c.ID = id := by
  have := List.find?_some h
  simpa using this

/-- A unit of the new definition whose `err` is set is Failed with its message after the
units are synchronised. -/
theorem mem_syncExpected_failed (c old : Component)
    (units : List (ComponentUnitKey × ComponentUnitState)) (k : ComponentUnitKey) (u : Unit)
    (e : String) (hu : c.unit? k = some u) (he : u.Err = some e) :
    (k, ⟨UnitState.Failed, e⟩) ∈ syncExpected c old units := by
  obtain ⟨hmem, hk⟩ := unitKey_of_unit? hu
  apply List.mem_append_left
  refine List.mem_map.mpr ⟨u, hmem, ?_⟩
  simp [syncUnit, he, hk]

/-- A unit of the model whose `err` is set stays Failed with its message after an observed
frame. -/
theorem mem_mergeObserved_failed (r : Runtime) (observed : ComponentState)
    (k : ComponentUnitKey) (u : Unit) (e : String) (hu : r.comp.unit? k = some u)
    (he : u.Err = some e) (hmem : (k, ⟨UnitState.Failed, e⟩) ∈ r.state.Units) :
    (k, ⟨UnitState.Failed, e⟩) ∈ (mergeObserved r observed).Units := by
  simp only [mergeObserved]
  refine List.mem_filterMap.mpr ⟨_, hmem, ?_⟩
  simp [mergeUnit, hu, he]

theorem unitErrInvariant_start (m : Manager) (c : Component) (h : m.unitErrInvariant) :
    (m.start c).unitErrInvariant := by
  unfold Manager.start
  cases hc : c.Err with
  | some e =>
    intro r hr
    simp only [List.mem_append, List.mem_singleton] at hr
    rcases hr with hr | hr
    · exact ⟨List.mem_append_left _ (h r hr).1, (h r hr).2⟩
    · subst hr
      refine ⟨by simp, ?_⟩
      intro _ hnone
      simp only at hnone
      rw [hc] at hnone
      cases hnone
  | none =>
    intro r hr
    simp only [List.mem_append, List.mem_singleton] at hr
    rcases hr with hr | hr
    · exact ⟨List.mem_append_left _ (h r hr).1, (h r hr).2⟩
    · subst hr
      refine ⟨by simp, ?_⟩
      intro _ _ k u e hu he
      obtain ⟨hmem, hk⟩ := unitKey_of_unit? hu
      simp only [startingState]
      refine List.mem_map.mpr ⟨u, hmem, ?_⟩
      simp [he, ← hk, unitKey]

theorem unitErrInvariant_foldl_start (cs : List Component) :
    ∀ m : Manager, m.unitErrInvariant → (cs.foldl Manager.start m).unitErrInvariant := by
  induction cs with
  | nil => exact fun m h => h
  | cons c cs ih => exact fun m h => ih _ (unitErrInvariant_start m c h)

theorem unitErrInvariant_startPending (m : Manager) (h : m.unitErrInvariant) :
    m.startPending.unitErrInvariant := by
  unfold Manager.startPending
  split
  · exact h
  · exact unitErrInvariant_foldl_start _ _ h

theorem unitErrInvariant_update (m : Manager) (model : Model) (h : m.unitErrInvariant) :
    (m.update model).2.unitErrInvariant := by
  unfold Manager.update
  split
  · apply unitErrInvariant_startPending
    intro r2 hr2
    simp only [List.mem_map] at hr2
    obtain ⟨x, ⟨r, hr, hx⟩, hx2⟩ := hr2
    subst hx
    subst hx2
    have hpub : ∀ p, p ∈ (reconcile model r).2 →
        p ∈ m.published ++ (m.current.map (reconcile model)).flatMap (fun x => x.2) :=
      fun p hp => List.mem_append_right _
        (List.mem_flatMap.mpr ⟨_, List.mem_map.mpr ⟨r, hr, rfl⟩, hp⟩)
    have hold := h r hr
    rcases reconcile_cases model r with ⟨hs, hrec⟩ | ⟨-, -, hrec⟩ | ⟨-, c, -, -, hrec⟩ |
      ⟨-, c, -, -, hrec⟩ | ⟨hs, c, hf, hrc, hc, hsync, hrec⟩ | ⟨hs, c, hf, hrc, hc, hsync, hrec⟩
    · rw [hrec]
      exact ⟨List.mem_append_left _ hold.1, hold.2⟩
    · refine ⟨hpub _ (by rw [hrec]; simp [stopRuntime]), ?_⟩
      intro hst
      rw [hrec] at hst
      cases hst
    · rw [hrec]
      exact ⟨List.mem_append_left _ hold.1, hold.2⟩
    · refine ⟨hpub _ (by rw [hrec]; simp [stopRuntime]), ?_⟩
      intro hst
      rw [hrec] at hst
      cases hst
    · rw [hrec]
      refine ⟨List.mem_append_left _ ?_, ?_⟩
      · have hid := ID_of_find hf
        simp only
        rw [hid]
        exact hold.1
      · intro _ _ k u e hu he
        simp only at hu ⊢
        rw [← hsync]
        exact mem_syncExpected_failed c r.comp r.state.Units k u e hu he
    · rw [hrec]
      refine ⟨hpub _ (by rw [hrec]; simp), ?_⟩
      intro _ _ k u e hu he
      exact mem_syncExpected_failed c r.comp r.state.Units k u e hu he
  · exact h

theorem unitErrInvariant_stopped (m : Manager) (id : String) (h : m.unitErrInvariant) :
    (m.stopped id).unitErrInvariant := by
  unfold Manager.stopped
  split
  · exact h
  · apply unitErrInvariant_startPending
    intro r hr
    have hr2 : r ∈ m.current := (List.mem_filter.mp hr).1
    exact ⟨List.mem_append_left _ (h r hr2).1, (h r hr2).2⟩

theorem find_checkin_unique {rs : List Runtime} {id : String} {r0 r : Runtime}
    (hnd : (rs.map (fun r => r.comp.ID)).Nodup)
    (h0 : rs.find? (fun r => !r.stopping && r.comp.Err.isNone && r.comp.ID == id) = some r0)
    (hr : r ∈ rs) (hid : r.comp.ID = id) : r = r0 := by
  have h0mem : r0 ∈ rs := List.mem_of_find?_eq_some h0
  have h0id : r0.comp.ID = id := by
    have := List.find?_some h0
    simp only [Bool.and_eq_true, beq_iff_eq] at this
    exact this.2
  exact List.inj_on_of_nodup_map hnd hr h0mem (hid.trans h0id.symm)

theorem reconcile_ID (model : Model) (r : Runtime) :
    (reconcile model r).1.comp.ID = r.comp.ID := by
  rcases reconcile_cases model r with ⟨-, h⟩ | ⟨-, -, h⟩ | ⟨-, c, -, -, h⟩ | ⟨-, c, -, -, h⟩ |
    ⟨-, c, hf, -, -, -, h⟩ | ⟨-, c, hf, -, -, -, h⟩
  · rw [h]
  · rw [h]; rfl
  · rw [h]
  · rw [h]; rfl
  · rw [h]; exact ID_of_find hf
  · rw [h]; exact ID_of_find hf

theorem start_current (m : Manager) (c : Component) :
    ∃ r, (m.start c).current = m.current ++ [r] ∧ r.comp = c ∧ r.stopping = false ∧
      (m.start c).pending = m.pending := by
  unfold Manager.start
  cases c.Err with
  | some e => exact ⟨_, rfl, rfl, rfl, rfl⟩
  | none => exact ⟨_, rfl, rfl, rfl, rfl⟩

theorem idInvariant_foldl_start (cs : List Component) :
    ∀ m : Manager, (m.current.map (fun r => r.comp.ID)).Nodup → (cs.map (fun c => c.ID)).Nodup →
      (∀ c ∈ cs, ∀ r ∈ m.current, r.comp.ID ≠ c.ID) → m.pending = [] →
      (cs.foldl Manager.start m).idInvariant := by
  induction cs with
  | nil =>
    intro m hnd _ _ hp
    exact ⟨hnd, by simp [hp], by simp [hp]⟩
  | cons c cs ih =>
    intro m hnd hcs hfresh hp
    obtain ⟨r, hcur, hcomp, -, hpend⟩ := start_current m c
    rw [List.foldl_cons]
    have hcs2 := List.nodup_cons.mp hcs
    apply ih
    · rw [hcur, List.map_append, List.map_cons, List.map_nil]
      refine List.Nodup.append hnd (List.nodup_singleton _) ?_
      intro id h1 h2
      simp only [List.mem_singleton] at h2
      obtain ⟨r1, hr1, hid1⟩ := List.mem_map.mp h1
      rw [h2, hcomp] at hid1
      exact hfresh c (List.mem_cons_self _ _) r1 hr1 hid1
    · exact hcs2.2
    · intro c2 hc2 r2 hr2
      rw [hcur] at hr2
      rcases List.mem_append.mp hr2 with hr2 | hr2
      · exact hfresh c2 (List.mem_cons_of_mem _ hc2) r2 hr2
      · simp only [List.mem_singleton] at hr2
        rw [hr2, hcomp]
        intro heq
        exact hcs2.1 (List.mem_map.mpr ⟨c2, hc2, heq.symm⟩)
    · rw [hpend, hp]

theorem idInvariant_startPending (m : Manager) (h : m.idInvariant) :
    m.startPending.idInvariant := by
  unfold Manager.startPending
  split
  · exact h
  · rename_i hany
    refine idInvariant_foldl_start m.pending { m with pending := [] } h.1 h.2.1 ?_ rfl
    intro c hc r hr hid
    have hs := h.2.2 c hc r hr hid
    exact hany (List.any_eq_true.mpr ⟨r, hr, hs⟩)

/-- The ids after the diff of `Update` and before the waiting components start. -/
theorem idInvariant_reconciled (m : Manager) (model : Model)
    (hnd : (model.Components.map (fun c => c.ID)).Nodup) (h : m.idInvariant) :
    Manager.idInvariant
      { m with
        current := (m.current.map (reconcile model)).map (fun x => x.1)
        pending := model.Components.filter (fun c =>
          !((m.current.map (reconcile model)).any
            (fun x => !x.1.stopping && x.1.comp.ID == c.ID)))
        published := m.published ++ (m.current.map (reconcile model)).flatMap (fun x => x.2) } := by
  refine ⟨?_, ?_, ?_⟩
  · have : (((m.current.map (reconcile model)).map (fun x => x.1)).map (fun r => r.comp.ID))
        = m.current.map (fun r => r.comp.ID) := by
      simp only [List.map_map]
      apply List.map_congr_left
      intro r _
      exact reconcile_ID model r
    simp only
    rw [this]
    exact h.1
  · exact List.Nodup.sublist (List.Sublist.map _ (List.filter_sublist _)) hnd
  · intro c hc r hr hid
    simp only at hc hr
    have hcond := (List.mem_filter.mp hc).2
    obtain ⟨x, hx, hxr⟩ := List.mem_map.mp hr
    by_contra hns
    have : (m.current.map (reconcile model)).any
        (fun x => !x.1.stopping && x.1.comp.ID == c.ID) = true := by
      refine List.any_eq_true.mpr ⟨x, hx, ?_⟩
      rw [hxr]
      have hns2 : r.stopping = false := by simpa using hns
      simp [hid, hns2]
    rw [this] at hcond
    cases hcond

theorem idInvariant_update (m : Manager) (model : Model) (h : m.idInvariant) :
    (m.update model).2.idInvariant := by
  unfold Manager.update
  split
  · rename_i hnd
    exact idInvariant_startPending _ (idInvariant_reconciled m model hnd h)
  · exact h

/-- The ids after a runtime reported Stopped and before the waiting components start. -/
theorem idInvariant_removed (m : Manager) (id : String) (st : ComponentState)
    (h : m.idInvariant) :
    Manager.idInvariant
      { m with
        current := m.current.filter (fun x => !(x.stopping && x.comp.ID == id))
        published := m.published ++ [(id, st)]
        workDirs := m.workDirs.filter (fun d => d != id) } := by
  refine ⟨?_, h.2.1, ?_⟩
  · exact List.Nodup.sublist (List.Sublist.map _ (List.filter_sublist _)) h.1
  · intro c hc r hr hid
    exact h.2.2 c hc r (List.mem_filter.mp hr).1 hid

theorem idInvariant_stopped (m : Manager) (id : String) (h : m.idInvariant) :
    (m.stopped id).idInvariant := by
  unfold Manager.stopped
  split
  · exact h
  · exact idInvariant_startPending _ (idInvariant_removed m id _ h)

theorem idInvariant_checkin (m : Manager) (id : String) (observed : ComponentState)
    (h : m.idInvariant) : (m.checkin id observed).idInvariant := by
  unfold Manager.checkin
  split
  · exact h
  · have hids : ∀ rs : List Runtime, (rs.map (fun r =>
        if (!r.stopping && r.comp.Err.isNone && r.comp.ID == id) = true then
          { r with state := mergeObserved r observed }
        else r)).map (fun r => r.comp.ID) = rs.map (fun r => r.comp.ID) := by
      intro rs
      simp only [List.map_map]
      apply List.map_congr_left
      intro r _
      simp only [Function.comp]
      split <;> rfl
    refine ⟨?_, h.2.1, ?_⟩
    · simp only
      rw [hids]
      exact h.1
    · intro c hc r2 hr2 hid
      simp only at hr2
      obtain ⟨r, hr, hx⟩ := List.mem_map.mp hr2
      split at hx
      · subst hx
        exact h.2.2 c hc r hr hid
      · subst hx
        exact h.2.2 c hc r hr hid

theorem idInvariant_step (m : Manager) (ev : Event) (h : m.idInvariant) :
    (m.step ev).idInvariant := by
  cases ev with
  | update model => exact idInvariant_update m model h
  | checkin id observed => exact idInvariant_checkin m id observed h
  | stopAck id => exact idInvariant_stopped m id h
  | stopTimeout id => exact idInvariant_stopped m id h

theorem idInvariant_run (evs : List Event) :
    ∀ m : Manager, m.idInvariant → (m.run evs).idInvariant := by
  induction evs with
  | nil => exact fun m h => h
  | cons ev evs ih => exact fun m h => ih _ (idInvariant_step m ev h)

theorem idInvariant_init : Manager.init.idInvariant := by
  refine ⟨?_, ?_, ?_⟩ <;> simp [Manager.init]

theorem unitErrInvariant_checkin (m : Manager) (id : String) (observed : ComponentState)
    (hid : m.idInvariant) (h : m.unitErrInvariant) : (m.checkin id observed).unitErrInvariant := by
  unfold Manager.checkin
  split
  · exact h
  · rename_i r0 h0
    intro r2 hr2
    simp only at hr2
    obtain ⟨r, hr, hx⟩ := List.mem_map.mp hr2
    split at hx
    · rename_i hcond
      simp only [Bool.and_eq_true, beq_iff_eq] at hcond
      have hr0 : r = r0 := find_checkin_unique hid.1 h0 hr hcond.2
      subst hx
      refine ⟨?_, ?_⟩
      · apply List.mem_append_right
        simp only [List.mem_singleton]
        rw [hr0, ← hcond.2, hr0]
      · intro hs hn k u e hu he
        exact mem_mergeObserved_failed r observed k u e hu he ((h r hr).2 hs hn k u e hu he)
    · subst hx
      exact ⟨List.mem_append_left _ (h r hr).1, (h r hr).2⟩

theorem unitErrInvariant_run (evs : List Event) :
    ∀ m : Manager, m.idInvariant → m.unitErrInvariant → (m.run evs).unitErrInvariant := by
  induction evs with
  | nil => exact fun m _ h => h
  | cons ev evs ih =>
    intro m hid h
    refine ih _ (idInvariant_step m ev hid) ?_
    cases ev with
    | update model => exact unitErrInvariant_update m model h
    | checkin id observed => exact unitErrInvariant_checkin m id observed hid h
    | stopAck id => exact unitErrInvariant_stopped m id h
    | stopTimeout id => exact unitErrInvariant_stopped m id h

theorem unitErrInvariant_init : Manager.init.unitErrInvariant := by
  intro r hr
  simp [Manager.init] at hr

theorem failedProvenance_mono (m : Manager) (seen seen2 : List Event)
    (hsub : ∀ ev ∈ seen, ev ∈ seen2) (h : m.failedProvenance seen) : m.failedProvenance seen2 := by
  refine ⟨?_, ?_⟩
  · intro p hp hf
    rcases h.1 p hp hf with h1 | ⟨obs, hobs, hst⟩
    · exact Or.inl h1
    · exact Or.inr ⟨obs, hsub _ hobs, hst⟩
  · intro r hr hn hf
    obtain ⟨obs, hobs, hst⟩ := h.2 r hr hn hf
    exact ⟨obs, hsub _ hobs, hst⟩

theorem failedProvenance_start (m : Manager) (c : Component) (seen : List Event)
    (h : m.failedProvenance seen) : (m.start c).failedProvenance seen := by
  unfold Manager.start
  cases hc : c.Err with
  | some e =>
    refine ⟨?_, ?_⟩
    · intro p hp hf
      simp only [List.mem_append, List.mem_cons, List.mem_singleton, List.not_mem_nil,
        or_false] at hp
      rcases hp with hp | hp | hp
      · exact h.1 p hp hf
      · rw [hp] at hf
        cases hf
      · rw [hp]
        exact Or.inl ⟨c, e, hc, rfl, rfl⟩
    · intro r hr hn hf
      simp only [List.mem_append, List.mem_singleton] at hr
      rcases hr with hr | hr
      · exact h.2 r hr hn hf
      · subst hr
        simp only at hn
        rw [hc] at hn
        cases hn
  | none =>
    refine ⟨?_, ?_⟩
    · intro p hp hf
      simp only [List.mem_append, List.mem_singleton] at hp
      rcases hp with hp | hp
      · exact h.1 p hp hf
      · rw [hp] at hf
        cases hf
    · intro r hr hn hf
      simp only [List.mem_append, List.mem_singleton] at hr
      rcases hr with hr | hr
      · exact h.2 r hr hn hf
      · subst hr
        cases hf

theorem failedProvenance_foldl_start (seen : List Event) (cs : List Component) :
    ∀ m : Manager, m.failedProvenance seen → (cs.foldl Manager.start m).failedProvenance seen := by
  induction cs with
  | nil => exact fun m h => h
  | cons c cs ih => exact fun m h => ih _ (failedProvenance_start m c seen h)

theorem failedProvenance_startPending (m : Manager) (seen : List Event)
    (h : m.failedProvenance seen) : m.startPending.failedProvenance seen := by
  unfold Manager.startPending
  split
  · exact h
  · exact failedProvenance_foldl_start seen _ _ h

theorem failedProvenance_update (m : Manager) (model : Model) (seen : List Event)
    (h : m.failedProvenance seen) : (m.update model).2.failedProvenance seen := by
  unfold Manager.update
  split
  · apply failedProvenance_startPending
    refine ⟨?_, ?_⟩
    · intro p hp hf
      simp only [List.mem_append, List.mem_flatMap, List.mem_map] at hp
      rcases hp with hp | ⟨x, ⟨r, hr, hx⟩, hpx⟩
      · exact h.1 p hp hf
      · subst hx
        rcases reconcile_cases model r with ⟨-, hrec⟩ | ⟨-, -, hrec⟩ | ⟨-, c, -, -, hrec⟩ |
          ⟨-, c, -, -, hrec⟩ | ⟨-, c, -, -, -, -, hrec⟩ | ⟨-, c, hfd, hrc, -, -, hrec⟩
        · rw [hrec] at hpx; cases hpx
        · rw [hrec] at hpx
          simp only [stopRuntime, List.mem_singleton] at hpx
          rw [hpx] at hf
          cases hf
        · rw [hrec] at hpx; cases hpx
        · rw [hrec] at hpx
          simp only [stopRuntime, List.mem_singleton] at hpx
          rw [hpx] at hf
          cases hf
        · rw [hrec] at hpx; cases hpx
        · rw [hrec] at hpx
          simp only [List.mem_singleton] at hpx
          rw [hpx] at hf ⊢
          simp only at hf ⊢
          obtain ⟨obs, hobs, hst⟩ := h.2 r hr hrc hf
          rw [ID_of_find hfd]
          exact Or.inr ⟨obs, hobs, hst⟩
    · intro r2 hr2 hn hf
      simp only [List.mem_map] at hr2
      obtain ⟨x, ⟨r, hr, hx⟩, hx2⟩ := hr2
      subst hx
      subst hx2
      rcases reconcile_cases model r with ⟨-, hrec⟩ | ⟨-, -, hrec⟩ | ⟨-, c, -, -, hrec⟩ |
        ⟨-, c, -, -, hrec⟩ | ⟨-, c, hfd, hrc, -, -, hrec⟩ | ⟨-, c, hfd, hrc, -, -, hrec⟩
      · rw [hrec] at hn hf ⊢
        exact h.2 r hr hn hf
      · rw [hrec] at hf
        cases hf
      · rw [hrec] at hn hf ⊢
        exact h.2 r hr hn hf
      · rw [hrec] at hf
        cases hf
      · rw [hrec] at hf ⊢
        simp only at hf ⊢
        rw [ID_of_find hfd]
        exact h.2 r hr hrc hf
      · rw [hrec] at hf ⊢
        simp only at hf ⊢
        rw [ID_of_find hfd]
        exact h.2 r hr hrc hf
  · exact h

theorem failedProvenance_stopped (m : Manager) (id : String) (seen : List Event)
    (h : m.failedProvenance seen) : (m.stopped id).failedProvenance seen := by
  unfold Manager.stopped
  split
  · exact h
  · apply failedProvenance_startPending
    refine ⟨?_, ?_⟩
    · intro p hp hf
      simp only [List.mem_append, List.mem_singleton] at hp
      rcases hp with hp | hp
      · exact h.1 p hp hf
      · rw [hp] at hf
        cases hf
    · intro r hr hn hf
      exact h.2 r (List.mem_filter.mp hr).1 hn hf

theorem failedProvenance_checkin (m : Manager) (id : String) (observed : ComponentState)
    (seen : List Event) (h : m.failedProvenance seen) :
    (m.checkin id observed).failedProvenance (seen ++ [Event.checkin id observed]) := by
  have hmono := failedProvenance_mono m seen (seen ++ [Event.checkin id observed])
    (fun ev hev => List.mem_append_left _ hev) h
  unfold Manager.checkin
  split
  · exact hmono
  · refine ⟨?_, ?_⟩
    · intro p hp hf
      simp only [List.mem_append, List.mem_singleton] at hp
      rcases hp with hp | hp
      · exact hmono.1 p hp hf
      · rw [hp] at hf ⊢
        exact Or.inr ⟨observed, by simp, hf⟩
    · intro r2 hr2 hn hf
      simp only at hr2
      obtain ⟨r, hr, hx⟩ := List.mem_map.mp hr2
      split at hx
      · rename_i hcond
        simp only [Bool.and_eq_true, beq_iff_eq] at hcond
        subst hx
        exact ⟨observed, by simp [hcond.2], hf⟩
      · subst hx
        exact hmono.2 r hr hn hf

theorem failedProvenance_run (evs : List Event) :
    ∀ (m : Manager) (seen : List Event), m.failedProvenance seen →
      (m.run evs).failedProvenance (seen ++ evs) := by
  induction evs with
  | nil =>
    intro m seen h
    rw [List.append_nil]
    exact h
  | cons ev evs ih =>
    intro m seen h
    have hstep : (m.step ev).failedProvenance (seen ++ [ev]) := by
      cases ev with
      | update model =>
        exact failedProvenance_mono _ seen _ (fun ev hev => List.mem_append_left _ hev)
          (failedProvenance_update m model seen h)
      | checkin id observed => exact failedProvenance_checkin m id observed seen h
      | stopAck id =>
        exact failedProvenance_mono _ seen _ (fun ev hev => List.mem_append_left _ hev)
          (failedProvenance_stopped m id seen h)
      | stopTimeout id =>
        exact failedProvenance_mono _ seen _ (fun ev hev => List.mem_append_left _ hev)
          (failedProvenance_stopped m id seen h)
    have := ih (m.step ev) (seen ++ [ev]) hstep
    rw [List.append_assoc] at this
    exact this

theorem failedProvenance_init : Manager.init.failedProvenance [] := by
  refine ⟨?_, ?_⟩ <;> simp [Manager.init]

/-! ## The runtime manager: removed units -/

theorem statesOf_append (id : String) (a b : List (String × ComponentState)) :
    statesOf id (a ++ b) = statesOf id a ++ statesOf id b := by
  simp [statesOf]

theorem statesOf_same (id : String) (l : List (String × ComponentState))
    (h : ∀ p ∈ l, p.1 = id) : statesOf id l = l.map (fun p => p.2) := by
  unfold statesOf
  rw [List.filter_eq_self.mpr]
  intro p hp
  simp [h p hp]

theorem statesOf_other (id : String) (l : List (String × ComponentState))
    (h : ∀ p ∈ l, p.1 ≠ id) : statesOf id l = [] := by
  unfold statesOf
  rw [List.filter_eq_nil_iff.mpr]
  · rfl
  · intro p hp
    simp [h p hp]

theorem unitsLeaveStopped_of_keys (s1 s2 : ComponentState)
    (h : ∀ k, hasUnit s1 k → hasUnit s2 k) : unitsLeaveStopped s1 s2 :=
  fun k h1 h2 => absurd (h k h1) h2

theorem unitsLeaveStopped_of_stopped (s1 s2 : ComponentState)
    (h : ∀ p ∈ s1.Units, p.2.State = UnitState.Stopped) : unitsLeaveStopped s1 s2 := by
  intro k ⟨us, hus⟩ _
  exact ⟨us, hus, h _ hus⟩

theorem hasUnit_stoppingState (st : ComponentState) (k : ComponentUnitKey)
    (h : hasUnit st k) : hasUnit (stoppingState st) k := by
  obtain ⟨us, hus⟩ := h
  exact ⟨_, List.mem_map.mpr ⟨(k, us), hus, rfl⟩⟩

theorem hasUnit_stoppedState (st : ComponentState) (k : ComponentUnitKey)
    (h : hasUnit st k) : hasUnit (stoppedState st) k := by
  obtain ⟨us, hus⟩ := h
  exact ⟨_, List.mem_map.mpr ⟨(k, us), hus, rfl⟩⟩

theorem hasUnit_failedState (c : Component) (e : String) (k : ComponentUnitKey)
    (h : hasUnit (startingState c) k) : hasUnit (failedState c e) k := by
  obtain ⟨us, hus⟩ := h
  simp only [startingState, List.mem_map] at hus
  obtain ⟨u, hu, heq⟩ := hus
  refine ⟨⟨UnitState.Failed, e⟩, ?_⟩
  simp only [failedState, List.mem_map]
  refine ⟨u, hu, ?_⟩
  rw [Prod.mk.injEq] at heq ⊢
  exact ⟨heq.1, rfl⟩

/-- Synchronising the units drops only units that were shown Stopped. -/
theorem unitsLeaveStopped_sync (c old : Component) (st : ComponentState) :
    unitsLeaveStopped st ⟨st.State, st.Message, syncExpected c old st.Units⟩ := by
  intro k ⟨us, hus⟩ hnot
  by_cases hstop : us.State = UnitState.Stopped
  · exact ⟨us, hus, hstop⟩
  · exfalso
    apply hnot
    cases hu : c.unit? k with
    | some u =>
      obtain ⟨hmem, hk⟩ := unitKey_of_unit? hu
      refine ⟨(syncUnit old st.Units u).2, ?_⟩
      apply List.mem_append_left
      refine List.mem_map.mpr ⟨u, hmem, ?_⟩
      rw [← hk]
      rfl
    | none =>
      refine ⟨⟨UnitState.Stopping, "Stopping"⟩, ?_⟩
      apply List.mem_append_right
      refine List.mem_map.mpr ⟨(k, us), ?_, rfl⟩
      refine List.mem_filter.mpr ⟨hus, ?_⟩
      simp [hu, hstop]

theorem mergeUnit_key (c : Component) (observed : List (ComponentUnitKey × ComponentUnitState))
    (p q : ComponentUnitKey × ComponentUnitState) (h : mergeUnit c observed p = some q) :
    q.1 = p.1 := by
  unfold mergeUnit at h
  split at h
  · split at h
    · cases h; rfl
    · split at h <;> cases h <;> rfl
  · split at h
    · cases h
    · split at h
      · split at h <;> cases h <;> rfl
      · cases h; rfl

theorem mergeUnit_none (c : Component) (observed : List (ComponentUnitKey × ComponentUnitState))
    (p : ComponentUnitKey × ComponentUnitState) (h : mergeUnit c observed p = none) :
    p.2.State = UnitState.Stopped := by
  unfold mergeUnit at h
  split at h
  · split at h
    · cases h
    · split at h <;> cases h
  · split at h
    · assumption
    · split at h
      · split at h <;> cases h
      · cases h

/-- An observed frame drops only units that were shown Stopped. -/
theorem unitsLeaveStopped_merge (r : Runtime) (observed : ComponentState) :
    unitsLeaveStopped r.state (mergeObserved r observed) := by
  intro k ⟨us, hus⟩ hnot
  cases hm : mergeUnit r.comp observed.Units (k, us) with
  | none => exact ⟨us, hus, mergeUnit_none _ _ _ hm⟩
  | some q =>
    exfalso
    apply hnot
    have hq : q.1 = k := mergeUnit_key _ _ _ _ hm
    refine ⟨q.2, ?_⟩
    simp only [mergeObserved]
    refine List.mem_filterMap.mpr ⟨(k, us), hus, ?_⟩
    rw [hm, ← hq]

/-- The states of `id` among what the runtimes publish in one pass, when each runtime
publishes under its own id and no two runtimes share an id. -/
theorem statesOf_flatMap (g : Runtime → List (String × ComponentState)) :
    ∀ (rs : List Runtime), (∀ r ∈ rs, ∀ p ∈ g r, p.1 = r.comp.ID) →
      (rs.map (fun r => r.comp.ID)).Nodup →
      (∀ r ∈ rs, statesOf r.comp.ID (rs.flatMap g) = (g r).map (fun p => p.2)) ∧
        ∀ id, (∀ r ∈ rs, r.comp.ID ≠ id) → statesOf id (rs.flatMap g) = [] := by
  intro rs
  induction rs with
  | nil =>
    intro _ _
    exact ⟨fun r hr => absurd hr (List.not_mem_nil r), fun id _ => rfl⟩
  | cons a rs ih =>
    intro hg hnd
    rw [List.map_cons] at hnd
    have hnd2 := List.nodup_cons.mp hnd
    obtain ⟨ih1, ih2⟩ := ih (fun r hr => hg r (List.mem_cons_of_mem _ hr)) hnd2.2
    have ha : ∀ r ∈ rs, r.comp.ID ≠ a.comp.ID := by
      intro r hr heq
      exact hnd2.1 (List.mem_map.mpr ⟨r, hr, heq⟩)
    refine ⟨?_, ?_⟩
    · intro r hr
      rw [List.flatMap_cons, statesOf_append]
      rcases List.mem_cons.mp hr with hr | hr
      · subst hr
        rw [ih2 _ ha, List.append_nil]
        exact statesOf_same _ _ (hg r (List.mem_cons_self _ _))
      · rw [ih1 r hr, statesOf_other _ (g a), List.nil_append]
        intro p hp heq
        exact ha r hr ((hg a (List.mem_cons_self _ _) p hp).symm.trans heq).symm
    · intro id hid
      rw [List.flatMap_cons, statesOf_append, ih2 id (fun r hr => hid r (List.mem_cons_of_mem _ hr)),
        List.append_nil]
      apply statesOf_other
      intro p hp heq
      exact hid a (List.mem_cons_self _ _) ((hg a (List.mem_cons_self _ _) p hp).symm.trans heq)

theorem statesOf_tagged_same (id : String) (sts : List ComponentState) :
    statesOf id (sts.map (fun st => (id, st))) = sts := by
  rw [statesOf_same id _ (by simp)]
  simp

theorem statesOf_tagged_other (id id2 : String) (sts : List ComponentState) (h : id2 ≠ id) :
    statesOf id2 (sts.map (fun st => (id, st))) = [] := by
  apply statesOf_other
  intro p hp
  obtain ⟨st, -, hst⟩ := List.mem_map.mp hp
  rw [← hst]
  exact fun heq => h heq.symm

/-- The invariant of the unit removal survives a step that publishes states of one
component only. -/
theorem unitsInvariant_extend (m m2 : Manager) (id : String) (sts : List ComponentState)
    (h : m.unitsInvariant)
    (hlog : m2.published = m.published ++ sts.map (fun st => (id, st)))
    (hchain : List.Chain' unitsLeaveStopped sts)
    (hjoin : ∀ x ∈ (statesOf id m.published).getLast?, ∀ y ∈ sts.head?, unitsLeaveStopped x y)
    (hother : ∀ r ∈ m2.current, r.comp.ID ≠ id →
      ∃ r0 ∈ m.current, r0.comp.ID = r.comp.ID ∧ r0.state = r.state)
    (hsame : ∀ r ∈ m2.current, r.comp.ID = id →
      (statesOf id m.published ++ sts).getLast? = some r.state)
    (hgoneOther : ∀ id2, id2 ≠ id → (∀ r ∈ m2.current, r.comp.ID ≠ id2) →
      ∀ r ∈ m.current, r.comp.ID ≠ id2)
    (hgone : (∀ r ∈ m2.current, r.comp.ID ≠ id) → ∀ st,
      (statesOf id m.published ++ sts).getLast? = some st → ∀ p ∈ st.Units,
        p.2.State = UnitState.Stopped) :
    m2.unitsInvariant := by
  have hsameLog : statesOf id m2.published = statesOf id m.published ++ sts := by
    rw [hlog, statesOf_append, statesOf_tagged_same]
  have hotherLog : ∀ id2, id2 ≠ id → statesOf id2 m2.published = statesOf id2 m.published := by
    intro id2 hne
    rw [hlog, statesOf_append, statesOf_tagged_other id id2 sts hne, List.append_nil]
  refine ⟨?_, ?_, ?_⟩
  · intro id2
    by_cases hid : id2 = id
    · subst hid
      rw [hsameLog]
      exact List.Chain'.append (h.1 id2) hchain hjoin
    · rw [hotherLog id2 hid]
      exact h.1 id2
  · intro r hr
    by_cases hid : r.comp.ID = id
    · rw [hid, hsameLog]
      exact hsame r hr hid
    · rw [hotherLog _ hid]
      obtain ⟨r0, hr0, hid0, hst0⟩ := hother r hr hid
      rw [← hid0, ← hst0]
      exact h.2.1 r0 hr0
  · intro id2 hno st hst p hp
    by_cases hid : id2 = id
    · subst hid
      rw [hsameLog] at hst
      exact hgone hno st hst p hp
    · rw [hotherLog id2 hid] at hst
      exact h.2.2 id2 (hgoneOther id2 hid hno) st hst p hp

theorem unitsInvariant_start (m : Manager) (c : Component)
    (hfresh : ∀ r ∈ m.current, r.comp.ID ≠ c.ID) (h : m.unitsInvariant) :
    (m.start c).unitsInvariant := by
  have hjoin : ∀ x ∈ (statesOf c.ID m.published).getLast?, ∀ y : ComponentState,
      unitsLeaveStopped x y := by
    intro x hx y
    exact unitsLeaveStopped_of_stopped x y (h.2.2 c.ID hfresh x hx)
  cases hc : c.Err with
  | some e =>
    apply unitsInvariant_extend m (m.start c) c.ID [startingState c, failedState c e] h
    · simp [Manager.start, hc]
    · exact List.chain'_pair.mpr
        (unitsLeaveStopped_of_keys _ _ (fun k hk => hasUnit_failedState c e k hk))
    · exact fun x hx y _ => hjoin x hx y
    · intro r hr hid
      simp only [Manager.start, hc, List.mem_append, List.mem_singleton] at hr
      rcases hr with hr | hr
      · exact ⟨r, hr, rfl, rfl⟩
      · rw [hr] at hid
        exact absurd rfl hid
    · intro r hr hid
      simp only [Manager.start, hc, List.mem_append, List.mem_singleton] at hr
      rcases hr with hr | hr
      · exact absurd hid (hfresh r hr)
      · rw [hr]
        simp
    · intro id2 _ hno r hr
      apply hno
      simp only [Manager.start, hc, List.mem_append, List.mem_singleton]
      exact Or.inl hr
    · intro hno
      exfalso
      refine hno ⟨c, failedState c e, false⟩ ?_ rfl
      simp [Manager.start, hc]
  | none =>
    apply unitsInvariant_extend m (m.start c) c.ID [startingState c] h
    · simp [Manager.start, hc]
    · exact List.chain'_singleton _
    · exact fun x hx y _ => hjoin x hx y
    · intro r hr hid
      simp only [Manager.start, hc, List.mem_append, List.mem_singleton] at hr
      rcases hr with hr | hr
      · exact ⟨r, hr, rfl, rfl⟩
      · rw [hr] at hid
        exact absurd rfl hid
    · intro r hr hid
      simp only [Manager.start, hc, List.mem_append, List.mem_singleton] at hr
      rcases hr with hr | hr
      · exact absurd hid (hfresh r hr)
      · rw [hr]
        simp
    · intro id2 _ hno r hr
      apply hno
      simp only [Manager.start, hc, List.mem_append, List.mem_singleton]
      exact Or.inl hr
    · intro hno
      exfalso
      refine hno ⟨c, startingState c, false⟩ ?_ rfl
      simp [Manager.start, hc]

theorem unitsInvariant_foldl_start (cs : List Component) :
    ∀ m : Manager, (cs.map (fun c => c.ID)).Nodup →
      (∀ c ∈ cs, ∀ r ∈ m.current, r.comp.ID ≠ c.ID) → m.unitsInvariant →
      (cs.foldl Manager.start m).unitsInvariant := by
  induction cs with
  | nil => exact fun m _ _ h => h
  | cons c cs ih =>
    intro m hcs hfresh h
    rw [List.map_cons] at hcs
    have hcs2 := List.nodup_cons.mp hcs
    obtain ⟨r, hcur, hcomp, -, -⟩ := start_current m c
    rw [List.foldl_cons]
    apply ih _ hcs2.2
    · intro c2 hc2 r2 hr2
      rw [hcur] at hr2
      rcases List.mem_append.mp hr2 with hr2 | hr2
      · exact hfresh c2 (List.mem_cons_of_mem _ hc2) r2 hr2
      · simp only [List.mem_singleton] at hr2
        rw [hr2, hcomp]
        intro heq
        exact hcs2.1 (List.mem_map.mpr ⟨c2, hc2, heq.symm⟩)
    · exact unitsInvariant_start m c (hfresh c (List.mem_cons_self _ _)) h

theorem unitsInvariant_startPending (m : Manager) (hid : m.idInvariant)
    (h : m.unitsInvariant) : m.startPending.unitsInvariant := by
  unfold Manager.startPending
  split
  · exact h
  · rename_i hany
    refine unitsInvariant_foldl_start m.pending { m with pending := [] } hid.2.1 ?_ h
    intro c hc r hr heq
    exact hany (List.any_eq_true.mpr ⟨r, hr, hid.2.2 c hc r hr heq⟩)

/-- What one runtime publishes in `reconcile`: nothing, its state unchanged, or its new
state, which drops only units that were shown Stopped. -/
theorem reconcile_pub (model : Model) (r : Runtime) :
    ((reconcile model r).2 = [] ∧ (reconcile model r).1.state = r.state) ∨
      ((reconcile model r).2 = [(r.comp.ID, (reconcile model r).1.state)] ∧
        unitsLeaveStopped r.state (reconcile model r).1.state) := by
  have hstop : unitsLeaveStopped r.state (stoppingState r.state) :=
    unitsLeaveStopped_of_keys _ _ (fun k hk => hasUnit_stoppingState r.state k hk)
  rcases reconcile_cases model r with ⟨-, h⟩ | ⟨-, -, h⟩ | ⟨-, c, -, -, h⟩ | ⟨-, c, -, -, h⟩ |
    ⟨-, c, hf, -, -, -, h⟩ | ⟨-, c, hf, -, -, -, h⟩
  · rw [h]; exact Or.inl ⟨rfl, rfl⟩
  · rw [h]; exact Or.inr ⟨rfl, hstop⟩
  · rw [h]; exact Or.inl ⟨rfl, rfl⟩
  · rw [h]; exact Or.inr ⟨rfl, hstop⟩
  · rw [h]; exact Or.inl ⟨rfl, rfl⟩
  · rw [h]
    refine Or.inr ⟨?_, unitsLeaveStopped_sync c r.comp r.state⟩
    rw [ID_of_find hf]

/-- The manager after the diff of `Update` and before the waiting components start. -/
theorem unitsInvariant_reconciled (m : Manager) (model : Model)
    (pending : List Component) (hid : m.idInvariant) (h : m.unitsInvariant) :
    Manager.unitsInvariant
      { m with
        current := (m.current.map (reconcile model)).map (fun x => x.1)
        pending := pending
        published := m.published ++ (m.current.map (reconcile model)).flatMap (fun x => x.2) } := by
  have hflat : (m.current.map (reconcile model)).flatMap (fun x => x.2) =
      m.current.flatMap (fun r => (reconcile model r).2) := by
    induction m.current with
    | nil => rfl
    | cons a l ih => simp only [List.map_cons, List.flatMap_cons, ih]
  have hg : ∀ r ∈ m.current, ∀ p ∈ (reconcile model r).2, p.1 = r.comp.ID := by
    intro r _ p hp
    rcases reconcile_pub model r with ⟨h1, -⟩ | ⟨h1, -⟩
    · rw [h1] at hp
      cases hp
    · rw [h1] at hp
      simp only [List.mem_singleton] at hp
      rw [hp]
  obtain ⟨hs1, hs2⟩ := statesOf_flatMap (fun r => (reconcile model r).2) m.current hg hid.1
  have hlogR : ∀ r ∈ m.current, statesOf r.comp.ID
      (m.published ++ (m.current.map (reconcile model)).flatMap (fun x => x.2)) =
      statesOf r.comp.ID m.published ++ ((reconcile model r).2).map (fun p => p.2) := by
    intro r hr
    rw [statesOf_append, hflat, hs1 r hr]
  have hlogN : ∀ id, (∀ r ∈ m.current, r.comp.ID ≠ id) → statesOf id
      (m.published ++ (m.current.map (reconcile model)).flatMap (fun x => x.2)) =
      statesOf id m.published := by
    intro id hno
    rw [statesOf_append, hflat, hs2 id hno, List.append_nil]
  refine ⟨?_, ?_, ?_⟩
  · intro id
    simp only
    by_cases hex : ∃ r ∈ m.current, r.comp.ID = id
    · obtain ⟨r, hr, hrid⟩ := hex
      rw [← hrid, hlogR r hr]
      rcases reconcile_pub model r with ⟨h1, -⟩ | ⟨h1, hR⟩
      · rw [h1, List.map_nil, List.append_nil]
        exact h.1 _
      · rw [h1]
        refine List.Chain'.append (h.1 _) (List.chain'_singleton _) ?_
        intro x hx y hy
        rw [h.2.1 r hr] at hx
        simp only [Option.mem_def, Option.some.injEq] at hx
        simp only [List.map_cons, List.map_nil, List.head?_cons, Option.mem_def,
          Option.some.injEq] at hy
        rw [← hx, ← hy]
        exact hR
    · rw [hlogN id (fun r hr heq => hex ⟨r, hr, heq⟩)]
      exact h.1 id
  · intro r2 hr2
    simp only at hr2 ⊢
    obtain ⟨x, hx, hx2⟩ := List.mem_map.mp hr2
    obtain ⟨r, hr, hxr⟩ := List.mem_map.mp hx
    subst hxr
    subst hx2
    rw [reconcile_ID, hlogR r hr]
    rcases reconcile_pub model r with ⟨h1, h2⟩ | ⟨h1, -⟩
    · rw [h1, List.map_nil, List.append_nil, h2]
      exact h.2.1 r hr
    · rw [h1]
      simp
  · intro id hno st hst p hp
    simp only at hno hst
    have hno2 : ∀ r ∈ m.current, r.comp.ID ≠ id := by
      intro r hr heq
      refine hno (reconcile model r).1 ?_ ((reconcile_ID model r).trans heq)
      exact List.mem_map.mpr ⟨_, List.mem_map.mpr ⟨r, hr, rfl⟩, rfl⟩
    rw [hlogN id hno2] at hst
    exact h.2.2 id hno2 st hst p hp

theorem unitsInvariant_update (m : Manager) (model : Model) (hid : m.idInvariant)
    (h : m.unitsInvariant) : (m.update model).2.unitsInvariant := by
  unfold Manager.update
  split
  · rename_i hnd
    exact unitsInvariant_startPending _ (idInvariant_reconciled m model hnd hid)
      (unitsInvariant_reconciled m model _ hid h)
  · exact h

theorem unitsInvariant_stopped (m : Manager) (id : String) (hid : m.idInvariant)
    (h : m.unitsInvariant) : (m.stopped id).unitsInvariant := by
  unfold Manager.stopped
  split
  · exact h
  · rename_i r hfind
    have hr : r ∈ m.current := List.mem_of_find?_eq_some hfind
    have hcond := List.find?_some hfind
    simp only [Bool.and_eq_true, beq_iff_eq] at hcond
    have hlast := h.2.1 r hr
    rw [hcond.2] at hlast
    refine unitsInvariant_startPending _ (idInvariant_removed m id _ hid) ?_
    apply unitsInvariant_extend m _ id [stoppedState r.state] h
    · rfl
    · exact List.chain'_singleton _
    · intro x hx y hy
      rw [hlast] at hx
      simp only [Option.mem_def, Option.some.injEq] at hx
      simp only [List.head?_cons, Option.mem_def, Option.some.injEq] at hy
      rw [← hx, ← hy]
      exact unitsLeaveStopped_of_keys _ _ (fun k hk => hasUnit_stoppedState r.state k hk)
    · intro r2 hr2 _
      exact ⟨r2, (List.mem_filter.mp hr2).1, rfl, rfl⟩
    · intro r2 hr2 hid2
      exfalso
      have hmem := List.mem_filter.mp hr2
      have heq : r2 = r :=
        List.inj_on_of_nodup_map hid.1 hmem.1 hr (hid2.trans hcond.2.symm)
      have hc := hmem.2
      rw [heq] at hc
      simp [hcond.1, hcond.2] at hc
    · intro id2 hne hno r3 hr3 heq
      refine hno r3 (List.mem_filter.mpr ⟨hr3, ?_⟩) heq
      have : ¬ r3.comp.ID = id := fun h3 => hne (heq.symm.trans h3)
      simp [this]
    · intro _ st hst p hp
      have hst2 : st = stoppedState r.state := by
        simpa [List.getLast?_append] using hst.symm
      rw [hst2] at hp
      simp only [stoppedState, List.mem_map] at hp
      obtain ⟨q, -, hq⟩ := hp
      rw [← hq]

theorem unitsInvariant_checkin (m : Manager) (id : String) (observed : ComponentState)
    (hid : m.idInvariant) (h : m.unitsInvariant) : (m.checkin id observed).unitsInvariant := by
  unfold Manager.checkin
  split
  · exact h
  · rename_i r0 hfind
    have hr0 : r0 ∈ m.current := List.mem_of_find?_eq_some hfind
    have hcond0 := List.find?_some hfind
    have hid0 : r0.comp.ID = id := by
      simp only [Bool.and_eq_true, beq_iff_eq] at hcond0
      exact hcond0.2
    have hlast := h.2.1 r0 hr0
    rw [hid0] at hlast
    apply unitsInvariant_extend m _ id [mergeObserved r0 observed] h
    · rfl
    · exact List.chain'_singleton _
    · intro x hx y hy
      rw [hlast] at hx
      simp only [Option.mem_def, Option.some.injEq] at hx
      simp only [List.head?_cons, Option.mem_def, Option.some.injEq] at hy
      rw [← hx, ← hy]
      exact unitsLeaveStopped_merge r0 observed
    · intro r2 hr2 hne
      simp only at hr2
      obtain ⟨r, hr, hx⟩ := List.mem_map.mp hr2
      split at hx
      · rename_i hcond
        simp only [Bool.and_eq_true, beq_iff_eq] at hcond
        subst hx
        exact absurd hcond.2 hne
      · subst hx
        exact ⟨r, hr, rfl, rfl⟩
    · intro r2 hr2 hid2
      simp only at hr2
      obtain ⟨r, hr, hx⟩ := List.mem_map.mp hr2
      have hrid : r.comp.ID = id := by
        split at hx <;> subst hx <;> exact hid2
      have hreq : r = r0 := find_checkin_unique hid.1 hfind hr hrid
      rw [hreq, if_pos hcond0] at hx
      subst hx
      simp
    · intro id2 _ hno r3 hr3 heq
      refine hno (if (!r3.stopping && r3.comp.Err.isNone && r3.comp.ID == id) = true then
          { r3 with state := mergeObserved r3 observed } else r3) ?_ ?_
      · exact List.mem_map.mpr ⟨r3, hr3, rfl⟩
      · split <;> exact heq
    · intro hno
      exfalso
      refine hno { r0 with state := mergeObserved r0 observed } ?_ hid0
      refine List.mem_map.mpr ⟨r0, hr0, ?_⟩
      rw [if_pos hcond0]

theorem unitsInvariant_run (evs : List Event) :
    ∀ m : Manager, m.idInvariant → m.unitsInvariant → (m.run evs).unitsInvariant := by
  induction evs with
  | nil => exact fun m _ h => h
  | cons ev evs ih =>
    intro m hid h
    refine ih _ (idInvariant_step m ev hid) ?_
    cases ev with
    | update model => exact unitsInvariant_update m model hid h
    | checkin id observed => exact unitsInvariant_checkin m id observed hid h
    | stopAck id => exact unitsInvariant_stopped m id hid h
    | stopTimeout id => exact unitsInvariant_stopped m id hid h

theorem unitsInvariant_init : Manager.init.unitsInvariant := by
  refine ⟨?_, ?_, ?_⟩
  · intro id
    exact List.chain'_nil
  · intro r hr
    simp [Manager.init] at hr
  · intro id _ st hst
    simp [Manager.init, statesOf] at hst

/-- C12: a unit removed from a component's model is never dropped from the published state
without first having been published as Stopped.  Whatever events the reconciler has
applied, wherever in the sequence of the states published for a component a state `s1` that
lists the unit `k` is followed by a state `s2` that lacks it, `s1` shows `k` Stopped. -/
theorem unit_removed_after_stopped (evs : List Event) (id : String) (k : ComponentUnitKey)
    (pre post : List ComponentState) (s1 s2 : ComponentState)
    (hlog : statesOf id (Manager.init.run evs).published = pre ++ s1 :: s2 :: post)
    (h1 : hasUnit s1 k) (h2 : ¬ hasUnit s2 k) : showsStopped s1 k := by
  have hchain := (unitsInvariant_run evs Manager.init idInvariant_init unitsInvariant_init).1 id
  rw [hlog] at hchain
  have hrest := List.Chain'.right_of_append hchain
  exact (List.chain'_cons.mp hrest).1 k h1 h2

/-- The scenario of `TestManager_FakeInput_RemoveUnit`: `fake-input-1` is published
Starting, Healthy, Stopping, Stopping and Stopped before the state that lacks it. -/
theorem removeUnit_scenario :
    (statesOf "fake-default" (Manager.init.run removeUnitEvents).published).map
        (fun st => (st.Units.lookup ⟨UnitType.Input, "fake-input-1"⟩).map (fun us => us.State))
      = [some UnitState.Starting, some UnitState.Healthy, some UnitState.Stopping,
          some UnitState.Stopping, some UnitState.Stopped, none] ∧
      showsStopped fakeOneStopped ⟨UnitType.Input, "fake-input-1"⟩ :=
  ⟨by decide!,
    unit_removed_after_stopped removeUnitEvents "fake-default" ⟨UnitType.Input, "fake-input-1"⟩
      ((statesOf "fake-default" (Manager.init.run removeUnitEvents).published).take 4) []
      fakeOneStopped fakeOneObserved (by decide!)
      ⟨⟨UnitState.Stopped, "Stopped"⟩, by decide!⟩
      (by rintro ⟨us, hus⟩; simp [fakeOneObserved] at hus)⟩

/-! ### The working directory of a component -/

theorem workDirInvariant_start (m : Manager) (c : Component) (h : m.workDirInvariant) :
    (m.start c).workDirInvariant := by
  unfold Manager.start
  split
  · intro d hd
    obtain ⟨r, hr, hrd⟩ := h d hd
    exact ⟨r, List.mem_append_left _ hr, hrd⟩
  · rename_i hnone
    intro d hd
    simp only [List.mem_cons] at hd
    rcases hd with hd | hd
    · exact ⟨⟨c, startingState c, false⟩, by simp, hd.symm, hnone⟩
    · obtain ⟨r, hr, hrd⟩ := h d (List.mem_filter.mp hd).1
      exact ⟨r, List.mem_append_left _ hr, hrd⟩

theorem workDirInvariant_foldl_start (cs : List Component) :
    ∀ m : Manager, m.workDirInvariant → (cs.foldl Manager.start m).workDirInvariant := by
  induction cs with
  | nil => exact fun m h => h
  | cons c cs ih => exact fun m h => ih _ (workDirInvariant_start m c h)

theorem workDirInvariant_startPending (m : Manager) (h : m.workDirInvariant) :
    m.startPending.workDirInvariant := by
  unfold Manager.startPending
  split
  · exact h
  · exact workDirInvariant_foldl_start _ _ h

/-- The reconciler keeps the `err` of the component of a runtime. -/
theorem reconcile_Err (model : Model) (r : Runtime) (h : r.comp.Err = none) :
    (reconcile model r).1.comp.Err = none := by
  rcases reconcile_cases model r with ⟨-, hc⟩ | ⟨-, -, hc⟩ | ⟨-, c, -, -, hc⟩ |
    ⟨-, c, -, -, hc⟩ | ⟨-, c, -, -, hce, -, hc⟩ | ⟨-, c, -, -, hce, -, hc⟩
  · rw [hc]; exact h
  · rw [hc]; exact h
  · rw [hc]; exact h
  · rw [hc]; exact h
  · rw [hc]; exact hce
  · rw [hc]; exact hce

theorem workDirInvariant_update (m : Manager) (model : Model) (h : m.workDirInvariant) :
    (m.update model).2.workDirInvariant := by
  unfold Manager.update
  split
  · apply workDirInvariant_startPending
    intro d hd
    obtain ⟨r, hr, hrd, herr⟩ := h d hd
    refine ⟨(reconcile model r).1, ?_, ?_, reconcile_Err model r herr⟩
    · exact List.mem_map.mpr ⟨reconcile model r, List.mem_map.mpr ⟨r, hr, rfl⟩, rfl⟩
    · rw [reconcile_ID, hrd]
  · exact h

theorem workDirInvariant_stopped (m : Manager) (id : String) (h : m.workDirInvariant) :
    (m.stopped id).workDirInvariant := by
  unfold Manager.stopped
  split
  · exact h
  · apply workDirInvariant_startPending
    intro d hd
    have hd2 := List.mem_filter.mp hd
    obtain ⟨r, hr, hrd, herr⟩ := h d hd2.1
    refine ⟨r, List.mem_filter.mpr ⟨hr, ?_⟩, hrd, herr⟩
    have hne : ¬ r.comp.ID = id := by
      rw [hrd]
      simpa using hd2.2
    simp [hne]

theorem workDirInvariant_checkin (m : Manager) (id : String) (observed : ComponentState)
    (h : m.workDirInvariant) : (m.checkin id observed).workDirInvariant := by
  unfold Manager.checkin
  split
  · exact h
  · intro d hd
    obtain ⟨r, hr, hrd, herr⟩ := h d hd
    refine ⟨_, List.mem_map.mpr ⟨r, hr, rfl⟩, ?_, ?_⟩
    · split <;> exact hrd
    · split <;> exact herr

theorem workDirInvariant_run (evs : List Event) :
    ∀ m : Manager, m.workDirInvariant → (m.run evs).workDirInvariant := by
  induction evs with
  | nil => exact fun m h => h
  | cons ev evs ih =>
    intro m h
    refine ih _ ?_
    cases ev with
    | update model => exact workDirInvariant_update m model h
    | checkin id observed => exact workDirInvariant_checkin m id observed h
    | stopAck id => exact workDirInvariant_stopped m id h
    | stopTimeout id => exact workDirInvariant_stopped m id h

theorem workDirInvariant_init : Manager.init.workDirInvariant := by
  intro d hd
  simp [Manager.init] at hd

/-! ### The missed-checkin machine -/

/-- Publishing a state that is not Failed keeps the invariant of the log. -/
theorem published_append_ok (log : List (UnitState × String)) (x : UnitState × String)
    (hlast : ∃ p, log.getLast? = some p)
    (hhead : ∀ p ∈ log.head?, p.1 ≠ UnitState.Failed)
    (hchain : List.Chain' degradedThenFailed log)
    (hx : x.1 = UnitState.Failed → ∀ p, log.getLast? = some p → p.1 = UnitState.Degraded) :
    (∃ p, (log ++ [x]).getLast? = some p ∧ p.1 = x.1) ∧
      (∀ p ∈ (log ++ [x]).head?, p.1 ≠ UnitState.Failed) ∧
      List.Chain' degradedThenFailed (log ++ [x]) := by
  refine ⟨⟨x, by simp, rfl⟩, ?_, ?_⟩
  · cases log with
    | nil =>
      obtain ⟨p, hp⟩ := hlast
      cases hp
    | cons a l => exact hhead
  · refine List.Chain'.append hchain (List.chain'_singleton _) ?_
    intro a ha b hb hf
    simp only [List.head?_cons, Option.mem_def, Option.some.injEq] at hb
    rw [← hb] at hf
    exact hx hf a ha

theorem invariant_degrade (m : CheckinMonitor) (h : m.invariant) :
    m.degrade.invariant ∧ m.degrade.state = UnitState.Degraded ∧
      m.degrade.killed = m.killed ∧ m.degrade.lastCheckin = m.lastCheckin := by
  obtain ⟨⟨p, hp, hps⟩, hhead, hchain⟩ := h
  simp only [CheckinMonitor.degrade]
  by_cases hd : m.state = UnitState.Degraded
  · rw [if_pos hd]
    exact ⟨⟨⟨p, hp, hps⟩, hhead, hchain⟩, hd, rfl, rfl⟩
  · rw [if_neg hd]
    exact ⟨published_append_ok m.published (UnitState.Degraded, "missed check-in") ⟨p, hp⟩
      hhead hchain (fun hf => by cases hf), rfl, rfl, rfl⟩

theorem invariant_step (t : CommandTimeoutSpec) (m : CheckinMonitor) (ev : CheckinEvent)
    (h : m.invariant) : (m.step t ev).invariant := by
  cases ev with
  | tick now =>
    simp only [CheckinMonitor.step]
    by_cases hk : m.killed = true
    · rw [if_pos hk]
      exact h
    · rw [if_neg hk]
      obtain ⟨⟨⟨p, hp, hps⟩, hhead, hchain⟩, hstate, -, -⟩ := invariant_degrade m h
      by_cases h2 : 2 * t.Checkin < now - m.lastCheckin
      · rw [if_pos h2]
        exact published_append_ok m.degrade.published
          (UnitState.Failed, "missed check-ins: child killed") ⟨p, hp⟩ hhead hchain
          (fun _ q hq => by
            rw [hp] at hq
            cases hq
            rw [hps, hstate])
      · rw [if_neg h2]
        by_cases h1 : t.Checkin < now - m.lastCheckin
        · rw [if_pos h1]
          exact ⟨⟨p, hp, hps⟩, hhead, hchain⟩
        · rw [if_neg h1]
          exact h
  | checkin now =>
    obtain ⟨⟨p, hp, hps⟩, hhead, hchain⟩ := h
    simp only [CheckinMonitor.step]
    by_cases hk : m.killed = true
    · rw [if_pos hk]
      exact ⟨⟨p, hp, hps⟩, hhead, hchain⟩
    · rw [if_neg hk]
      by_cases hh : m.state = UnitState.Healthy
      · rw [if_pos hh]
        exact ⟨⟨p, hp, hps⟩, hhead, hchain⟩
      · rw [if_neg hh]
        exact published_append_ok m.published (UnitState.Healthy, "Healthy") ⟨p, hp⟩ hhead
          hchain (fun hf => by cases hf)

theorem invariant_run (t : CommandTimeoutSpec) (evs : List CheckinEvent) :
    ∀ (m : CheckinMonitor), m.invariant → (m.run t evs).invariant := by
  induction evs with
  | nil => exact fun m h => h
  | cons ev evs ih => exact fun m h => ih _ (invariant_step t m ev h)

theorem invariant_init (start : Nat) : (CheckinMonitor.init start).invariant := by
  refine ⟨⟨(UnitState.Starting, "Starting"), rfl, rfl⟩, ?_, List.chain'_singleton _⟩
  intro p hp
  simp only [CheckinMonitor.init, List.head?_cons, Option.mem_def, Option.some.injEq] at hp
  rw [← hp]
  decide

/-- A tick that finds the last check-in older than the Checkin timeout leaves a Degraded
entry in the log: the one it publishes, or the one that made the machine Degraded. -/
theorem degrade_published (m : CheckinMonitor) (h : m.invariant) :
    ∃ p, m.degrade.published.getLast? = some p ∧ p.1 = UnitState.Degraded := by
  obtain ⟨⟨⟨p, hp, hps⟩, -, -⟩, hstate, -, -⟩ := invariant_degrade m h
  exact ⟨p, hp, by rw [hps, hstate]⟩

/-- In a log that satisfies the invariant, the entry before a Failed one is Degraded. -/
theorem degraded_before_failed (log pre post : List (UnitState × String))
    (p : UnitState × String) (hhead : ∀ q ∈ log.head?, q.1 ≠ UnitState.Failed)
    (hchain : List.Chain' degradedThenFailed log) (hlog : log = pre ++ p :: post)
    (hp : p.1 = UnitState.Failed) :
    ∃ q, pre.getLast? = some q ∧ q.1 = UnitState.Degraded := by
  subst hlog
  rcases List.eq_nil_or_concat pre with hnil | ⟨pre2, q, hpre⟩
  · subst hnil
    exact absurd hp (hhead p rfl)
  · subst hpre
    refine ⟨q, by simp, ?_⟩
    rw [List.concat_eq_append, List.append_assoc] at hchain
    have hrest := List.Chain'.right_of_append hchain
    exact (List.chain'_cons.mp hrest).1 hp

/-- C13: with missed check-ins, a component is never published Failed for a check-in
timeout without having been published Degraded before.  Whatever the events of a launched
child and their times, every Failed entry of the states the machine publishes comes
directly after a Degraded entry; a tick kills a living child exactly when
`now - last_checkin` exceeds twice the Checkin timeout, and then the component is published
Failed in that tick, directly after Degraded; a tick leaves a living component Degraded,
with Degraded the last published state, when `now - last_checkin` exceeds the Checkin
timeout but not twice it, and it publishes nothing and kills nothing when the Checkin
timeout is not exceeded. -/
theorem failed_after_degraded (t : CommandTimeoutSpec) (start : Nat)
    (evs : List CheckinEvent) :
    (∀ pre post p, ((CheckinMonitor.init start).run t evs).published = pre ++ p :: post →
      p.1 = UnitState.Failed → ∃ q, pre.getLast? = some q ∧ q.1 = UnitState.Degraded) ∧
    (∀ now, ((CheckinMonitor.init start).run t evs).killed = false →
      ((((CheckinMonitor.init start).run t evs).step t (CheckinEvent.tick now)).killed = true ↔
        2 * t.Checkin < now - ((CheckinMonitor.init start).run t evs).lastCheckin)) ∧
    (∀ now, ((CheckinMonitor.init start).run t evs).killed = false →
      2 * t.Checkin < now - ((CheckinMonitor.init start).run t evs).lastCheckin →
        ∃ pre q, (((CheckinMonitor.init start).run t evs).step t
            (CheckinEvent.tick now)).published =
              pre ++ [(UnitState.Failed, "missed check-ins: child killed")] ∧
          pre.getLast? = some q ∧ q.1 = UnitState.Degraded ∧
          (((CheckinMonitor.init start).run t evs).step t (CheckinEvent.tick now)).state =
            UnitState.Failed) ∧
    (∀ now, ((CheckinMonitor.init start).run t evs).killed = false →
      t.Checkin < now - ((CheckinMonitor.init start).run t evs).lastCheckin →
      ¬ 2 * t.Checkin < now - ((CheckinMonitor.init start).run t evs).lastCheckin →
        (((CheckinMonitor.init start).run t evs).step t (CheckinEvent.tick now)).state =
            UnitState.Degraded ∧
          ∃ q, (((CheckinMonitor.init start).run t evs).step t
              (CheckinEvent.tick now)).published.getLast? = some q ∧
            q.1 = UnitState.Degraded) ∧
    (∀ now, ¬ t.Checkin < now - ((CheckinMonitor.init start).run t evs).lastCheckin →
      ((CheckinMonitor.init start).run t evs).step t (CheckinEvent.tick now) =
        (CheckinMonitor.init start).run t evs) := by
  have hinv := invariant_run t evs _ (invariant_init start)
  generalize (CheckinMonitor.init start).run t evs = m at hinv
  refine ⟨?_, ?_, ?_, ?_, ?_⟩
  · intro pre post p hlog hp
    exact degraded_before_failed _ pre post p hinv.2.1 hinv.2.2 hlog hp
  · intro now hk
    obtain ⟨-, -, hdk, -⟩ := invariant_degrade m hinv
    simp only [CheckinMonitor.step]
    rw [if_neg (by simp [hk])]
    by_cases h2 : 2 * t.Checkin < now - m.lastCheckin
    · rw [if_pos h2]
      simp [h2]
    · rw [if_neg h2]
      by_cases h1 : t.Checkin < now - m.lastCheckin
      · rw [if_pos h1, hdk]
        simp [hk, h2]
      · rw [if_neg h1]
        simp [hk, h2]
  · intro now hk h2
    obtain ⟨q, hq, hqs⟩ := degrade_published m hinv
    simp only [CheckinMonitor.step]
    rw [if_neg (by simp [hk]), if_pos h2]
    exact ⟨m.degrade.published, q, rfl, hq, hqs, rfl⟩
  · intro now hk h1 h2
    obtain ⟨-, hstate, -, -⟩ := invariant_degrade m hinv
    simp only [CheckinMonitor.step]
    rw [if_neg (by simp [hk]), if_neg h2, if_pos h1]
    exact ⟨hstate, degrade_published m hinv⟩
  · intro now h1
    have h2 : ¬ 2 * t.Checkin < now - m.lastCheckin := by omega
    simp only [CheckinMonitor.step]
    by_cases hk : m.killed = true
    · rw [if_pos hk]
    · rw [if_neg hk, if_neg h2, if_neg h1]

/-- The scenario of `TestManager_FakeInput_RestartsOnMissedCheckins`: with `Checkin` at
100 ms and the last check-in at 60, the ticks at 200 and 300 publish Degraded and then
Failed; and when the ticker is late, so that the first tick after the check-in at 10 comes
at 250, that one tick publishes Degraded and then Failed. -/
theorem missedCheckins_scenario :
    (((CheckinMonitor.init 0).run missedCheckinTimeouts missedCheckinEvents).published.map
        (fun p => p.1) =
      [UnitState.Starting, UnitState.Healthy, UnitState.Degraded, UnitState.Failed]) ∧
    ((CheckinMonitor.init 0).run missedCheckinTimeouts missedCheckinEvents).killed = true ∧
    (((CheckinMonitor.init 0).run missedCheckinTimeouts lateTickEvents).published.map
        (fun p => p.1) =
      [UnitState.Starting, UnitState.Healthy, UnitState.Degraded, UnitState.Failed]) ∧
    (((CheckinMonitor.init 0).run missedCheckinTimeouts [CheckinEvent.tick 250]).published.map
        (fun p => p.1) =
      [UnitState.Starting, UnitState.Degraded, UnitState.Failed]) ∧
    ∀ pre post p,
      ((CheckinMonitor.init 0).run missedCheckinTimeouts lateTickEvents).published =
          pre ++ p :: post →
        p.1 = UnitState.Failed → ∃ q, pre.getLast? = some q ∧ q.1 = UnitState.Degraded :=
  ⟨by decide, by decide, by decide, by decide,
    (failed_after_degraded missedCheckinTimeouts 0 lateTickEvents).1⟩

/-! ### The restart policy -/

/-- Starts that are pairwise `gap` apart and at least `j` gaps old fill the window of a
policy with `period ≤ gap * max` to at most `max - j`. -/
theorem countInWindow_spaced (spec : CommandSpec) (gap now : Nat)
    (hp : spec.RestartMonitoringPeriod ≤ gap * spec.MaxRestartsPerPeriod) :
    ∀ (l : List Nat) (j : Nat), List.Pairwise (fun a b => b + gap ≤ a) l →
      (∀ a ∈ l, a + j * gap ≤ now) →
        countInWindow spec now l ≤ spec.MaxRestartsPerPeriod - j := by
  intro l
  induction l with
  | nil =>
    intro j _ _
    simp [countInWindow]
  | cons a rest ih =>
    intro j hpw hold
    obtain ⟨hrest, hpw2⟩ := List.pairwise_cons.mp hpw
    have ha := hold a (List.mem_cons_self a rest)
    have hold2 : ∀ b ∈ rest, b + (j + 1) * gap ≤ now := by
      intro b hb
      have h1 := hrest b hb
      have h2 : (j + 1) * gap = j * gap + gap := by ring
      omega
    have hih := ih (j + 1) hpw2 hold2
    unfold countInWindow at hih ⊢
    by_cases hin : now < a + spec.RestartMonitoringPeriod
    · have hj : j < spec.MaxRestartsPerPeriod := by
        by_contra hge
        have hge2 : spec.MaxRestartsPerPeriod ≤ j := by omega
        have h3 : gap * spec.MaxRestartsPerPeriod ≤ gap * j := Nat.mul_le_mul_left gap hge2
        have h4 : gap * j = j * gap := Nat.mul_comm gap j
        omega
      rw [List.filter_cons_of_pos (by simpa using hin), List.length_cons]
      omega
    · rw [List.filter_cons_of_neg (by simpa using hin)]
      omega

theorem spaced_step (spec : CommandSpec) (gap : Nat) (hmax : 0 < spec.MaxRestartsPerPeriod)
    (hp : spec.RestartMonitoringPeriod ≤ gap * spec.MaxRestartsPerPeriod)
    (last now : Nat) (s : Supervisor) (hnow : last + gap ≤ now) (h : s.spaced gap last) :
    countInWindow spec now s.window < spec.MaxRestartsPerPeriod ∧
      (s.step spec (ChildEvent.exited now)).spaced gap now := by
  obtain ⟨hrun, hpw, hle⟩ := h
  have hwpw : List.Pairwise (fun a b => b + gap ≤ a) s.window := by
    unfold Supervisor.window
    split
    · exact List.Pairwise.nil
    · exact hpw
  have hwle : ∀ a ∈ s.window, a ≤ last := by
    unfold Supervisor.window
    split
    · intro a ha
      cases ha
    · exact hle
  have hcount : countInWindow spec now s.window < spec.MaxRestartsPerPeriod := by
    have := countInWindow_spaced spec gap now hp s.window 1 hwpw (fun a ha => by
      have := hwle a ha
      omega)
    omega
  refine ⟨hcount, ?_⟩
  have hallowed : restartAllowed spec now s.window = true := by
    simp [restartAllowed, hcount]
  simp only [Supervisor.step, hrun, if_true, hallowed]
  refine ⟨rfl, ?_, ?_⟩
  · refine List.pairwise_cons.mpr ⟨?_, hwpw⟩
    intro b hb
    have := hwle b hb
    omega
  · intro a ha
    rcases List.mem_cons.mp ha with ha | ha
    · omega
    · have := hwle a ha
      omega

/-- Exits that are `gap` apart keep a policy with `period ≤ gap * max` under the cap. -/
theorem underCap_of_spaced (spec : CommandSpec) (gap : Nat)
    (hmax : 0 < spec.MaxRestartsPerPeriod)
    (hp : spec.RestartMonitoringPeriod ≤ gap * spec.MaxRestartsPerPeriod)
    (evs : List ChildEvent) :
    ∀ (last : Nat) (s : Supervisor), s.spaced gap last → spacedExits gap last evs = true →
      underCap spec s evs = true := by
  induction evs with
  | nil => exact fun _ _ _ _ => rfl
  | cons ev evs ih =>
    intro last s h hsp
    cases ev with
    | exited now =>
      simp only [spacedExits, Bool.and_eq_true, decide_eq_true_eq] at hsp
      obtain ⟨hcount, hnext⟩ := spaced_step spec gap hmax hp last now s hsp.1 h
      simp only [underCap, Bool.and_eq_true, decide_eq_true_eq]
      exact ⟨hcount, ih now _ hnext hsp.2⟩
    | healthy now =>
      simp only [spacedExits] at hsp
      simp only [underCap]
      refine ih last _ ?_ hsp
      obtain ⟨hrun, hpw, hle⟩ := h
      simp only [Supervisor.step, hrun, if_true]
      exact ⟨rfl, hpw, hle⟩
    | retry now =>
      simp only [spacedExits] at hsp
      simp only [underCap]
      refine ih last _ ?_ hsp
      obtain ⟨hrun, hpw, hle⟩ := h
      simp only [Supervisor.step, hrun, if_true]
      exact ⟨hrun, hpw, hle⟩

/-- Under the cap a running child is launched again at each exit and Failed is never
published. -/
theorem underCap_run (spec : CommandSpec) (evs : List ChildEvent) :
    ∀ s : Supervisor, s.running = true → UnitState.Failed ∉ s.published →
      underCap spec s evs = true →
        (s.run spec evs).running = true ∧ UnitState.Failed ∉ (s.run spec evs).published ∧
          (s.run spec evs).launches = s.launches + (evs.filter ChildEvent.isExit).length := by
  induction evs with
  | nil => exact fun s hrun hnf _ => ⟨hrun, hnf, rfl⟩
  | cons ev evs ih =>
    intro s hrun hnf hcap
    cases ev with
    | exited now =>
      simp only [underCap, Bool.and_eq_true, decide_eq_true_eq] at hcap
      have hallowed : restartAllowed spec now s.window = true := by
        simp [restartAllowed, hcap.1]
      have hstep : s.step spec (ChildEvent.exited now) =
          { starts := now :: s.window
            wasHealthy := false
            running := true
            published := s.published ++ [UnitState.Stopped, UnitState.Starting]
            launches := s.launches + 1 } := by
        simp only [Supervisor.step, hrun, if_true, hallowed]
      obtain ⟨h1, h2, h3⟩ := ih (s.step spec (ChildEvent.exited now))
        (by rw [hstep]) (by rw [hstep]; simp [hnf]) hcap.2
      refine ⟨h1, h2, ?_⟩
      simp only [Supervisor.run, List.foldl_cons] at h3 ⊢
      rw [h3, hstep]
      simp only [List.filter_cons, ChildEvent.isExit, if_true, List.length_cons]
      omega
    | healthy now =>
      simp only [underCap] at hcap
      have hstep : s.step spec (ChildEvent.healthy now) =
          { s with wasHealthy := true, published := s.published ++ [UnitState.Healthy] } := by
        simp only [Supervisor.step, hrun, if_true]
      obtain ⟨h1, h2, h3⟩ := ih (s.step spec (ChildEvent.healthy now))
        (by rw [hstep]; exact hrun) (by rw [hstep]; simp [hnf]) hcap
      refine ⟨h1, h2, ?_⟩
      simp only [Supervisor.run, List.foldl_cons] at h3 ⊢
      rw [h3, hstep]
      simp [ChildEvent.isExit]
    | retry now =>
      simp only [underCap] at hcap
      have hstep : s.step spec (ChildEvent.retry now) = s := by
        simp only [Supervisor.step, hrun, if_true]
      obtain ⟨h1, h2, h3⟩ := ih (s.step spec (ChildEvent.retry now))
        (by rw [hstep]; exact hrun) (by rw [hstep]; exact hnf) hcap
      refine ⟨h1, h2, ?_⟩
      simp only [Supervisor.run, List.foldl_cons] at h3 ⊢
      rw [h3, hstep]
      simp [ChildEvent.isExit]

/-- C14: a restart of a component's child is allowed exactly when the number of starts
counted in the current `RestartMonitoringPeriod` window is below `MaxRestartsPerPeriod`;
a component that exits repeatedly while staying under the cap is restarted every time (a
child runs, and the launches are the first one and one per exit) and is never published
Failed.  A running child that exits is launched again exactly when the restart is
allowed, and is published Failed otherwise. -/
theorem restart_allowed_under_cap (spec : CommandSpec) (start : Nat) (evs : List ChildEvent)
    (hcap : underCap spec (Supervisor.init start) evs = true) :
    (∀ now starts, restartAllowed spec now starts = true ↔
      countInWindow spec now starts < spec.MaxRestartsPerPeriod) ∧
    (∀ (s : Supervisor) (now : Nat), s.running = true →
      ((s.step spec (ChildEvent.exited now)).running = true ↔
          restartAllowed spec now s.window = true) ∧
        ((s.step spec (ChildEvent.exited now)).published.getLast? = some UnitState.Failed ↔
          restartAllowed spec now s.window = false)) ∧
    ((Supervisor.init start).run spec evs).running = true ∧
    UnitState.Failed ∉ ((Supervisor.init start).run spec evs).published ∧
    ((Supervisor.init start).run spec evs).launches =
      1 + (evs.filter ChildEvent.isExit).length := by
  refine ⟨?_, ?_, ?_⟩
  · intro now starts
    simp [restartAllowed]
  · intro s now hrun
    cases hall : restartAllowed spec now s.window
    · simp [Supervisor.step, hrun, hall]
    · simp [Supervisor.step, hrun, hall]
  · obtain ⟨h1, h2, h3⟩ := underCap_run spec evs (Supervisor.init start) rfl
      (by simp [Supervisor.init]) hcap
    refine ⟨h1, h2, ?_⟩
    rw [h3]
    rfl

/-- The scenario of `TestManager_FakeInput_KeepsRestarting`: with at most 10 restarts per
second, a child that exits every 300 ms stays under the cap; it is published Stopped,
Starting and Healthy three times over, never Failed, and is launched four times. -/
theorem keepsRestarting_scenario :
    ((Supervisor.init 0).run keepsRestartingSpec keepsRestartingEvents).published =
      [UnitState.Starting, UnitState.Healthy, UnitState.Stopped, UnitState.Starting,
        UnitState.Healthy, UnitState.Stopped, UnitState.Starting, UnitState.Healthy,
        UnitState.Stopped, UnitState.Starting, UnitState.Healthy] ∧
    ((Supervisor.init 0).run keepsRestartingSpec keepsRestartingEvents).running = true ∧
    UnitState.Failed ∉
      ((Supervisor.init 0).run keepsRestartingSpec keepsRestartingEvents).published ∧
    ((Supervisor.init 0).run keepsRestartingSpec keepsRestartingEvents).launches = 4 :=
  ⟨by decide,
    (restart_allowed_under_cap keepsRestartingSpec 0 keepsRestartingEvents
      (underCap_of_spaced keepsRestartingSpec 300 (by decide) (by decide)
        keepsRestartingEvents 0 (Supervisor.init 0)
        ⟨rfl, List.pairwise_singleton _ _, by simp [Supervisor.init]⟩ (by decide))).2.2.1,
    (restart_allowed_under_cap keepsRestartingSpec 0 keepsRestartingEvents (by decide)).2.2.2.1,
    by decide⟩

/-! ### The action router -/

/-- Frames that do not complete the waiter of `id` leave the call waiting: the outcome is
the one of the frames that follow, and without any, the expiry of the deadline. -/
theorem await_skip (id : Nat) (pre : List RouterEvent) :
    ∀ (r : Router) (rest : List RouterEvent), (∀ ev ∈ pre, ev.completes id = false) →
      ∃ r2 : Router, r2.nextID = r.nextID ∧
        (∀ w, w ∈ r2.waiters → w ∈ r.waiters) ∧
        r.await id (pre ++ rest) = r2.await id rest := by
  induction pre with
  | nil => exact fun r rest _ => ⟨r, rfl, fun _ h => h, rfl⟩
  | cons ev pre ih =>
    intro r rest hpre
    have hev := hpre ev (List.mem_cons_self ev pre)
    have hrest : ∀ e ∈ pre, e.completes id = false :=
      fun e he => hpre e (List.mem_cons_of_mem ev he)
    cases ev with
    | response j answer =>
      have hj : ¬ j = id := by simpa [RouterEvent.completes] using hev
      obtain ⟨r2, h1, h2, h3⟩ := ih (r.remove j) rest hrest
      refine ⟨r2, h1, fun w hw => (List.mem_filter.mp (h2 w hw)).1, ?_⟩
      simp only [List.cons_append, Router.await, if_neg hj]
      exact h3
    | closed => simp [RouterEvent.completes] at hev
    | expired j =>
      have hj : ¬ j = id := by simpa [RouterEvent.completes] using hev
      obtain ⟨r2, h1, h2, h3⟩ := ih (r.remove j) rest hrest
      refine ⟨r2, h1, fun w hw => (List.mem_filter.mp (h2 w hw)).1, ?_⟩
      simp only [List.cons_append, Router.await, if_neg hj]
      exact h3

theorem not_mem_remove (r : Router) (id : Nat) : id ∉ (r.remove id).waiters := by
  intro h
  have := (List.mem_filter.mp h).2
  simp at this

/-- C15: `PerformAction` with an action name the worker does not define returns a non-nil
error whose message is exactly `action undefined`.  The worker answers a name it does not
define with that error; when the response frame with its answer reaches the router before
the deadline of the call and before the worker dies, whatever frames of other calls come
before it, `PerformAction` returns an error with that message and the waiter is removed. -/
theorem PerformAction_undefined (r : Router) (w : Worker) (name : String)
    (answer : Except String String) (pre post : List RouterEvent)
    (hundef : w.actions.lookup name = none) (hanswer : w.handle name = some answer)
    (hpre : ∀ ev ∈ pre, ev.completes r.nextID = false) :
    ∃ e, (PerformAction r (pre ++ RouterEvent.response r.nextID answer :: post)).1 =
          Except.error e ∧
      e.Error = "action undefined" ∧
      r.nextID ∉
        (PerformAction r (pre ++ RouterEvent.response r.nextID answer :: post)).2.waiters := by
  have hans : answer = Except.error errActionUndefined := by
    simp only [Worker.handle, hundef, Option.some.injEq] at hanswer
    exact hanswer.symm
  subst hans
  obtain ⟨r2, -, -, h3⟩ := await_skip r.nextID pre r.register.2
    (RouterEvent.response r.nextID (Except.error errActionUndefined) :: post) hpre
  have h4 : PerformAction r
      (pre ++ RouterEvent.response r.nextID (Except.error errActionUndefined) :: post) =
        r2.await r.nextID
          (RouterEvent.response r.nextID (Except.error errActionUndefined) :: post) := h3
  rw [h4]
  simp only [Router.await, if_true]
  exact ⟨ActionError.worker errActionUndefined, rfl, rfl, not_mem_remove r2 r.nextID⟩

/-- The scenario of `TestManager_FakeInput_InvalidAction`: the fake worker does not define
`invalid_missing_action`; its response reaches the router after the response of another
call, and `PerformAction` returns the error `action undefined`. -/
theorem invalidAction_scenario :
    fakeWorker.handle "invalid_missing_action" = some (Except.error "action undefined") ∧
      ∃ e, (PerformAction busyRouter
          ([RouterEvent.response 3 (Except.ok "")] ++
            RouterEvent.response busyRouter.nextID (Except.error "action undefined") :: [])).1 =
            Except.error e ∧
        e.Error = "action undefined" ∧
        busyRouter.nextID ∉ (PerformAction busyRouter
          ([RouterEvent.response 3 (Except.ok "")] ++
            RouterEvent.response busyRouter.nextID (Except.error "action undefined") ::
              [])).2.waiters :=
  ⟨rfl, PerformAction_undefined busyRouter fakeWorker "invalid_missing_action"
    (Except.error "action undefined") [RouterEvent.response 3 (Except.ok "")] [] rfl rfl
    (by decide)⟩

/-- While no response for `id` reaches the router, the call ends with the expiry of its
deadline: the error is deadline exceeded, the waiter is removed and none is added. -/
theorem await_deadline (id : Nat) (frames : List RouterEvent) :
    ∀ (r : Router), (∀ ev ∈ frames, ev.answers id = false) →
      (r.await id frames).1 = Except.error ActionError.deadlineExceeded ∧
        id ∉ (r.await id frames).2.waiters ∧
        ∀ w ∈ (r.await id frames).2.waiters, w ∈ r.waiters ∧ w ≠ id := by
  induction frames with
  | nil =>
    intro r _
    simp only [Router.await]
    refine ⟨trivial, not_mem_remove r id, fun w hw => ?_⟩
    have hw2 := List.mem_filter.mp hw
    exact ⟨hw2.1, by simpa using hw2.2⟩
  | cons ev frames ih =>
    intro r hlate
    have hev := hlate ev (List.mem_cons_self ev frames)
    have hrest : ∀ e ∈ frames, e.answers id = false :=
      fun e he => hlate e (List.mem_cons_of_mem ev he)
    cases ev with
    | response j answer =>
      have hj : ¬ j = id := by simpa [RouterEvent.answers] using hev
      simp only [Router.await, if_neg hj]
      obtain ⟨h1, h2, h3⟩ := ih (r.remove j) hrest
      exact ⟨h1, h2, fun w hw => ⟨(List.mem_filter.mp (h3 w hw).1).1, (h3 w hw).2⟩⟩
    | closed =>
      simp only [Router.await]
      exact ih r hrest
    | expired j =>
      simp only [Router.await]
      by_cases hj : j = id
      · rw [if_pos hj]
        refine ⟨rfl, not_mem_remove r id, fun w hw => ?_⟩
        have hw2 := List.mem_filter.mp hw
        exact ⟨hw2.1, by simpa using hw2.2⟩
      · rw [if_neg hj]
        obtain ⟨h1, h2, h3⟩ := ih (r.remove j) hrest
        exact ⟨h1, h2, fun w hw => ⟨(List.mem_filter.mp (h3 w hw).1).1, (h3 w hw).2⟩⟩

/-- C16: `PerformAction` whose deadline expires before the worker answers (for example the
kill action, which ends the worker) returns an error that is deadline exceeded, never a nil
error or a different error, and its waiter is removed.  When no response for the
correlation id of the call reaches the router before the deadline, whatever else does (the
death of the worker, responses and expiries of other calls), the result is the error
`deadline exceeded`, not a result and not another error, the correlation id has no waiter
afterwards and no waiter was added. -/
theorem PerformAction_deadline (r : Router) (frames : List RouterEvent)
    (hlate : ∀ ev ∈ frames, ev.answers r.nextID = false) :
    (PerformAction r frames).1 = Except.error ActionError.deadlineExceeded ∧
      (∀ result, (PerformAction r frames).1 ≠ Except.ok result) ∧
      (∀ e, (PerformAction r frames).1 = Except.error e → e = ActionError.deadlineExceeded) ∧
      r.nextID ∉ (PerformAction r frames).2.waiters ∧
      ∀ w ∈ (PerformAction r frames).2.waiters, w ∈ r.waiters := by
  obtain ⟨h1, h2, h3⟩ := await_deadline r.nextID frames r.register.2 hlate
  have h4 : PerformAction r frames = (r.register.2).await r.nextID frames := rfl
  rw [h4]
  refine ⟨h1, ?_, ?_, h2, ?_⟩
  · intro result hres
    rw [h1] at hres
    cases hres
  · intro e he
    rw [h1] at he
    cases he
    rfl
  · intro w hw
    obtain ⟨hw2, hw3⟩ := h3 w hw
    simp only [Router.register, List.mem_cons] at hw2
    rcases hw2 with hw2 | hw2
    · exact absurd hw2 hw3
    · exact hw2

/-- The scenario of `TestManager_FakeInput_Restarts`: the fake worker never answers `kill`,
which ends it; its death and the response of another call reach the router before the
deadline, and `PerformAction` returns deadline exceeded and leaves only the waiter of the
third call. -/
theorem killAction_scenario :
    fakeWorker.handle "kill" = none ∧
      fakeWorker.frames "kill" busyRouter.nextID = [RouterEvent.closed] ∧
      PerformAction busyRouter
          (fakeWorker.frames "kill" busyRouter.nextID ++
            [RouterEvent.response 3 (Except.ok "")]) =
        (Except.error ActionError.deadlineExceeded, ⟨8, [5]⟩) ∧
      (PerformAction busyRouter [RouterEvent.closed]).1 =
        Except.error ActionError.deadlineExceeded ∧
      (∀ result, (PerformAction busyRouter [RouterEvent.closed]).1 ≠ Except.ok result) ∧
      (∀ e, (PerformAction busyRouter [RouterEvent.closed]).1 = Except.error e →
        e = ActionError.deadlineExceeded) ∧
      busyRouter.nextID ∉ (PerformAction busyRouter [RouterEvent.closed]).2.waiters ∧
      ∀ w ∈ (PerformAction busyRouter [RouterEvent.closed]).2.waiters,
        w ∈ busyRouter.waiters :=
  ⟨rfl, rfl, rfl, PerformAction_deadline busyRouter [RouterEvent.closed] (by decide)⟩

/-! ### The file-system downloader (`DownloadAsc`, `getDropPath`, failures) -/

/-- A `downloadFile` that returns an error returns the empty path. -/
theorem downloadFile_err_path (e : Downloader) (filename fullPath : GoString) (os : OS)
    (err : GoError) (h : (e.downloadFile filename fullPath os).1.2 = some err) :
    (e.downloadFile filename fullPath os).1.1 = [] := by
  unfold Downloader.downloadFile at h ⊢
  simp only at h ⊢
  split
  · rfl
  · rename_i h1
    split
    · rfl
    · rename_i h2
      split
      · rfl
      · rename_i h3
        split
        · rfl
        · rename_i h4
          simp only [h1, h2, h3, h4] at h
          cases h

/-- A `download` that returns an error returns the empty path. -/
theorem download_err_path (A : ArtifactPkg) (e : Downloader) (cfg : Config)
    (operatingSystem : GoString) (a : Artifact) (version extension : GoString) (os : OS)
    (err : GoError) (h : (e.download A cfg operatingSystem a version extension os).1.2 = some err) :
    (e.download A cfg operatingSystem a version extension os).1.1 = [] := by
  cases hn : A.GetArtifactName a version operatingSystem (A.Arch cfg) with
  | error e1 => simp only [Downloader.download, hn]
  | ok filename =>
    cases hp : A.GetArtifactPath a version operatingSystem (A.Arch cfg) cfg.TargetDirectory with
    | error e2 => simp only [Downloader.download, hn, hp]
    | ok fullPath =>
      simp only [Downloader.download, hn, hp] at h ⊢
      by_cases hext : (extension != []) = true
      · rw [if_pos hext] at h ⊢
        exact downloadFile_err_path e _ _ os err h
      · rw [if_neg hext] at h ⊢
        exact downloadFile_err_path e _ _ os err h

/-- C21: `DownloadAsc` returns the path of the copied `<artifact path>.asc` file with a nil
error when the copy succeeds, and the empty string with a non-nil error when anything
fails; it never returns a non-empty path together with an error.  With a non-nil `config`:
when the `download` with the extension `.asc` returns an error, `DownloadAsc` returns the
empty path and that error; when it returns none, `DownloadAsc` returns the artifact path of
`artifact.GetArtifactPath` with `.asc` appended and a nil error, and the file exists there;
and whenever the result carries an error, its path is empty. -/
theorem DownloadAsc_result (A : ArtifactPkg) (e : Downloader) (cfg : Config) (a : Artifact)
    (version : GoString) (os : OS) (hcfg : e.config = some cfg) :
    (∀ err, (e.download A cfg (A.OS cfg) a version (ascii ".asc") os).1.2 = some err →
      ∃ os2, e.DownloadAsc A a version os = some (([], some err), os2)) ∧
    ((e.download A cfg (A.OS cfg) a version (ascii ".asc") os).1.2 = none →
      ∃ fullPath os2,
        A.GetArtifactPath a version (A.OS cfg) (A.Arch cfg) cfg.TargetDirectory =
          Except.ok fullPath ∧
        e.DownloadAsc A a version os = some ((fullPath ++ ascii ".asc", none), os2) ∧
        fileExists os2 (fullPath ++ ascii ".asc") = true) ∧
    (∀ p err os2, e.DownloadAsc A a version os = some ((p, some err), os2) → p = []) := by
  refine ⟨?_, ?_, ?_⟩
  · intro err herr
    simp only [Downloader.DownloadAsc, hcfg, herr]
    exact ⟨_, rfl⟩
  · intro hok
    obtain ⟨filename, fullPath, -, hpath, hd⟩ :=
      download_ok A e cfg _ a version (ascii ".asc") os hok
    have hf := hd ▸ hok
    obtain ⟨hr, hex, -⟩ := downloadFile_ok e _ _ os hf
    refine ⟨fullPath, (e.download A cfg (A.OS cfg) a version (ascii ".asc") os).2, hpath, ?_, ?_⟩
    · simp only [Downloader.DownloadAsc, hcfg, hok]
      rw [hd, hr]
    · rw [hd]
      exact hex
  · intro p err os2 h
    simp only [Downloader.DownloadAsc, hcfg] at h
    split at h
    · simp only [Option.some.injEq, Prod.mk.injEq] at h
      exact h.1.1.symm
    · simp at h

/-- C21 on the sample systems: with the `.asc` file in the drop path `DownloadAsc` returns
its copy under `/opt/agent/target` and no error; without it, the empty path and the error
of the missing package. -/
theorem DownloadAsc_samples :
    (Downloader.DownloadAsc sampleArtifactPkg sampleDownloader sampleArtifact (ascii "8.6.0")
        ascOS).map (fun r => r.1) =
      some (ascii "/opt/agent/target/filebeat-8.6.0-linux-x86_64.tar.gz.asc", none) ∧
    (Downloader.DownloadAsc sampleArtifactPkg sampleDownloader sampleArtifact (ascii "8.6.0")
        (dropOS noFault)).map (fun r => r.1) =
      some ([], some (GoError.wrapped (GoError.os OSError.notExist)
        (ascii "package '/drop/filebeat-8.6.0-linux-x86_64.tar.gz.asc' not found")
        (some (ascii "/opt/agent/target/filebeat-8.6.0-linux-x86_64.tar.gz.asc")))) ∧
    ∀ p err os2,
      Downloader.DownloadAsc sampleArtifactPkg sampleDownloader sampleArtifact (ascii "8.6.0")
        (dropOS noFault) = some ((p, some err), os2) → p = [] :=
  ⟨by decide!, by decide!,
    (DownloadAsc_result sampleArtifactPkg sampleDownloader sampleConfig sampleArtifact
      (ascii "8.6.0") (dropOS noFault) rfl).2.2⟩

/-- C22: `getDropPath` returns the configured `DropPath` exactly when the config is non-nil,
`DropPath` is non-empty and it names an existing directory; for a nil config, an empty
`DropPath`, a path that does not exist and a path that is not a directory it returns the
default downloads directory `paths.Downloads()`.  The result is the `DropPath` when
`os.Stat` of the non-empty `DropPath` reports a directory, and `paths.Downloads()` in every
other case; unless the call is made to fail, `os.Stat` reports what the path names, and its
error for a path that names nothing is that it does not exist.  `NewDownloader` keeps the
result as the drop path of the downloader. -/
theorem getDropPath_spec (A : ArtifactPkg) (cfg : Option Config) (os : OS) :
    (∀ c fi, cfg = some c → c.DropPath ≠ [] → (Stat os c.DropPath).1 = (some fi, none) →
      fi.kind = FileKind.dir → (getDropPath A cfg os).1 = c.DropPath) ∧
    (cfg = none → (getDropPath A cfg os).1 = A.Downloads) ∧
    (∀ c, cfg = some c → c.DropPath = [] → (getDropPath A cfg os).1 = A.Downloads) ∧
    (∀ c err, cfg = some c → (Stat os c.DropPath).1.2 = some err →
      (getDropPath A cfg os).1 = A.Downloads) ∧
    (∀ c fi, cfg = some c → (Stat os c.DropPath).1.1 = some fi → fi.kind ≠ FileKind.dir →
      (getDropPath A cfg os).1 = A.Downloads) ∧
    (∀ path, os.fault Op.stat path = none →
      (Stat os path).1 = (os.files.lookup path,
        if (os.files.lookup path).isSome then none else some OSError.notExist)) ∧
    (NewDownloader A cfg os).1 = ⟨(getDropPath A cfg os).1, cfg⟩ := by
  refine ⟨?_, ?_, ?_, ?_, ?_, ?_, rfl⟩
  · intro c fi hc hne hst hdir
    subst hc
    simp only [getDropPath, if_neg hne, hst, if_pos hdir]
  · intro hc
    subst hc
    rfl
  · intro c hc hnil
    subst hc
    simp only [getDropPath, if_pos hnil]
  · intro c err hc hst
    subst hc
    simp only [getDropPath]
    split
    · rfl
    · split
      · rename_i stat heq
        rw [heq] at hst
        cases hst
      · rfl
  · intro c fi hc hst hkind
    subst hc
    simp only [getDropPath]
    split
    · rfl
    · split
      · rename_i stat heq
        rw [heq] at hst
        simp only [Option.some.injEq] at hst
        subst hst
        rw [if_neg hkind]
      · rfl
  · intro path hfault
    simp only [Stat, hfault]
    cases os.files.lookup path <;> rfl

/-- C22 on the sample system: `/drop` is a directory and is kept; a missing path, a regular
file, an empty drop path and a nil config give `/opt/agent/downloads`. -/
theorem getDropPath_samples :
    (getDropPath sampleArtifactPkg (some sampleConfig) (dropOS noFault)).1 = ascii "/drop" ∧
    (getDropPath sampleArtifactPkg (some { sampleConfig with DropPath := ascii "/missing" })
      (dropOS noFault)).1 = ascii "/opt/agent/downloads" ∧
    (getDropPath sampleArtifactPkg
      (some { sampleConfig with
        DropPath := ascii "/drop/filebeat-8.6.0-linux-x86_64.tar.gz" })
      (dropOS noFault)).1 = ascii "/opt/agent/downloads" ∧
    (getDropPath sampleArtifactPkg (some { sampleConfig with DropPath := [] })
      (dropOS noFault)).1 = ascii "/opt/agent/downloads" ∧
    (getDropPath sampleArtifactPkg none (dropOS noFault)).1 = ascii "/opt/agent/downloads" := by
  decide!

/-- C25: when the source file `dropPath/filename` cannot be opened, `downloadFile` returns
the empty path and a `package '<source path>' not found` error without creating the
destination directory and without creating, truncating or modifying the destination file:
the files and their contents are as before and the only system call made is the failed
`os.Open` of the source path. -/
theorem downloadFile_not_found (e : Downloader) (filename fullPath : GoString) (os : OS)
    (err : OSError) (hopen : (Open os (Join [e.dropPath, filename])).1 = some err) :
    (e.downloadFile filename fullPath os).1 =
        ([], some (GoError.wrapped (GoError.os err)
          (ascii "package '" ++ Join [e.dropPath, filename] ++ ascii "' not found")
          (some fullPath))) ∧
      (e.downloadFile filename fullPath os).2.files = os.files ∧
      (e.downloadFile filename fullPath os).2.contents = os.contents ∧
      callsOf os (e.downloadFile filename fullPath os).2 =
        [⟨Op.open, Join [e.dropPath, filename], some err⟩] := by
  have hstate : (Open os (Join [e.dropPath, filename])).2 =
      os.record Op.open (Join [e.dropPath, filename]) (some err) := by
    unfold Open at hopen ⊢
    split
    · rename_i e2 hf
      simp only [hf, Option.some.injEq] at hopen
      rw [hopen]
    · rename_i hf
      simp only [hf] at hopen
      split
      · rename_i hl
        simp only [hl, Option.some.injEq] at hopen
        rw [hopen]
      · rename_i fi hl
        simp [hl] at hopen
  simp only [Downloader.downloadFile, hopen, hstate]
  refine ⟨?_, ?_, ?_, ?_⟩
  · trivial
  · rfl
  · rfl
  · simp [callsOf, OS.record]

/-- C25 on the sample system: the drop path holds no `.asc` file; `downloadFile` returns the
empty path and the `not found` error, and the target directory is not created. -/
theorem downloadFile_not_found_sample :
    (sampleDownloader.downloadFile (ascii "filebeat.asc") (ascii "/opt/agent/target/filebeat.asc")
        (dropOS noFault)).1 =
      ([], some (GoError.wrapped (GoError.os OSError.notExist)
        (ascii "package '" ++ Join [sampleDownloader.dropPath, ascii "filebeat.asc"] ++
          ascii "' not found")
        (some (ascii "/opt/agent/target/filebeat.asc")))) ∧
    (sampleDownloader.downloadFile (ascii "filebeat.asc") (ascii "/opt/agent/target/filebeat.asc")
        (dropOS noFault)).2.files = (dropOS noFault).files ∧
    (sampleDownloader.downloadFile (ascii "filebeat.asc") (ascii "/opt/agent/target/filebeat.asc")
        (dropOS noFault)).2.contents = (dropOS noFault).contents ∧
    callsOf (dropOS noFault)
        (sampleDownloader.downloadFile (ascii "filebeat.asc")
          (ascii "/opt/agent/target/filebeat.asc") (dropOS noFault)).2 =
      [⟨Op.open, Join [sampleDownloader.dropPath, ascii "filebeat.asc"],
        some OSError.notExist⟩] :=
  downloadFile_not_found sampleDownloader (ascii "filebeat.asc")
    (ascii "/opt/agent/target/filebeat.asc") (dropOS noFault) OSError.notExist (by decide!)

/-- C23, evaluated where it fails: `Download` returns an error and leaves a file it created
in the target directory.  When the drop path holds a directory under the name of the
`.sha512` file, `os.Open` succeeds, the destination `.sha512` file is created and `io.Copy`
fails; on a full disk the package file is created and `io.Copy` fails.  In both runs the
failed `download` returns the empty path, so the deferred clean-up calls `os.Remove("")` and
the created file stays. -/
theorem Download_error_leaves_file :
    fileExists hashDirOS (ascii "/opt/agent/target/filebeat-8.6.0-linux-x86_64.tar.gz.sha512")
      = false ∧
    (Downloader.Download sampleArtifactPkg sampleDownloader sampleArtifact (ascii "8.6.0")
        hashDirOS).map (fun r => (r.1.2,
          fileExists r.2 (ascii "/opt/agent/target/filebeat-8.6.0-linux-x86_64.tar.gz.sha512"),
          (callsOf hashDirOS r.2).filter (fun c => c.op == Op.remove))) =
      some (some (GoError.os (OSError.other (ascii "is a directory"))), true,
        [⟨Op.remove, ascii "/opt/agent/target/filebeat-8.6.0-linux-x86_64.tar.gz", none⟩,
          ⟨Op.remove, [], some OSError.notExist⟩]) ∧
    fileExists diskFullOS (ascii "/opt/agent/target/filebeat-8.6.0-linux-x86_64.tar.gz")
      = false ∧
    (Downloader.Download sampleArtifactPkg sampleDownloader sampleArtifact (ascii "8.6.0")
        diskFullOS).map (fun r => (r.1,
          fileExists r.2 (ascii "/opt/agent/target/filebeat-8.6.0-linux-x86_64.tar.gz"),
          (callsOf diskFullOS r.2).filter (fun c => c.op == Op.remove))) =
      some (([], some (GoError.os (OSError.other (ascii "no space left on device")))), true,
        [⟨Op.remove, [], some OSError.notExist⟩]) := by
  decide!

/-- C24, evaluated where it fails: the drop path holds the package but no `.sha512` file.
The package is copied, the `download` of the `.sha512` file fails, and `Download` returns
that error together with the non-empty path of the package, which the deferred clean-up has
removed by then. -/
theorem Download_error_returns_path :
    (Downloader.Download sampleArtifactPkg sampleDownloader sampleArtifact (ascii "8.6.0")
        noHashOS).map (fun r => (r.1,
          fileExists r.2 (ascii "/opt/agent/target/filebeat-8.6.0-linux-x86_64.tar.gz"))) =
      some ((ascii "/opt/agent/target/filebeat-8.6.0-linux-x86_64.tar.gz",
        some (GoError.wrapped (GoError.os OSError.notExist)
          (ascii "package '/drop/filebeat-8.6.0-linux-x86_64.tar.gz.sha512' not found")
          (some (ascii "/opt/agent/target/filebeat-8.6.0-linux-x86_64.tar.gz.sha512")))),
        false) := by
  decide!

/-! ### `signalState` -/

theorem isValidState_iff (state : UnitState) (acceptableStates : List UnitState) :
    isValidState state acceptableStates = true ↔ state ∈ acceptableStates := by
  induction acceptableStates with
  | nil => simp [isValidState]
  | cons s rest ih =>
    unfold isValidState
    by_cases hs : s = state
    · simp [hs]
    · rw [if_neg hs, ih]
      simp [Ne.symm hs]

/-- The loop adds one issue per invalid unit and counts the healthy units. -/
theorem signalLoop_spec (fmtState : UnitState → String) (acceptableStates : List UnitState)
    (units : List (ComponentUnitKey × ComponentUnitState)) :
    ∀ acc : List String × Nat,
      (signalLoop fmtState acceptableStates units acc).1.length =
          acc.1.length + units.countP (invalidUnit acceptableStates) ∧
        (signalLoop fmtState acceptableStates units acc).2 =
          acc.2 + units.countP (healthyUnit acceptableStates) := by
  induction units with
  | nil => exact fun acc => ⟨rfl, rfl⟩
  | cons p rest ih =>
    intro acc
    obtain ⟨key, unit⟩ := p
    obtain ⟨issues, healthy⟩ := acc
    unfold signalLoop
    by_cases hst : unit.State = UnitState.Starting
    · rw [if_pos hst]
      obtain ⟨h1, h2⟩ := ih (issues, healthy)
      rw [h1, h2]
      simp [List.countP_cons, invalidUnit, healthyUnit, hst]
    · rw [if_neg hst]
      by_cases hv : isValidState unit.State acceptableStates = true
      · rw [if_pos hv]
        obtain ⟨h1, h2⟩ := ih (issues, healthy + 1)
        rw [h1, h2]
        simp only [List.countP_cons, invalidUnit, healthyUnit, hv]
        simp [hst]
        omega
      · rw [if_neg hv]
        have hv2 : isValidState unit.State acceptableStates = false := by simpa using hv
        obtain ⟨h1, h2⟩ := ih
          (issues ++ ["unit " ++ key.UnitID ++ " in invalid state " ++ fmtState unit.State],
            healthy)
        rw [h1, h2]
        simp only [List.countP_cons, invalidUnit, healthyUnit, hv2]
        simp [hst]
        omega

theorem invalidUnit_iff (acceptableStates : List UnitState)
    (p : ComponentUnitKey × ComponentUnitState) :
    invalidUnit acceptableStates p = true ↔
      p.2.State ≠ UnitState.Starting ∧ p.2.State ∉ acceptableStates := by
  simp [invalidUnit, ← isValidState_iff]

theorem healthyUnit_iff (acceptableStates : List UnitState)
    (p : ComponentUnitKey × ComponentUnitState) :
    healthyUnit acceptableStates p = true ↔
      p.2.State ≠ UnitState.Starting ∧ p.2.State ∈ acceptableStates := by
  simp [healthyUnit, ← isValidState_iff]

/-- What `signalState` sends for a component that is not Failed: the error of the issues
when a unit is invalid, else `nil` when every unit is healthy, else nothing. -/
theorem signalState_cases (fmtState : UnitState → String) (state : ComponentState)
    (acceptableStates : List UnitState) (hnf : state.State ≠ UnitState.Failed) :
    ((∃ p ∈ state.Units, invalidUnit acceptableStates p = true) ∧
        ∃ msg, signalState fmtState state acceptableStates = [some msg]) ∨
      ((∀ p ∈ state.Units, healthyUnit acceptableStates p = true) ∧
        signalState fmtState state acceptableStates = [none]) ∨
      ((∀ p ∈ state.Units, invalidUnit acceptableStates p = false) ∧
        (∃ p ∈ state.Units, healthyUnit acceptableStates p = false) ∧
        signalState fmtState state acceptableStates = []) := by
  obtain ⟨hN, hH⟩ := signalLoop_spec fmtState acceptableStates state.Units ([], 0)
  simp only [List.length_nil, Nat.zero_add] at hN hH
  unfold signalState
  rw [if_neg hnf]
  simp only [hN, hH]
  by_cases hinv : ∃ p ∈ state.Units, invalidUnit acceptableStates p = true
  · left
    refine ⟨hinv, ?_⟩
    have hpos : List.countP (invalidUnit acceptableStates) state.Units ≠ 0 := by
      have := List.countP_pos_iff.mpr hinv
      omega
    have hnot : ¬ List.countP (healthyUnit acceptableStates) state.Units = state.Units.length := by
      intro hall
      obtain ⟨p, hp, hpi⟩ := hinv
      have hh := List.countP_eq_length.mp hall p hp
      simp only [invalidUnit, healthyUnit, Bool.and_eq_true, Bool.not_eq_true',
        decide_eq_true_eq] at hpi hh
      rw [hh.2] at hpi
      exact absurd hpi.2 (by decide)
    rw [if_pos hpos, if_neg hnot]
    exact ⟨_, rfl⟩
  · right
    have hzero : ¬ List.countP (invalidUnit acceptableStates) state.Units ≠ 0 := by
      intro hne
      exact hinv (List.countP_pos_iff.mp (Nat.pos_of_ne_zero hne))
    have hnone : ∀ p ∈ state.Units, invalidUnit acceptableStates p = false := by
      intro p hp
      cases hc : invalidUnit acceptableStates p
      · rfl
      · exact absurd ⟨p, hp, hc⟩ hinv
    rw [if_neg hzero]
    by_cases hall : List.countP (healthyUnit acceptableStates) state.Units = state.Units.length
    · left
      rw [if_pos hall]
      exact ⟨List.countP_eq_length.mp hall, rfl⟩
    · right
      rw [if_neg hall]
      refine ⟨hnone, ?_, rfl⟩
      by_contra hno
      apply hall
      apply List.countP_eq_length.mpr
      intro p hp
      cases hc : healthyUnit acceptableStates p
      · exact absurd ⟨p, hp, hc⟩ hno
      · rfl

/-- C26: `signalState` sends at most one value on the channel per call: an error when the
component is Failed or when some unit is in a state that is neither Starting nor
acceptable; `nil` exactly when the component is not Failed and every unit is in an
acceptable state other than Starting (including when there are no units); and nothing when
no unit is invalid but some unit is Starting. -/
theorem signalState_sends (fmtState : UnitState → String) (state : ComponentState)
    (acceptableStates : List UnitState) :
    (signalState fmtState state acceptableStates).length ≤ 1 ∧
    ((∃ msg, signalState fmtState state acceptableStates = [some msg]) ↔
      (state.State = UnitState.Failed ∨ ∃ p ∈ state.Units,
        p.2.State ≠ UnitState.Starting ∧ p.2.State ∉ acceptableStates)) ∧
    (signalState fmtState state acceptableStates = [none] ↔
      (state.State ≠ UnitState.Failed ∧ ∀ p ∈ state.Units,
        p.2.State ≠ UnitState.Starting ∧ p.2.State ∈ acceptableStates)) ∧
    (signalState fmtState state acceptableStates = [] ↔
      (state.State ≠ UnitState.Failed ∧
        (∀ p ∈ state.Units,
          p.2.State = UnitState.Starting ∨ p.2.State ∈ acceptableStates) ∧
        ∃ p ∈ state.Units, p.2.State = UnitState.Starting)) := by
  by_cases hf : state.State = UnitState.Failed
  · have hres : signalState fmtState state acceptableStates =
        [some ("component failed: " ++ state.Message)] := by
      unfold signalState
      rw [if_pos hf]
    rw [hres]
    simp [hf]
  · rcases signalState_cases fmtState state acceptableStates hf with
      ⟨⟨p, hp, hpi⟩, msg, hres⟩ | ⟨hall, hres⟩ | ⟨hnone, ⟨q, hq, hqh⟩, hres⟩
    · rw [hres]
      have hpi2 := (invalidUnit_iff acceptableStates p).mp hpi
      refine ⟨by simp, ?_, ?_, ?_⟩
      · exact ⟨fun _ => Or.inr ⟨p, hp, hpi2⟩, fun _ => ⟨msg, rfl⟩⟩
      · refine ⟨fun h => by simp at h, fun h => ?_⟩
        exact absurd (h.2 p hp).2 hpi2.2
      · refine ⟨fun h => by simp at h, fun h => ?_⟩
        rcases h.2.1 p hp with h1 | h1
        · exact absurd h1 hpi2.1
        · exact absurd h1 hpi2.2
    · rw [hres]
      have hall2 : ∀ p ∈ state.Units,
          p.2.State ≠ UnitState.Starting ∧ p.2.State ∈ acceptableStates :=
        fun p hp => (healthyUnit_iff acceptableStates p).mp (hall p hp)
      refine ⟨by simp, ?_, ?_, ?_⟩
      · refine ⟨fun h => by simp at h, fun h => ?_⟩
        rcases h with h | ⟨p, hp, -, h2⟩
        · exact absurd h hf
        · exact absurd (hall2 p hp).2 h2
      · exact ⟨fun _ => ⟨hf, hall2⟩, fun _ => rfl⟩
      · refine ⟨fun h => by simp at h, fun h => ?_⟩
        obtain ⟨p, hp, hps⟩ := h.2.2
        exact absurd hps (hall2 p hp).1
    · rw [hres]
      have hnone2 : ∀ p ∈ state.Units,
          p.2.State = UnitState.Starting ∨ p.2.State ∈ acceptableStates := by
        intro p hp
        have h1 := hnone p hp
        by_cases hs : p.2.State = UnitState.Starting
        · exact Or.inl hs
        · right
          by_contra hm
          have := (invalidUnit_iff acceptableStates p).mpr ⟨hs, hm⟩
          rw [h1] at this
          cases this
      have hqs : q.2.State = UnitState.Starting := by
        rcases hnone2 q hq with h1 | h1
        · exact h1
        · by_contra hs
          have := (healthyUnit_iff acceptableStates q).mpr ⟨hs, h1⟩
          rw [hqh] at this
          cases this
      refine ⟨by simp, ?_, ?_, ?_⟩
      · refine ⟨fun h => by simp at h, fun h => ?_⟩
        rcases h with h | ⟨p, hp, h1, h2⟩
        · exact absurd h hf
        · rcases hnone2 p hp with h3 | h3
          · exact absurd h3 h1
          · exact absurd h3 h2
      · refine ⟨fun h => by simp at h, fun h => ?_⟩
        exact absurd hqs (h.2 q hq).1
      · exact ⟨fun _ => ⟨hf, hnone2, q, hq, hqs⟩, fun _ => rfl⟩

/-- C26 on sample states, with Healthy and Configuring acceptable: a Failed component and a
Degraded unit send an error, healthy units and no units send `nil`, and a Starting unit
sends nothing. -/
theorem signalState_samples :
    signalState sampleFmtState ⟨UnitState.Failed, "boom", []⟩
        [UnitState.Healthy, UnitState.Configuring] = [some "component failed: boom"] ∧
    signalState sampleFmtState ⟨UnitState.Healthy, "Healthy",
        [(⟨UnitType.Input, "a"⟩, ⟨UnitState.Healthy, ""⟩),
          (⟨UnitType.Input, "b"⟩, ⟨UnitState.Degraded, ""⟩),
          (⟨UnitType.Input, "c"⟩, ⟨UnitState.Stopped, ""⟩)]⟩
        [UnitState.Healthy, UnitState.Configuring] =
      [some "unit b in invalid state DEGRADED| unit c in invalid state STOPPED"] ∧
    signalState sampleFmtState ⟨UnitState.Healthy, "Healthy",
        [(⟨UnitType.Input, "a"⟩, ⟨UnitState.Healthy, ""⟩),
          (⟨UnitType.Input, "b"⟩, ⟨UnitState.Configuring, ""⟩)]⟩
        [UnitState.Healthy, UnitState.Configuring] = [none] ∧
    signalState sampleFmtState ⟨UnitState.Healthy, "Healthy", []⟩
        [UnitState.Healthy, UnitState.Configuring] = [none] ∧
    signalState sampleFmtState ⟨UnitState.Starting, "Starting",
        [(⟨UnitType.Input, "a"⟩, ⟨UnitState.Healthy, ""⟩),
          (⟨UnitType.Input, "b"⟩, ⟨UnitState.Starting, ""⟩)]⟩
        [UnitState.Healthy, UnitState.Starting] = [] := by
  decide

/-! ### `cleanString` -/

/-- The second byte of an accepted form is a continuation byte within its range. -/
theorem accepts_spec (s0 s1 : Nat) (h : accepts s0 s1 = true) :
    0x80 ≤ s1 ∧ s1 ≤ 0xBF ∧ (s0 = 0xE0 → 0xA0 ≤ s1) ∧ (s0 = 0xED → s1 ≤ 0x9F) ∧
      (s0 = 0xF0 → 0x90 ≤ s1) ∧ (s0 = 0xF4 → s1 ≤ 0x8F) := by
  unfold accepts at h
  split at h
  · simp only [decide_eq_true_eq] at h
    omega
  · split at h
    · simp only [decide_eq_true_eq] at h
      omega
    · split at h
      · simp only [decide_eq_true_eq] at h
        omega
      · split at h
        · simp only [decide_eq_true_eq] at h
          omega
        · simp only [decide_eq_true_eq] at h
          omega

/-- An ASCII byte is decoded as a rune of its own. -/
theorem decode_ascii (s0 : Nat) (rest : GoString) (h : s0 < 0x80) :
    DecodeRuneInString (s0 :: rest) = (s0, 1) := by
  simp [DecodeRuneInString, RuneSelf, h]

theorem decode2_high (s0 : Nat) (rest : GoString) (h0 : 0xC2 ≤ s0) (h1 : s0 < 0xE0) :
    0x80 ≤ (decode2 s0 rest).1 ∧ 1 ≤ (decode2 s0 rest).2 ∧
      ∀ x ∈ rest.take ((decode2 s0 rest).2 - 1), 0x80 ≤ x := by
  cases rest with
  | nil => simp [decode2, RuneError]
  | cons s1 rest1 =>
    simp only [decode2]
    split
    · rename_i hacc
      have := accepts_spec s0 s1 hacc
      refine ⟨by simp only; omega, by simp, ?_⟩
      intro x hx
      simp only [Nat.add_one_sub_one, List.take_succ_cons, List.take_zero, List.mem_singleton] at hx
      omega
    · simp [RuneError]

theorem decode3_high (s0 : Nat) (rest : GoString) (h0 : 0xE0 ≤ s0) (h1 : s0 < 0xF0) :
    0x80 ≤ (decode3 s0 rest).1 ∧ 1 ≤ (decode3 s0 rest).2 ∧
      ∀ x ∈ rest.take ((decode3 s0 rest).2 - 1), 0x80 ≤ x := by
  unfold decode3
  split
  · rename_i s1 s2 rest2
    by_cases hacc : accepts s0 s1 = true
    · by_cases hc : isContinuation s2 = true
      · have ha := accepts_spec s0 s1 hacc
        have hc2 : 0x80 ≤ s2 ∧ s2 ≤ 0xBF := by simpa [isContinuation] using hc
        simp only [hacc, hc, Bool.not_true, Bool.false_eq_true, if_false]
        refine ⟨by omega, by omega, ?_⟩
        intro x hx
        simp only [Nat.add_one_sub_one, List.take_succ_cons, List.take_zero, List.mem_cons,
          List.mem_singleton, List.not_mem_nil, or_false] at hx
        omega
      · simp [hacc, hc, RuneError]
    · simp [hacc, RuneError]
  · simp [RuneError]

theorem decode4_high (s0 : Nat) (rest : GoString) (h0 : 0xF0 ≤ s0) (h1 : s0 < 0xF5) :
    0x80 ≤ (decode4 s0 rest).1 ∧ 1 ≤ (decode4 s0 rest).2 ∧
      ∀ x ∈ rest.take ((decode4 s0 rest).2 - 1), 0x80 ≤ x := by
  unfold decode4
  split
  · rename_i s1 s2 s3 rest3
    by_cases hacc : accepts s0 s1 = true
    · by_cases hc : isContinuation s2 = true
      · by_cases hd : isContinuation s3 = true
        · have ha := accepts_spec s0 s1 hacc
          have hc2 : 0x80 ≤ s2 ∧ s2 ≤ 0xBF := by simpa [isContinuation] using hc
          have hd2 : 0x80 ≤ s3 ∧ s3 ≤ 0xBF := by simpa [isContinuation] using hd
          simp only [hacc, hc, hd, Bool.not_true, Bool.false_eq_true, if_false]
          refine ⟨by omega, by omega, ?_⟩
          intro x hx
          simp only [Nat.add_one_sub_one, List.take_succ_cons, List.take_zero, List.mem_cons,
            List.mem_singleton, List.not_mem_nil, or_false] at hx
          omega
        · simp [hacc, hc, hd, RuneError]
      · simp [hacc, hc, RuneError]
    · simp [hacc, RuneError]
  · simp [RuneError]

/-- A byte that is not ASCII starts a rune that is not ASCII, and the bytes the rune takes
after it are not ASCII either. -/
theorem decode_high (s0 : Nat) (rest : GoString) (h : 0x80 ≤ s0) :
    0x80 ≤ (DecodeRuneInString (s0 :: rest)).1 ∧ 1 ≤ (DecodeRuneInString (s0 :: rest)).2 ∧
      ∀ x ∈ rest.take ((DecodeRuneInString (s0 :: rest)).2 - 1), 0x80 ≤ x := by
  have h0 : ¬ s0 < RuneSelf := by
    simp only [RuneSelf]
    omega
  simp only [DecodeRuneInString]
  rw [if_neg h0]
  by_cases h1 : s0 < 0xC2
  · rw [if_pos h1]
    simp [RuneError]
  · rw [if_neg h1]
    by_cases h2 : s0 < 0xE0
    · rw [if_pos h2]
      exact decode2_high s0 rest (by omega) h2
    · rw [if_neg h2]
      by_cases h3 : s0 < 0xF0
      · rw [if_pos h3]
        exact decode3_high s0 rest (by omega) h3
      · rw [if_neg h3]
        by_cases h4 : s0 < 0xF5
        · rw [if_pos h4]
          exact decode4_high s0 rest (by omega) h4
        · rw [if_neg h4]
          simp [RuneError]

/-- An ASCII byte in the encoding of a rune is the rune. -/
theorem encode_ascii (r b : Nat) (hb : b ∈ EncodeRune r) (h : b < 0x80) : b = r := by
  unfold EncodeRune at hb
  split at hb
  · simpa using hb
  · split at hb
    · simp only [List.mem_cons, List.mem_singleton, List.not_mem_nil, or_false] at hb
      omega
    · split at hb
      · simp only [List.mem_cons, List.mem_singleton, List.not_mem_nil, or_false] at hb
        omega
      · split at hb
        · simp only [List.mem_cons, List.mem_singleton, List.not_mem_nil, or_false] at hb
          omega
        · simp only [List.mem_cons, List.mem_singleton, List.not_mem_nil, or_false] at hb
          omega

theorem decode2_encode (s0 : Nat) (rest : GoString) (h0 : 0xC2 ≤ s0) (h1 : s0 < 0xE0) :
    (decode2 s0 rest).2 = 1 ∨
      EncodeRune (decode2 s0 rest).1 = (s0 :: rest).take (decode2 s0 rest).2 := by
  cases rest with
  | nil => exact Or.inl rfl
  | cons s1 rest1 =>
    simp only [decode2]
    split
    · rename_i hacc
      have ha := accepts_spec s0 s1 hacc
      right
      have hr1 : ¬ s0 % 32 * 64 + s1 % 64 < RuneSelf := by
        simp only [RuneSelf]
        omega
      have hr2 : s0 % 32 * 64 + s1 % 64 ≤ 0x7FF := by omega
      have e1 : 0xC0 + (s0 % 32 * 64 + s1 % 64) / 64 = s0 := by omega
      have e2 : 0x80 + (s0 % 32 * 64 + s1 % 64) % 64 = s1 := by omega
      simp only [EncodeRune, if_neg hr1, if_pos hr2, e1, e2]
      rfl
    · exact Or.inl rfl

theorem decode3_encode (s0 : Nat) (rest : GoString) (h0 : 0xE0 ≤ s0) (h1 : s0 < 0xF0) :
    (decode3 s0 rest).2 = 1 ∨
      EncodeRune (decode3 s0 rest).1 = (s0 :: rest).take (decode3 s0 rest).2 := by
  unfold decode3
  split
  · rename_i s1 s2 rest2
    by_cases hacc : accepts s0 s1 = true
    · by_cases hc : isContinuation s2 = true
      · have ha := accepts_spec s0 s1 hacc
        have hc2 : 0x80 ≤ s2 ∧ s2 ≤ 0xBF := by simpa [isContinuation] using hc
        simp only [hacc, hc, Bool.not_true, Bool.false_eq_true, if_false]
        right
        have hr1 : ¬ s0 % 16 * 4096 + s1 % 64 * 64 + s2 % 64 < RuneSelf := by
          simp only [RuneSelf]
          omega
        have hr2 : ¬ s0 % 16 * 4096 + s1 % 64 * 64 + s2 % 64 ≤ 0x7FF := by omega
        have hr3 : ¬ (0x10FFFF < s0 % 16 * 4096 + s1 % 64 * 64 + s2 % 64 ∨
            (0xD800 ≤ s0 % 16 * 4096 + s1 % 64 * 64 + s2 % 64 ∧
              s0 % 16 * 4096 + s1 % 64 * 64 + s2 % 64 ≤ 0xDFFF)) := by omega
        have hr4 : s0 % 16 * 4096 + s1 % 64 * 64 + s2 % 64 ≤ 0xFFFF := by omega
        have e1 : 0xE0 + (s0 % 16 * 4096 + s1 % 64 * 64 + s2 % 64) / 4096 = s0 := by omega
        have e2 : 0x80 + (s0 % 16 * 4096 + s1 % 64 * 64 + s2 % 64) / 64 % 64 = s1 := by omega
        have e3 : 0x80 + (s0 % 16 * 4096 + s1 % 64 * 64 + s2 % 64) % 64 = s2 := by omega
        simp only [EncodeRune, if_neg hr1, if_neg hr2, if_neg hr3, if_pos hr4, e1, e2, e3]
        rfl
      · left
        simp [hacc, hc]
    · left
      simp [hacc]
  · exact Or.inl rfl

theorem decode4_encode (s0 : Nat) (rest : GoString) (h0 : 0xF0 ≤ s0) (h1 : s0 < 0xF5) :
    (decode4 s0 rest).2 = 1 ∨
      EncodeRune (decode4 s0 rest).1 = (s0 :: rest).take (decode4 s0 rest).2 := by
  unfold decode4
  split
  · rename_i s1 s2 s3 rest3
    by_cases hacc : accepts s0 s1 = true
    · by_cases hc : isContinuation s2 = true
      · by_cases hd : isContinuation s3 = true
        · have ha := accepts_spec s0 s1 hacc
          have hc2 : 0x80 ≤ s2 ∧ s2 ≤ 0xBF := by simpa [isContinuation] using hc
          have hd2 : 0x80 ≤ s3 ∧ s3 ≤ 0xBF := by simpa [isContinuation] using hd
          simp only [hacc, hc, hd, Bool.not_true, Bool.false_eq_true, if_false]
          right
          have hr1 : ¬ s0 % 8 * 262144 + s1 % 64 * 4096 + s2 % 64 * 64 + s3 % 64 < RuneSelf := by
            simp only [RuneSelf]
            omega
          have hr2 : ¬ s0 % 8 * 262144 + s1 % 64 * 4096 + s2 % 64 * 64 + s3 % 64 ≤ 0x7FF := by
            omega
          have hr3 : ¬ (0x10FFFF < s0 % 8 * 262144 + s1 % 64 * 4096 + s2 % 64 * 64 + s3 % 64 ∨
              (0xD800 ≤ s0 % 8 * 262144 + s1 % 64 * 4096 + s2 % 64 * 64 + s3 % 64 ∧
                s0 % 8 * 262144 + s1 % 64 * 4096 + s2 % 64 * 64 + s3 % 64 ≤ 0xDFFF)) := by
            omega
          have hr4 : ¬ s0 % 8 * 262144 + s1 % 64 * 4096 + s2 % 64 * 64 + s3 % 64 ≤ 0xFFFF := by
            omega
          have e1 : 0xF0 + (s0 % 8 * 262144 + s1 % 64 * 4096 + s2 % 64 * 64 + s3 % 64) / 262144
              = s0 := by omega
          have e2 : 0x80 + (s0 % 8 * 262144 + s1 % 64 * 4096 + s2 % 64 * 64 + s3 % 64) / 4096 % 64
              = s1 := by omega
          have e3 : 0x80 + (s0 % 8 * 262144 + s1 % 64 * 4096 + s2 % 64 * 64 + s3 % 64) / 64 % 64
              = s2 := by omega
          have e4 : 0x80 + (s0 % 8 * 262144 + s1 % 64 * 4096 + s2 % 64 * 64 + s3 % 64) % 64
              = s3 := by omega
          simp only [EncodeRune, if_neg hr1, if_neg hr2, if_neg hr3, if_neg hr4, e1, e2, e3, e4]
          rfl
        · left
          simp [hacc, hc, hd]
      · left
        simp [hacc, hc]
    · left
      simp [hacc]
  · exact Or.inl rfl

/-- A rune that was decoded from a valid encoding is encoded as the bytes it was decoded
from: copying an unchanged rune and encoding it again give the same bytes. -/
theorem encode_decode (s0 : Nat) (rest : GoString)
    (h : s0 < 0x80 ∨ (DecodeRuneInString (s0 :: rest)).2 ≠ 1) :
    EncodeRune (DecodeRuneInString (s0 :: rest)).1 =
      (s0 :: rest).take (DecodeRuneInString (s0 :: rest)).2 := by
  by_cases hlow : s0 < 0x80
  · rw [decode_ascii s0 rest hlow]
    have : s0 < RuneSelf := hlow
    simp [EncodeRune, this]
  · have hw : (DecodeRuneInString (s0 :: rest)).2 ≠ 1 := by
      rcases h with h | h
      · exact absurd h hlow
      · exact h
    have h0 : ¬ s0 < RuneSelf := hlow
    simp only [DecodeRuneInString] at hw ⊢
    rw [if_neg h0] at hw ⊢
    by_cases h1 : s0 < 0xC2
    · rw [if_pos h1] at hw
      exact absurd rfl hw
    · rw [if_neg h1] at hw ⊢
      by_cases h2 : s0 < 0xE0
      · rw [if_pos h2] at hw ⊢
        rcases decode2_encode s0 rest (by omega) h2 with h3 | h3
        · exact absurd h3 hw
        · exact h3
      · rw [if_neg h2] at hw ⊢
        by_cases h3 : s0 < 0xF0
        · rw [if_pos h3] at hw ⊢
          rcases decode3_encode s0 rest (by omega) h3 with h4 | h4
          · exact absurd h4 hw
          · exact h4
        · rw [if_neg h3] at hw ⊢
          by_cases h4 : s0 < 0xF5
          · rw [if_pos h4] at hw ⊢
            rcases decode4_encode s0 rest (by omega) h4 with h5 | h5
            · exact absurd h5 hw
            · exact h5
          · rw [if_neg h4] at hw
            exact absurd rfl hw

/-- An ASCII byte of a mapped string is the image of a rune. -/
theorem mapRunes_ascii (mapping : Nat → Nat) (b : Nat) (h : b < 0x80) :
    ∀ (s : GoString) (skip : Nat), b ∈ mapRunes mapping skip s → ∃ c, b = mapping c := by
  intro s
  induction s with
  | nil =>
    intro skip hb
    simp [mapRunes] at hb
  | cons s0 rest ih =>
    intro skip hb
    cases skip with
    | zero =>
      simp only [mapRunes, List.mem_append] at hb
      rcases hb with hb | hb
      · exact ⟨_, encode_ascii _ b hb h⟩
      · exact ih _ hb
    | succ k =>
      simp only [mapRunes] at hb
      exact ih k hb

/-- The lower-cased string has no upper-case ASCII letter, when the case table gives none
for a rune above ASCII. -/
theorem stringsToLower_no_upper (U : UnicodePkg)
    (hU : ∀ r, MaxASCII < r → isUpperASCII (U.To LowerCase r) = false) (s : GoString) :
    ∀ b ∈ stringsToLower U s, isUpperASCII b = false := by
  intro b hb
  unfold stringsToLower at hb
  split at hb
  · split at hb
    · rename_i hno
      have hno2 : s.any isUpperASCII = false := by simpa using hno
      cases hc : isUpperASCII b
      · rfl
      · have : s.any isUpperASCII = true := List.any_eq_true.mpr ⟨b, hb, hc⟩
        rw [hno2] at this
        cases this
    · obtain ⟨c, -, hcb⟩ := List.mem_map.mp hb
      rw [← hcb]
      by_cases hc : isUpperASCII c = true
      · rw [if_pos hc]
        simp only [isUpperASCII, decide_eq_true_eq, decide_eq_false_iff_not] at hc ⊢
        omega
      · rw [if_neg hc]
        simpa using hc
  · by_cases hlt : b < 0x80
    · obtain ⟨c, hc⟩ := mapRunes_ascii U.ToLower b hlt s 0 hb
      rw [hc]
      unfold UnicodePkg.ToLower
      by_cases hascii : c ≤ MaxASCII
      · rw [if_pos hascii]
        by_cases hup : isUpperASCII c = true
        · rw [if_pos hup]
          simp only [isUpperASCII, decide_eq_true_eq, decide_eq_false_iff_not] at hup ⊢
          omega
        · rw [if_neg hup]
          simpa using hup
      · rw [if_neg hascii]
        exact hU c (by omega)
    · simp only [isUpperASCII, decide_eq_false_iff_not]
      omega

/-- A string of ASCII bytes without an upper-case letter is its own lower-case form. -/
theorem stringsToLower_clean (U : UnicodePkg) (s : GoString)
    (h : ∀ b ∈ s, isCleanByte b = true) : stringsToLower U s = s := by
  have hall : s.all (fun c => decide (c < RuneSelf)) = true := by
    apply List.all_eq_true.mpr
    intro b hb
    have := h b hb
    simp only [isCleanByte, decide_eq_true_eq, RuneSelf] at this ⊢
    omega
  have hno : (!s.any isUpperASCII) = true := by
    rw [Bool.not_eq_true', List.any_eq_false]
    intro b hb
    have := h b hb
    simp only [isCleanByte, decide_eq_true_eq] at this
    simp only [isUpperASCII, decide_eq_true_eq]
    omega
  unfold stringsToLower
  rw [if_pos hall, if_pos hno]

/-- Deleting the runs of `nonAlphanumericRegex` keeps exactly the bytes that are letters,
digits or the space: a rune of several bytes and an invalid byte are deleted whole. -/
theorem replaceRuns_filter :
    ∀ (s : GoString) (skip : Nat) (inMatch : Bool), (∀ x ∈ s.take skip, 0x80 ≤ x) →
      replaceRuns nonAlphanumericRegex [] skip inMatch s = s.filter isAlphanumericOrSpace := by
  intro s
  induction s with
  | nil =>
    intro skip inMatch _
    simp [replaceRuns]
  | cons s0 rest ih =>
    intro skip inMatch hskip
    cases skip with
    | succ k =>
      have h0 : 0x80 ≤ s0 := hskip s0 (by simp)
      have hrest : ∀ x ∈ rest.take k, 0x80 ≤ x := by
        intro x hx
        exact hskip x (by simp [List.take_succ_cons, hx])
      have hno : isAlphanumericOrSpace s0 = false := by
        simp only [isAlphanumericOrSpace, decide_eq_false_iff_not]
        omega
      simp only [replaceRuns]
      rw [ih k inMatch hrest, List.filter_cons_of_neg (by simp [hno])]
    | zero =>
      simp only [replaceRuns]
      by_cases hlow : s0 < 0x80
      · rw [decode_ascii s0 rest hlow]
        by_cases hcls : isAlphanumericOrSpace s0 = true
        · have hc : nonAlphanumericRegex.charClass s0 = false := by
            simp [nonAlphanumericRegex, hcls]
          simp only [hc, Bool.false_eq_true, if_false, Nat.sub_self]
          rw [ih 0 false (by simp), List.filter_cons_of_pos hcls]
          rfl
        · have hcls2 : isAlphanumericOrSpace s0 = false := by simpa using hcls
          have hc : nonAlphanumericRegex.charClass s0 = true := by
            simp [nonAlphanumericRegex, hcls2]
          simp only [hc, if_true, Nat.sub_self]
          rw [ih 0 true (by simp), List.filter_cons_of_neg hcls]
          cases inMatch <;> rfl
      · obtain ⟨hr, -, htail⟩ := decode_high s0 rest (by omega)
        have hc : nonAlphanumericRegex.charClass (DecodeRuneInString (s0 :: rest)).1 = true := by
          simp only [nonAlphanumericRegex, isAlphanumericOrSpace, Bool.not_eq_true',
            decide_eq_false_iff_not]
          omega
        have hno : ¬ isAlphanumericOrSpace s0 = true := by
          simp only [isAlphanumericOrSpace, decide_eq_true_eq]
          omega
        simp only [hc, if_true]
        rw [ih _ true htail, List.filter_cons_of_neg hno]
        cases inMatch <;> rfl

/-- What `cleanString` returns: the letters, digits and spaces of the lower-cased string. -/
theorem cleanString_eq (U : UnicodePkg) (s : GoString) :
    cleanString U s = (stringsToLower U s).filter isAlphanumericOrSpace := by
  unfold cleanString Regexp.ReplaceAllString
  exact replaceRuns_filter _ 0 false (by simp)

/-- The bytes of `cleanString(s)` are lower-case letters, digits and spaces. -/
theorem cleanString_bytes (U : UnicodePkg)
    (hU : ∀ r, MaxASCII < r → isUpperASCII (U.To LowerCase r) = false) (s : GoString) :
    ∀ b ∈ cleanString U s, isCleanByte b = true := by
  intro b hb
  rw [cleanString_eq] at hb
  obtain ⟨hmem, hcls⟩ := List.mem_filter.mp hb
  have hup := stringsToLower_no_upper U hU s b hmem
  simp only [isAlphanumericOrSpace, isUpperASCII, isCleanByte, decide_eq_true_eq,
    decide_eq_false_iff_not] at hcls hup ⊢
  omega

/-- C27: `cleanString` is idempotent: for every string `s`, `cleanString(s)` contains only
lowercase ASCII letters, digits and spaces, and `cleanString(cleanString(s))` equals
`cleanString(s)`.  The case table of package `unicode` is taken to give no upper-case ASCII
letter as the lower case of a rune above ASCII. -/
theorem cleanString_idempotent (U : UnicodePkg)
    (hU : ∀ r, MaxASCII < r → isUpperASCII (U.To LowerCase r) = false) (s : GoString) :
    (∀ b ∈ cleanString U s, isCleanByte b = true) ∧
      cleanString U (cleanString U s) = cleanString U s := by
  have hbytes := cleanString_bytes U hU s
  refine ⟨hbytes, ?_⟩
  rw [cleanString_eq U (cleanString U s), stringsToLower_clean U _ hbytes]
  apply List.filter_eq_self.mpr
  intro b hb
  have := hbytes b hb
  simp only [isCleanByte, isAlphanumericOrSpace, decide_eq_true_eq] at this ⊢
  omega

/-- The sample case table gives no upper-case ASCII letter above ASCII. -/
theorem sampleUnicode_lower (r : Nat) (h : MaxASCII < r) :
    isUpperASCII (sampleUnicode.To LowerCase r) = false := by
  simp only [MaxASCII] at h
  simp only [sampleUnicode, isUpperASCII, decide_eq_false_iff_not]
  split
  · omega
  · split <;> omega

/-- C27 on samples: the name of a test, and a string with the Kelvin sign, a Latin-1
capital and an invalid byte, are cleaned to lower-case letters, digits and spaces, and
cleaning them again changes nothing. -/
theorem cleanString_samples :
    cleanString sampleUnicode (ascii "TestLogIngestion/Fleet-Managed 42") =
      ascii "testlogingestionfleetmanaged 42" ∧
    cleanString sampleUnicode [0x41, 0xE2, 0x84, 0xAA, 0xC3, 0x89, 0xFF, 0x5A, 0x20, 0x39] =
      ascii "akz 9" ∧
    (∀ b ∈ cleanString sampleUnicode [0x41, 0xE2, 0x84, 0xAA, 0xC3, 0x89, 0xFF, 0x5A, 0x20, 0x39],
      isCleanByte b = true) ∧
    cleanString sampleUnicode
        (cleanString sampleUnicode [0x41, 0xE2, 0x84, 0xAA, 0xC3, 0x89, 0xFF, 0x5A, 0x20, 0x39]) =
      cleanString sampleUnicode [0x41, 0xE2, 0x84, 0xAA, 0xC3, 0x89, 0xFF, 0x5A, 0x20, 0x39] :=
  ⟨by decide!, by decide!,
    cleanString_idempotent sampleUnicode sampleUnicode_lower
      [0x41, 0xE2, 0x84, 0xAA, 0xC3, 0x89, 0xFF, 0x5A, 0x20, 0x39]⟩

/-! ### Progress of the reconciler: the waiting components are started -/

/-- Starting components appends one running runtime for each of them. -/
theorem foldl_start_current (cs : List Component) :
    ∀ m : Manager, ∃ rs, (cs.foldl Manager.start m).current = m.current ++ rs ∧
      rs.map (fun r => r.comp) = cs ∧ (∀ r ∈ rs, r.stopping = false) ∧
      (cs.foldl Manager.start m).pending = m.pending := by
  induction cs with
  | nil => exact fun m => ⟨[], by simp⟩
  | cons c cs ih =>
    intro m
    obtain ⟨r, hcur, hcomp, hstop, hpend⟩ := start_current m c
    obtain ⟨rs, h1, h2, h3, h4⟩ := ih (m.start c)
    refine ⟨r :: rs, ?_, ?_, ?_, ?_⟩
    · rw [List.foldl_cons, h1, hcur, List.append_assoc]
      rfl
    · rw [List.map_cons, hcomp, h2]
    · intro x hx
      rcases List.mem_cons.mp hx with hx | hx
      · rw [hx]
        exact hstop
      · exact h3 x hx
    · rw [List.foldl_cons, h4, hpend]

/-- What `startPending` does: nothing while a runtime is stopping; else it appends a running
runtime for each waiting component and nothing waits any more. -/
theorem startPending_spec (m : Manager) :
    ((∃ r ∈ m.current, r.stopping = true) ∧ m.startPending = m) ∨
      ((∀ r ∈ m.current, r.stopping = false) ∧
        ∃ rs, m.startPending.current = m.current ++ rs ∧
          rs.map (fun r => r.comp) = m.pending ∧ (∀ r ∈ rs, r.stopping = false) ∧
          m.startPending.pending = []) := by
  unfold Manager.startPending
  split
  · rename_i hany
    obtain ⟨r, hr, hs⟩ := List.any_eq_true.mp hany
    exact Or.inl ⟨⟨r, hr, hs⟩, rfl⟩
  · rename_i hany
    right
    refine ⟨?_, ?_⟩
    · intro r hr
      cases hs : r.stopping
      · rfl
      · exact absurd (List.any_eq_true.mpr ⟨r, hr, hs⟩) hany
    · obtain ⟨rs, h1, h2, h3, h4⟩ := foldl_start_current m.pending { m with pending := [] }
      exact ⟨rs, h1, h2, h3, h4⟩

theorem pendingInvariant_startPending (m : Manager) : m.startPending.pendingInvariant := by
  rcases startPending_spec m with ⟨⟨r, hr, hs⟩, heq⟩ | ⟨-, rs, -, -, -, hp⟩
  · rw [heq]
    exact fun _ => ⟨r, hr, hs⟩
  · intro hne
    exact absurd hp hne

theorem pendingInvariant_step (m : Manager) (ev : Event) (h : m.pendingInvariant) :
    (m.step ev).pendingInvariant := by
  have hstopped : ∀ id, (m.stopped id).pendingInvariant := by
    intro id
    unfold Manager.stopped
    split
    · exact h
    · exact pendingInvariant_startPending _
  cases ev with
  | update model =>
    simp only [Manager.step, Manager.update]
    split
    · exact pendingInvariant_startPending _
    · exact h
  | checkin id observed =>
    simp only [Manager.step, Manager.checkin]
    split
    · exact h
    · intro hne
      obtain ⟨r, hr, hs⟩ := h hne
      refine ⟨r, List.mem_map.mpr ⟨r, hr, ?_⟩, hs⟩
      rw [if_neg (by simp [hs])]
  | stopAck id => exact hstopped id
  | stopTimeout id => exact hstopped id

theorem pendingInvariant_run (evs : List Event) :
    ∀ m : Manager, m.pendingInvariant → (m.run evs).pendingInvariant := by
  induction evs with
  | nil => exact fun m h => h
  | cons ev evs ih => exact fun m h => ih _ (pendingInvariant_step m ev h)

theorem pendingInvariant_init : Manager.init.pendingInvariant := by
  intro hne
  exact absurd rfl hne

theorem covers_startPending (m : Manager) (cs : List Component) (h : m.covers cs) :
    m.startPending.covers cs := by
  rcases startPending_spec m with ⟨-, heq⟩ | ⟨-, rs, hcur, hcomp, hstop, -⟩
  · rw [heq]
    exact h
  · intro c hc
    left
    rcases h c hc with ⟨r, hr, hrc, hrs⟩ | hp
    · exact ⟨r, by rw [hcur]; exact List.mem_append_left _ hr, hrc, hrs⟩
    · rw [← hcomp] at hp
      obtain ⟨r, hr, hrc⟩ := List.mem_map.mp hp
      exact ⟨r, by rw [hcur]; exact List.mem_append_right _ hr, hrc, hstop r hr⟩

/-- Removing the stopping runtime of `id` removes `id` from the ids that are stopping. -/
theorem stoppingIDs_filter (id : String) (l : List Runtime) :
    ((l.filter (fun x => !(x.stopping && x.comp.ID == id))).filter (fun r => r.stopping)).map
        (fun r => r.comp.ID) =
      ((l.filter (fun r => r.stopping)).map (fun r => r.comp.ID)).filter (fun x => x != id) := by
  induction l with
  | nil => rfl
  | cons r l ih =>
    cases hs : r.stopping
    · simp only [List.filter_cons, hs, Bool.false_and, Bool.not_false, if_true,
        Bool.false_eq_true, if_false]
      exact ih
    · by_cases hid : r.comp.ID = id
      · have h1 : (!(r.stopping && r.comp.ID == id)) = false := by simp [hs, hid]
        have h2 : (r.comp.ID != id) = false := by simp [hid]
        rw [List.filter_cons_of_neg (by simp [h1]), List.filter_cons_of_pos (by simp [hs]),
          List.map_cons, List.filter_cons_of_neg (by simp [h2])]
        exact ih
      · have h1 : (!(r.stopping && r.comp.ID == id)) = true := by simp [hid]
        have h2 : (r.comp.ID != id) = true := by simp [hid]
        rw [List.filter_cons_of_pos (by simp [h1]), List.filter_cons_of_pos (by simp [hs]),
          List.filter_cons_of_pos (by simp [hs]), List.map_cons, List.map_cons,
          List.filter_cons_of_pos (by simp [h2]), ih]

/-- The stopping runtime of `id` reports Stopped: the other stopping runtimes remain, and
every component that runs or waits still does. -/
theorem stopped_settles (m : Manager) (id : String) (rest : List String) (hid : m.idInvariant)
    (hids : m.stoppingIDs = id :: rest) :
    (m.stopped id).stoppingIDs = rest ∧ ∀ cs, m.covers cs → (m.stopped id).covers cs := by
  have hnd : (id :: rest).Nodup := by
    rw [← hids]
    exact List.Nodup.sublist (List.Sublist.map _ (List.filter_sublist _)) hid.1
  have hnotin : id ∉ rest := (List.nodup_cons.mp hnd).1
  have hmem : id ∈ m.stoppingIDs := by
    rw [hids]
    exact List.mem_cons_self _ _
  obtain ⟨r0, hr0f, hr0id⟩ := List.mem_map.mp hmem
  obtain ⟨hr0, hr0s⟩ := List.mem_filter.mp hr0f
  unfold Manager.stopped
  split
  · rename_i hnone
    have := List.find?_eq_none.mp hnone r0 hr0
    simp [hr0s, hr0id] at this
  · rename_i r hfind
    have hrest : Manager.stoppingIDs
        { m with
          current := m.current.filter (fun x => !(x.stopping && x.comp.ID == id))
          published := m.published ++ [(id, stoppedState r.state)]
          workDirs := m.workDirs.filter (fun d => d != id) } = rest := by
      simp only [Manager.stoppingIDs]
      rw [stoppingIDs_filter]
      have h2 : (m.current.filter (fun r => r.stopping)).map (fun r => r.comp.ID) = id :: rest :=
        hids
      rw [h2]
      simp only [List.filter_cons, bne_self_eq_false, Bool.false_eq_true, if_false]
      apply List.filter_eq_self.mpr
      intro x hx
      have : x ≠ id := fun h => hnotin (h ▸ hx)
      simpa using this
    have hcov : ∀ cs, m.covers cs → Manager.covers
        { m with
          current := m.current.filter (fun x => !(x.stopping && x.comp.ID == id))
          published := m.published ++ [(id, stoppedState r.state)]
          workDirs := m.workDirs.filter (fun d => d != id) } cs := by
      intro cs h c hc
      rcases h c hc with ⟨r1, hr1, hrc, hrs⟩ | hp
      · exact Or.inl ⟨r1, List.mem_filter.mpr ⟨hr1, by simp [hrs]⟩, hrc, hrs⟩
      · exact Or.inr hp
    refine ⟨?_, fun cs h => covers_startPending _ cs (hcov cs h)⟩
    rcases startPending_spec
        { m with
          current := m.current.filter (fun x => !(x.stopping && x.comp.ID == id))
          published := m.published ++ [(id, stoppedState r.state)]
          workDirs := m.workDirs.filter (fun d => d != id) } with
      ⟨-, heq⟩ | ⟨hnone, rs, hcur, -, hstop, -⟩
    · rw [heq]
      exact hrest
    · have hrest2 : rest = [] := by
        rw [← hrest]
        simp only [Manager.stoppingIDs, List.map_eq_nil_iff, List.filter_eq_nil_iff]
        intro x hx
        simp [hnone x hx]
      rw [hrest2]
      simp only [Manager.stoppingIDs, List.map_eq_nil_iff, List.filter_eq_nil_iff]
      intro x hx
      rw [hcur] at hx
      rcases List.mem_append.mp hx with hx | hx
      · simp [hnone x hx]
      · simp [hstop x hx]

/-- Once the stopping runtimes named by `ids` have reported Stopped, no runtime is stopping,
nothing waits, and every component that ran or waited runs. -/
theorem settle_ids (ids : List String) :
    ∀ m : Manager, m.idInvariant → m.pendingInvariant → m.stoppingIDs = ids →
      (∀ r ∈ (m.run (ids.map Event.stopAck)).current, r.stopping = false) ∧
        (m.run (ids.map Event.stopAck)).pending = [] ∧
        ∀ cs, m.covers cs → ∀ c ∈ cs,
          ∃ r ∈ (m.run (ids.map Event.stopAck)).current, r.comp = c ∧ r.stopping = false := by
  induction ids with
  | nil =>
    intro m _ hp hids
    have hnone : ∀ r ∈ m.current, r.stopping = false := by
      intro r hr
      cases hs : r.stopping
      · rfl
      · have : r.comp.ID ∈ m.stoppingIDs :=
          List.mem_map.mpr ⟨r, List.mem_filter.mpr ⟨hr, hs⟩, rfl⟩
        rw [hids] at this
        cases this
    have hpend : m.pending = [] := by
      by_contra hne
      obtain ⟨r, hr, hs⟩ := hp hne
      rw [hnone r hr] at hs
      cases hs
    refine ⟨hnone, hpend, ?_⟩
    intro cs hcov c hc
    rcases hcov c hc with h | h
    · exact h
    · rw [hpend] at h
      cases h
  | cons id rest ih =>
    intro m hid hp hids
    obtain ⟨hrest, hcov⟩ := stopped_settles m id rest hid hids
    have hstep : m.run ((id :: rest).map Event.stopAck) =
        (m.stopped id).run (rest.map Event.stopAck) := rfl
    rw [hstep]
    obtain ⟨h1, h2, h3⟩ := ih (m.stopped id) (idInvariant_stopped m id hid)
      (pendingInvariant_step m (Event.stopAck id) hp) hrest
    exact ⟨h1, h2, fun cs hc => h3 cs (hcov cs hc)⟩

/-- An accepted `Update` leaves every component of the model running its definition or
waiting to be started. -/
theorem covers_update (m : Manager) (model : Model)
    (hnd : (model.Components.map (fun c => c.ID)).Nodup) :
    (m.update model).2.covers model.Components := by
  simp only [Manager.update, if_pos hnd]
  apply covers_startPending
  intro c hc
  by_cases hlive : (m.current.map (reconcile model)).any
      (fun x => !x.1.stopping && x.1.comp.ID == c.ID) = true
  · left
    obtain ⟨x, hx, hcond⟩ := List.any_eq_true.mp hlive
    obtain ⟨r, hr, hxr⟩ := List.mem_map.mp hx
    subst hxr
    simp only [Bool.and_eq_true, Bool.not_eq_true', beq_iff_eq] at hcond
    refine ⟨(reconcile model r).1, List.mem_map.mpr ⟨_, hx, rfl⟩, ?_, hcond.1⟩
    obtain ⟨-, c2, hf, hcase⟩ := reconcile_live model r hcond.1
    rcases hcase with ⟨hceq, hsame⟩ | ⟨-, -, hcomp, -, -⟩
    · rw [hsame] at hcond ⊢
      have hc2 : c2 = c := eq_of_find_ID hnd hc hcond.2.symm hf
      rw [← hceq, hc2]
    · rw [hcomp] at hcond ⊢
      have h2 : c2 ∈ model.Components := List.mem_of_find?_eq_some hf
      exact List.inj_on_of_nodup_map hnd h2 hc hcond.2
  · right
    refine List.mem_filter.mpr ⟨hc, ?_⟩
    simpa using hlive

/-- After an accepted `Update`, once the stopping runtimes have reported Stopped, every
component of the model has a runtime that runs its definition and is not stopping. -/
theorem settle_update (m : Manager) (model : Model) (hid : m.idInvariant)
    (hnd : (model.Components.map (fun c => c.ID)).Nodup) (c : Component)
    (hc : c ∈ model.Components) :
    ∃ r ∈ ((m.step (Event.update model)).settle).current, r.comp = c ∧ r.stopping = false := by
  have hid2 : (m.step (Event.update model)).idInvariant := idInvariant_step m _ hid
  have hp2 : (m.step (Event.update model)).pendingInvariant := by
    simp only [Manager.step, Manager.update, if_pos hnd]
    exact pendingInvariant_startPending _
  obtain ⟨-, -, h3⟩ := settle_ids _ (m.step (Event.update model)) hid2 hp2 rfl
  exact h3 model.Components (covers_update m model hnd) c hc

/-! ### Components and units with a configuration error, settled -/

/-- Without a stopping runtime there is nothing to wait for. -/
theorem settle_of_running (m : Manager) (h : ∀ r ∈ m.current, r.stopping = false) :
    m.settle = m := by
  have hids : m.stoppingIDs = [] := by
    simp only [Manager.stoppingIDs, List.map_eq_nil_iff, List.filter_eq_nil_iff]
    intro r hr
    simp [h r hr]
  unfold Manager.settle
  rw [hids]
  rfl

/-- C9: for every component whose model entry has `err` set, the runtime publishes the
component as Failed carrying that error, with its listed units reported Failed, and never
launches a child process for it.  After any sequence of events and an accepted `Update` of a
model that holds the component `c` with the error `e`, once the runtimes signalled to stop
have reported Stopped there is a runtime of `c` that is in the Failed state of `c` and that
state has been published; it is published by the `Update` itself when no runtime is
stopping; the state is Failed with `e` as its message and lists every unit of `c` as Failed
with the same message; and no sequence of events launches a child for `c`. -/
theorem component_err_failed_never_launched (evs : List Event) (model : Model) (c : Component)
    (e : String) (hnd : (model.Components.map (fun c => c.ID)).Nodup)
    (hc : c ∈ model.Components) (he : c.Err = some e) :
    (∃ r ∈ (Manager.settledAfter evs model).current,
      r.comp = c ∧ r.stopping = false ∧ r.state = failedState c e) ∧
    (c.ID, failedState c e) ∈ (Manager.settledAfter evs model).published ∧
    ((∀ r ∈ ((Manager.init.run evs).step (Event.update model)).current, r.stopping = false) →
      (c.ID, failedState c e) ∈ ((Manager.init.run evs).step (Event.update model)).published) ∧
    (failedState c e).State = UnitState.Failed ∧ (failedState c e).Message = e ∧
    (failedState c e).Units =
      c.Units.map (fun u => (⟨u.UnitType, u.ID⟩, ⟨UnitState.Failed, e⟩)) ∧
    ∀ evs2, c ∉ (Manager.init.run evs2).launched := by
  have hid := idInvariant_run evs Manager.init idInvariant_init
  have herr : (Manager.settledAfter evs model).errInvariant :=
    errInvariant_run _ _ (errInvariant_step _ _ (errInvariant_run evs _ errInvariant_init))
  obtain ⟨r, hr, hrc, hrs⟩ := settle_update (Manager.init.run evs) model hid hnd c hc
  have hfailed := herr.2 r hr e (by rw [hrc]; exact he)
  rw [hrc] at hfailed
  refine ⟨⟨r, hr, hrc, hrs, hfailed.2 hrs⟩, hfailed.1, ?_, rfl, rfl, rfl, ?_⟩
  · intro hrun
    have hsame : Manager.settledAfter evs model =
        (Manager.init.run evs).step (Event.update model) := settle_of_running _ hrun
    rw [← hsame]
    exact hfailed.1
  · intro evs2 hl
    have := (errInvariant_run evs2 Manager.init errInvariant_init).1 c hl
    rw [he] at this
    cases this

/-- C9 on the first seed scenario, the component `error-default` with the error
`hard-coded error` and the unit `error-input`: Starting is published first, then Failed
with the unit `error-input` Failed, and no child is launched. -/
theorem errorDefault_scenario :
    (Manager.init.run [Event.update ⟨[errorDefault]⟩]).published =
        [("error-default", ⟨UnitState.Starting, "Starting",
            [(⟨UnitType.Input, "error-input"⟩, ⟨UnitState.Starting, "Starting"⟩)]⟩),
          ("error-default", ⟨UnitState.Failed, "hard-coded error",
            [(⟨UnitType.Input, "error-input"⟩, ⟨UnitState.Failed, "hard-coded error"⟩)]⟩)] ∧
      (Manager.init.run [Event.update ⟨[errorDefault]⟩]).launched = [] ∧
      ("error-default", failedState errorDefault "hard-coded error") ∈
        (Manager.settledAfter [] ⟨[errorDefault]⟩).published :=
  ⟨by decide, by decide,
    (component_err_failed_never_launched [] ⟨[errorDefault]⟩ errorDefault "hard-coded error"
      (by decide) (by decide) rfl).2.1⟩

/-! ### The working directory after Stopped -/

theorem workDirs_foldl_start (cs : List Component) :
    ∀ (m : Manager) (d : String), d ∈ (cs.foldl Manager.start m).workDirs →
      d ∈ m.workDirs ∨ ∃ c ∈ cs, c.ID = d := by
  induction cs with
  | nil => exact fun m d h => Or.inl h
  | cons c cs ih =>
    intro m d h
    rcases ih (m.start c) d h with h1 | ⟨c2, hc2, hd⟩
    · unfold Manager.start at h1
      split at h1
      · exact Or.inl h1
      · simp only [List.mem_cons] at h1
        rcases h1 with h1 | h1
        · exact Or.inr ⟨c, List.mem_cons_self _ _, h1.symm⟩
        · exact Or.inl (List.mem_filter.mp h1).1
    · exact Or.inr ⟨c2, List.mem_cons_of_mem _ hc2, hd⟩

/-- Starting the waiting components creates working directories of waiting components
only. -/
theorem workDirs_startPending (m : Manager) (d : String) (h : d ∈ m.startPending.workDirs) :
    d ∈ m.workDirs ∨ ∃ c ∈ m.pending, c.ID = d := by
  unfold Manager.startPending at h
  split at h
  · exact Or.inl h
  · exact workDirs_foldl_start m.pending { m with pending := [] } d h

/-- An `Update` of a model without the component `id` leaves the runtime of `id` stopping
and no component `id` waiting. -/
theorem update_removes (m : Manager) (model : Model) (id : String) (r : Runtime)
    (hnd : (model.Components.map (fun c => c.ID)).Nodup)
    (hgone : ∀ c ∈ model.Components, c.ID ≠ id) (hr : r ∈ m.current) (hid : r.comp.ID = id) :
    (∃ r1 ∈ (m.step (Event.update model)).current, r1.comp.ID = id ∧ r1.stopping = true) ∧
      ∀ c ∈ (m.step (Event.update model)).pending, c.ID ≠ id := by
  have hfind : model.Components.find? (fun c => c.ID == r.comp.ID) = none := by
    apply List.find?_eq_none.mpr
    intro c hc
    have := hgone c hc
    simp [hid, this]
  have hrec : (reconcile model r).1.comp.ID = id ∧ (reconcile model r).1.stopping = true := by
    rcases reconcile_cases model r with ⟨hs, h⟩ | ⟨-, -, h⟩ | ⟨-, c, hf, -, -⟩ |
      ⟨-, c, hf, -, -⟩ | ⟨-, c, hf, -, -, -, -⟩ | ⟨-, c, hf, -, -, -, -⟩
    · rw [h]
      exact ⟨hid, hs⟩
    · rw [h]
      exact ⟨hid, rfl⟩
    · rw [hfind] at hf
      cases hf
    · rw [hfind] at hf
      cases hf
    · rw [hfind] at hf
      cases hf
    · rw [hfind] at hf
      cases hf
  simp only [Manager.step, Manager.update, if_pos hnd]
  have hmem : (reconcile model r).1 ∈
      (m.current.map (reconcile model)).map (fun x => x.1) :=
    List.mem_map.mpr ⟨_, List.mem_map.mpr ⟨r, hr, rfl⟩, rfl⟩
  rcases startPending_spec
      { m with
        current := (m.current.map (reconcile model)).map (fun x => x.1)
        pending := model.Components.filter (fun c =>
          !((m.current.map (reconcile model)).any
            (fun x => !x.1.stopping && x.1.comp.ID == c.ID)))
        published := m.published ++ (m.current.map (reconcile model)).flatMap (fun x => x.2) }
    with ⟨-, heq⟩ | ⟨hnone, -⟩
  · rw [heq]
    refine ⟨⟨_, hmem, hrec.1, hrec.2⟩, ?_⟩
    intro c hc
    exact hgone c (List.mem_filter.mp hc).1
  · have := hnone _ hmem
    rw [hrec.2] at this
    cases this

/-- The stopping runtime of `id` reports Stopped while no component `id` waits: Stopped is
the last state published for `id`, its working directory is removed and it has no
runtime. -/
theorem stopped_removes (m : Manager) (id : String) (r1 : Runtime) (hinv : m.idInvariant)
    (hr1 : r1 ∈ m.current) (hid : r1.comp.ID = id) (hs : r1.stopping = true)
    (hpend : ∀ c ∈ m.pending, c.ID ≠ id) :
    (∃ st, (statesOf id (m.stopped id).published).getLast? = some st ∧
      st.State = UnitState.Stopped) ∧
    id ∉ (m.stopped id).workDirs ∧ ∀ r2 ∈ (m.stopped id).current, r2.comp.ID ≠ id := by
  unfold Manager.stopped
  split
  · rename_i hnone
    have := List.find?_eq_none.mp hnone r1 hr1
    simp [hs, hid] at this
  · rename_i r hfind
    obtain ⟨new, hpub, hnew⟩ := published_startPending
      { m with
        current := m.current.filter (fun x => !(x.stopping && x.comp.ID == id))
        published := m.published ++ [(id, stoppedState r.state)]
        workDirs := m.workDirs.filter (fun d => d != id) }
    refine ⟨⟨stoppedState r.state, ?_, rfl⟩, ?_, ?_⟩
    · rw [hpub, statesOf_append, statesOf_append]
      have h1 : statesOf id [(id, stoppedState r.state)] = [stoppedState r.state] := by
        simp [statesOf]
      have h2 : statesOf id new = [] := by
        apply statesOf_other
        intro p hp
        obtain ⟨c, hc, hpc⟩ := hnew p hp
        rw [hpc]
        exact hpend c hc
      rw [h1, h2, List.append_nil]
      simp
    · intro hd
      rcases workDirs_startPending _ id hd with h1 | ⟨c, hc, hcid⟩
      · have := (List.mem_filter.mp h1).2
        simp at this
      · exact hpend c hc hcid
    · intro r2 hr2 hid2
      rcases startPending_spec
          { m with
            current := m.current.filter (fun x => !(x.stopping && x.comp.ID == id))
            published := m.published ++ [(id, stoppedState r.state)]
            workDirs := m.workDirs.filter (fun d => d != id) }
        with ⟨-, heq⟩ | ⟨-, rs, hcur, hcomp, -, -⟩
      · rw [heq] at hr2
        obtain ⟨hmem, hcond⟩ := List.mem_filter.mp hr2
        have heq2 : r2 = r1 := List.inj_on_of_nodup_map hinv.1 hmem hr1 (hid2.trans hid.symm)
        rw [heq2] at hcond
        simp [hs, hid] at hcond
      · rw [hcur] at hr2
        rcases List.mem_append.mp hr2 with hr2 | hr2
        · obtain ⟨hmem, hcond⟩ := List.mem_filter.mp hr2
          have heq2 : r2 = r1 := List.inj_on_of_nodup_map hinv.1 hmem hr1 (hid2.trans hid.symm)
          rw [heq2] at hcond
          simp [hs, hid] at hcond
        · have hc2 : r2.comp ∈ m.pending := by
            have : r2.comp ∈ rs.map (fun r => r.comp) := List.mem_map.mpr ⟨r2, hr2, rfl⟩
            rw [hcomp] at this
            exact this
          exact hpend _ hc2 hid2

/-- C18: after a component has been removed from the model and has reached Stopped, its
working directory `<run-root>/<component_id>` does not exist.  After any sequence of events
that leaves a runtime of the component `id`, an accepted `Update` of a model without `id`
and the report of its runtime that it stopped (the acknowledgement, or the kill after the
Stop timeout): Stopped is the last state published for `id`, the working directory of `id`
does not exist and `id` has no runtime; and whatever events follow, the directory does not
exist as long as `id` has no runtime. -/
theorem workdir_removed_after_stopped (evs : List Event) (model : Model) (id : String)
    (r : Runtime) (hnd : (model.Components.map (fun c => c.ID)).Nodup)
    (hgone : ∀ c ∈ model.Components, c.ID ≠ id) (hr : r ∈ (Manager.init.run evs).current)
    (hid : r.comp.ID = id) :
    (∃ st, (statesOf id (((Manager.init.run evs).step (Event.update model)).step
        (Event.stopAck id)).published).getLast? = some st ∧ st.State = UnitState.Stopped) ∧
    id ∉ (((Manager.init.run evs).step (Event.update model)).step (Event.stopAck id)).workDirs ∧
    (∀ r2 ∈ (((Manager.init.run evs).step (Event.update model)).step
      (Event.stopAck id)).current, r2.comp.ID ≠ id) ∧
    ((Manager.init.run evs).step (Event.update model)).step (Event.stopTimeout id) =
      ((Manager.init.run evs).step (Event.update model)).step (Event.stopAck id) ∧
    ∀ evs2,
      (∀ r2 ∈ ((((Manager.init.run evs).step (Event.update model)).step
        (Event.stopAck id)).run evs2).current, r2.comp.ID ≠ id) →
      id ∉ ((((Manager.init.run evs).step (Event.update model)).step
        (Event.stopAck id)).run evs2).workDirs := by
  have hinv := idInvariant_run evs Manager.init idInvariant_init
  have hinv1 := idInvariant_step _ (Event.update model) hinv
  obtain ⟨⟨r1, hr1, hid1, hs1⟩, hpend⟩ :=
    update_removes (Manager.init.run evs) model id r hnd hgone hr hid
  obtain ⟨h1, h2, h3⟩ := stopped_removes _ id r1 hinv1 hr1 hid1 hs1 hpend
  refine ⟨h1, h2, h3, rfl, ?_⟩
  intro evs2 hno hd
  have hw : ((((Manager.init.run evs).step (Event.update model)).step
      (Event.stopAck id)).run evs2).workDirInvariant := by
    apply workDirInvariant_run
    have h0 := workDirInvariant_run evs Manager.init workDirInvariant_init
    have h4 := workDirInvariant_update _ model h0
    exact workDirInvariant_stopped _ id h4
  obtain ⟨r2, hr2, hrd, -⟩ := hw id hd
  exact hno r2 hr2 hrd

/-- The scenario of `TestManager_FakeInput_StartStop`: the working directory of `fake-0`
exists while it runs; once the empty model removed it and it reported Stopped, it was
published Starting, Healthy, Stopping and Stopped and has no working directory. -/
theorem startStop_scenario :
    (Manager.init.run (startStopEvents.take 2)).workDirs = ["fake-0"] ∧
      (statesOf "fake-0" (Manager.init.run startStopEvents).published).map (fun st => st.State)
        = [UnitState.Starting, UnitState.Healthy, UnitState.Stopping, UnitState.Stopped] ∧
      "fake-0" ∉ (((Manager.init.run (startStopEvents.take 2)).step (Event.update ⟨[]⟩)).step
        (Event.stopAck "fake-0")).workDirs :=
  ⟨by decide!, by decide!,
    (workdir_removed_after_stopped (startStopEvents.take 2) ⟨[]⟩ "fake-0"
      ⟨fake0, mergeObserved ⟨fake0, startingState fake0, false⟩ fake0Healthy, false⟩
      (by decide) (by simp) (by decide!) rfl).2.1⟩

/-! ### Units with a configuration error, settled -/

/-- A running component without `err` whose new definition has none either is changed in
place: the runtime takes the new definition, keeps its component state and synchronises its
units. -/
theorem reconcile_in_place (model : Model) (r : Runtime) (c : Component)
    (hs : r.stopping = false)
    (hf : model.Components.find? (fun c => c.ID == r.comp.ID) = some c)
    (hrc : r.comp.Err = none) (hc : c.Err = none) :
    (reconcile model r).1.comp = c ∧ (reconcile model r).1.stopping = false ∧
      (reconcile model r).1.state.State = r.state.State ∧
      (reconcile model r).1.state.Units = syncExpected c r.comp r.state.Units := by
  have herr : ¬ (r.comp.Err.isSome || c.Err.isSome) = true := by simp [hrc, hc]
  unfold reconcile
  rw [if_neg (by simp [hs])]
  simp only [hf]
  rw [if_neg herr]
  by_cases hsync : syncExpected c r.comp r.state.Units = r.state.Units
  · rw [if_pos hsync]
    exact ⟨rfl, rfl, rfl, hsync.symm⟩
  · rw [if_neg hsync]
    exact ⟨rfl, rfl, rfl, rfl⟩

/-- An accepted `Update` with a new definition `c2` of a running component without `err`
leaves a running runtime of `c2` with the component state it had and the synchronised
units. -/
theorem update_in_place (m : Manager) (model : Model) (r : Runtime) (c2 : Component)
    (hnd : (model.Components.map (fun c => c.ID)).Nodup) (hr : r ∈ m.current)
    (hs : r.stopping = false) (hrc : r.comp.Err = none) (hc2 : c2 ∈ model.Components)
    (hid : c2.ID = r.comp.ID) (he2 : c2.Err = none) :
    ∃ r2 ∈ (m.step (Event.update model)).current, r2.comp = c2 ∧ r2.stopping = false ∧
      r2.state.State = r.state.State ∧
      r2.state.Units = syncExpected c2 r.comp r.state.Units := by
  have hf : ∃ c, model.Components.find? (fun c => c.ID == r.comp.ID) = some c := by
    cases hfind : model.Components.find? (fun c => c.ID == r.comp.ID) with
    | some c => exact ⟨c, rfl⟩
    | none =>
      have := List.find?_eq_none.mp hfind c2 hc2
      simp [hid] at this
  obtain ⟨c, hfc⟩ := hf
  have hceq : c = c2 := eq_of_find_ID hnd hc2 hid hfc
  subst hceq
  obtain ⟨h1, h2, h3, h4⟩ := reconcile_in_place model r c hs hfc hrc he2
  simp only [Manager.step, Manager.update, if_pos hnd]
  have hmem : (reconcile model r).1 ∈
      (m.current.map (reconcile model)).map (fun x => x.1) :=
    List.mem_map.mpr ⟨_, List.mem_map.mpr ⟨r, hr, rfl⟩, rfl⟩
  refine ⟨(reconcile model r).1, ?_, h1, h2, h3, h4⟩
  rcases startPending_spec
      { m with
        current := (m.current.map (reconcile model)).map (fun x => x.1)
        pending := model.Components.filter (fun c =>
          !((m.current.map (reconcile model)).any
            (fun x => !x.1.stopping && x.1.comp.ID == c.ID)))
        published := m.published ++ (m.current.map (reconcile model)).flatMap (fun x => x.2) }
    with ⟨-, heq⟩ | ⟨-, rs, hcur, -, -, -⟩
  · rw [heq]
    exact hmem
  · rw [hcur]
    exact List.mem_append_left _ hmem

/-- An observed frame of the worker of a running component without `err` is merged into the
state of its runtime, and the merged state is published. -/
theorem checkin_running (m : Manager) (r : Runtime) (observed : ComponentState)
    (hinv : m.idInvariant) (hr : r ∈ m.current) (hs : r.stopping = false)
    (hrc : r.comp.Err = none) :
    ({ r with state := mergeObserved r observed } : Runtime) ∈
        (m.step (Event.checkin r.comp.ID observed)).current ∧
      (r.comp.ID, mergeObserved r observed) ∈
        (m.step (Event.checkin r.comp.ID observed)).published := by
  have hcond : (!r.stopping && r.comp.Err.isNone && r.comp.ID == r.comp.ID) = true := by
    simp [hs, hrc]
  simp only [Manager.step, Manager.checkin]
  split
  · rename_i hnone
    have := List.find?_eq_none.mp hnone r hr
    rw [hcond] at this
    exact absurd rfl this
  · rename_i r0 hfind
    have hr0 : r = r0 := find_checkin_unique hinv.1 hfind hr rfl
    subst hr0
    refine ⟨?_, by simp⟩
    refine List.mem_map.mpr ⟨r, hr, ?_⟩
    rw [if_pos hcond]

/-- An observed frame gives a unit of the model without `err` the state the worker reports
for it, and the component state the worker reports. -/
theorem mergeObserved_reported (r : Runtime) (observed : ComponentState)
    (k : ComponentUnitKey) (u : Unit) (us o : ComponentUnitState)
    (hunit : r.comp.unit? k = some u) (hnone : u.Err = none) (hmem : (k, us) ∈ r.state.Units)
    (hlook : observed.Units.lookup k = some o) :
    (k, o) ∈ (mergeObserved r observed).Units := by
  simp only [mergeObserved]
  refine List.mem_filterMap.mpr ⟨_, hmem, ?_⟩
  simp [mergeUnit, hunit, hnone, hlook]

/-- A unit without `err` keeps its published state when its definition is replaced in
place, if it had no `err` before, and starts if it had one. -/
theorem syncExpected_sibling (c old : Component)
    (units : List (ComponentUnitKey × ComponentUnitState)) (u : Unit) (hmem : u ∈ c.Units)
    (hnone : u.Err = none) :
    (∀ us, (old.unit? (unitKey u)).bind (fun x => x.Err) = none →
      units.lookup (unitKey u) = some us → (unitKey u, us) ∈ syncExpected c old units) ∧
      (∀ e, (old.unit? (unitKey u)).bind (fun x => x.Err) = some e →
        (unitKey u, ⟨UnitState.Starting, "Starting"⟩) ∈ syncExpected c old units) := by
  refine ⟨?_, ?_⟩
  · intro us hold hlook
    apply List.mem_append_left
    refine List.mem_map.mpr ⟨u, hmem, ?_⟩
    simp [syncUnit, hnone, hold, hlook]
  · intro e hold
    apply List.mem_append_left
    refine List.mem_map.mpr ⟨u, hmem, ?_⟩
    simp [syncUnit, hnone, hold]

/-- The invariants of a manager that ran `evs`, applied an `Update` and settled. -/
theorem settledAfter_invariants (evs : List Event) (model : Model) :
    (Manager.settledAfter evs model).idInvariant ∧
      (Manager.settledAfter evs model).unitErrInvariant ∧
      ∀ r ∈ (Manager.settledAfter evs model).current, r.comp.Err = none →
        r.state.State = UnitState.Failed →
          ∃ obs, Event.checkin r.comp.ID obs ∈ evs ∧ obs.State = UnitState.Failed := by
  have hid0 := idInvariant_run evs Manager.init idInvariant_init
  have hid1 := idInvariant_step _ (Event.update model) hid0
  have hu0 := unitErrInvariant_run evs Manager.init idInvariant_init unitErrInvariant_init
  have hu1 : ((Manager.init.run evs).step (Event.update model)).unitErrInvariant :=
    unitErrInvariant_run [Event.update model] _ hid0 hu0
  have hp0 := failedProvenance_run evs Manager.init [] failedProvenance_init
  have hp1 : ((Manager.init.run evs).step (Event.update model)).failedProvenance
      (([] ++ evs) ++ [Event.update model]) :=
    failedProvenance_run [Event.update model] _ _ hp0
  have hp2 := failedProvenance_run
    (((Manager.init.run evs).step (Event.update model)).stoppingIDs.map Event.stopAck) _ _ hp1
  refine ⟨idInvariant_run _ _ hid1, unitErrInvariant_run _ _ hid1 hu1, ?_⟩
  intro r hr hnone hfailed
  obtain ⟨obs, hmem, hobs⟩ := hp2.2 r hr hnone hfailed
  refine ⟨obs, ?_, hobs⟩
  simp only [List.nil_append, List.mem_append, List.mem_singleton, List.mem_map] at hmem
  rcases hmem with (hmem | hmem) | ⟨id, -, hmem⟩
  · exact hmem
  · cases hmem
  · cases hmem

/-- C11: for every unit that has `err` set in the model, that unit is published Failed with
its error message while the component itself is not published Failed and its sibling units
keep their own states; replacing the unit's `err` by a valid config lets it reach Healthy
without the sibling leaving Healthy.  After any sequence of events and an accepted `Update`
of a model that holds the component `c` without `err`, once the runtimes signalled to stop
have reported Stopped, `c` has a running runtime whose state is published; it shows every
unit whose `err` is set Failed with its message, and the component is Failed only if the
worker reported it Failed.  An observed frame then keeps those units Failed and gives every
other unit of `c` the state the worker reports for it.  An `Update` that replaces `c` by a
definition `c2` without `err` changes the runtime in place: the component state stays, a
unit without `err` keeps its published state if it had no `err` before and starts if it had
one, and the next observed frame gives each of them the state the worker reports for it. -/
theorem unit_err_failed_siblings_proceed (evs : List Event) (model : Model) (c : Component)
    (hnd : (model.Components.map (fun c => c.ID)).Nodup) (hc : c ∈ model.Components)
    (hce : c.Err = none) :
    ∃ r ∈ (Manager.settledAfter evs model).current, r.comp = c ∧ r.stopping = false ∧
      (c.ID, r.state) ∈ (Manager.settledAfter evs model).published ∧
      (∀ k u e, c.unit? k = some u → u.Err = some e →
        (k, ⟨UnitState.Failed, e⟩) ∈ r.state.Units) ∧
      (r.state.State = UnitState.Failed →
        ∃ obs, Event.checkin c.ID obs ∈ evs ∧ obs.State = UnitState.Failed) ∧
      (∀ observed, ∃ r1 ∈ ((Manager.settledAfter evs model).step
          (Event.checkin c.ID observed)).current,
        r1.comp = c ∧
        (c.ID, r1.state) ∈ ((Manager.settledAfter evs model).step
          (Event.checkin c.ID observed)).published ∧
        r1.state.State = observed.State ∧
        (∀ k u e, c.unit? k = some u → u.Err = some e →
          (k, ⟨UnitState.Failed, e⟩) ∈ r1.state.Units) ∧
        ∀ k u us o, c.unit? k = some u → u.Err = none → (k, us) ∈ r.state.Units →
          observed.Units.lookup k = some o → (k, o) ∈ r1.state.Units) ∧
      ∀ (model2 : Model) (c2 : Component), (model2.Components.map (fun c => c.ID)).Nodup →
        c2 ∈ model2.Components → c2.ID = c.ID → c2.Err = none →
        ∃ r2 ∈ ((Manager.settledAfter evs model).step (Event.update model2)).current,
          r2.comp = c2 ∧ r2.stopping = false ∧ r2.state.State = r.state.State ∧
          (∀ u ∈ c2.Units, u.Err = none →
            (∀ us, (c.unit? (unitKey u)).bind (fun x => x.Err) = none →
              r.state.Units.lookup (unitKey u) = some us → (unitKey u, us) ∈ r2.state.Units) ∧
            (∀ e, (c.unit? (unitKey u)).bind (fun x => x.Err) = some e →
              (unitKey u, ⟨UnitState.Starting, "Starting"⟩) ∈ r2.state.Units)) ∧
          ∀ observed, ∃ r3 ∈ (((Manager.settledAfter evs model).step
              (Event.update model2)).step (Event.checkin c.ID observed)).current,
            r3.comp = c2 ∧
            (c.ID, r3.state) ∈ (((Manager.settledAfter evs model).step
              (Event.update model2)).step (Event.checkin c.ID observed)).published ∧
            r3.state.State = observed.State ∧
            ∀ k u us o, c2.unit? k = some u → u.Err = none → (k, us) ∈ r2.state.Units →
              observed.Units.lookup k = some o → (k, o) ∈ r3.state.Units := by
  have hid0 := idInvariant_run evs Manager.init idInvariant_init
  obtain ⟨hidS, huS, hpS⟩ := settledAfter_invariants evs model
  obtain ⟨r, hr, hrc, hrs⟩ := settle_update (Manager.init.run evs) model hid0 hnd c hc
  subst hrc
  refine ⟨r, hr, rfl, hrs, (huS r hr).1, (huS r hr).2 hrs hce, hpS r hr hce, ?_, ?_⟩
  · intro observed
    obtain ⟨h1, h2⟩ := checkin_running _ r observed hidS hr hrs hce
    refine ⟨_, h1, rfl, h2, rfl, ?_, ?_⟩
    · intro k u e hu he
      exact mem_mergeObserved_failed r observed k u e hu he ((huS r hr).2 hrs hce k u e hu he)
    · intro k u us o hu hnone hmem hlook
      exact mergeObserved_reported r observed k u us o hu hnone hmem hlook
  · intro model2 c2 hnd2 hc2 hid2 he2
    obtain ⟨r2, hr2, hr2c, hr2s, hst, hunits⟩ :=
      update_in_place _ model2 r c2 hnd2 hr hrs hce hc2 hid2 he2
    refine ⟨r2, hr2, hr2c, hr2s, hst, ?_, ?_⟩
    · intro u hu hnone
      rw [hunits]
      exact syncExpected_sibling c2 r.comp r.state.Units u hu hnone
    · intro observed
      have hid3 := idInvariant_step _ (Event.update model2) hidS
      have he3 : r2.comp.Err = none := by rw [hr2c]; exact he2
      obtain ⟨h1, h2⟩ := checkin_running _ r2 observed hid3 hr2 hr2s he3
      have hidr : r2.comp.ID = r.comp.ID := by rw [hr2c]; exact hid2
      rw [hidr] at h1 h2
      refine ⟨_, h1, hr2c, h2, rfl, ?_⟩
      intro k u us o hu hnone hmem hlook
      exact mergeObserved_reported r2 observed k u us o (by rw [hr2c]; exact hu) hnone hmem hlook

/-- C11 on the scenario of `TestManager_FakeInput_BadUnitToGood`: `bad-input` is published
Failed with `hard-error for config` while `fake-input` starts and becomes Healthy and the
component is never Failed; once the error is replaced by a config, `bad-input` starts and
becomes Healthy and `fake-input` stays Healthy. -/
theorem bad_unit_to_good_scenario :
    (Manager.init.run [Event.update ⟨[fakeDefaultBad]⟩,
        Event.checkin "fake-default" fakeDefaultObserved1,
        Event.update ⟨[fakeDefaultGood]⟩,
        Event.checkin "fake-default" fakeDefaultObserved2]).published =
      [("fake-default", ⟨UnitState.Starting, "Starting",
          [(⟨UnitType.Input, "fake-input"⟩, ⟨UnitState.Starting, "Starting"⟩),
            (⟨UnitType.Input, "bad-input"⟩, ⟨UnitState.Failed, "hard-error for config"⟩)]⟩),
        ("fake-default", ⟨UnitState.Healthy, "Healthy",
          [(⟨UnitType.Input, "fake-input"⟩, ⟨UnitState.Healthy, "Fake Healthy"⟩),
            (⟨UnitType.Input, "bad-input"⟩, ⟨UnitState.Failed, "hard-error for config"⟩)]⟩),
        ("fake-default", ⟨UnitState.Healthy, "Healthy",
          [(⟨UnitType.Input, "fake-input"⟩, ⟨UnitState.Healthy, "Fake Healthy"⟩),
            (⟨UnitType.Input, "bad-input"⟩, ⟨UnitState.Starting, "Starting"⟩)]⟩),
        ("fake-default", ⟨UnitState.Healthy, "Healthy",
          [(⟨UnitType.Input, "fake-input"⟩, ⟨UnitState.Healthy, "Fake Healthy"⟩),
            (⟨UnitType.Input, "bad-input"⟩, ⟨UnitState.Healthy, "Fake Healthy 2"⟩)]⟩)] ∧
    ∃ r ∈ (Manager.settledAfter [] ⟨[fakeDefaultBad]⟩).current,
      r.comp = fakeDefaultBad ∧ r.stopping = false ∧
        (⟨UnitType.Input, "bad-input"⟩, ⟨UnitState.Failed, "hard-error for config"⟩) ∈
          r.state.Units := by
  refine ⟨by decide!, ?_⟩
  obtain ⟨r, hr, h1, h2, -, h4, -⟩ :=
    unit_err_failed_siblings_proceed [] ⟨[fakeDefaultBad]⟩ fakeDefaultBad (by decide)
      (by decide) rfl
  exact ⟨r, hr, h1, h2,
    h4 ⟨UnitType.Input, "bad-input"⟩ ⟨"bad-input", UnitType.Input, none,
      some "hard-error for config"⟩ "hard-error for config" (by decide) rfl⟩

end ElasticAgent
